import Mathlib

/-!
# k8s-config-projector: the projection engine, embedded in Lean

A shallow embedding of the Go packages `pkg/types/v1/datasource`,
`pkg/types/v1/manifest` and `pkg/output`, of `loadManifests` of `cmd/main.go`, and of the
parts of the Go libraries `strconv`, `unicode/utf8` and `encoding/json` that they rely on.

Conventions of the embedding
* a Go `string` that names something (a path, a format, a key, an identifier)
  is a Lean `String`; `len(s)` is `s.utf8ByteSize`; tests on single ASCII bytes
  (`strings.Contains(s, "*")`, `strings.HasSuffix`, `path.IsAbs`) are tests on
  the characters of `s.data`, which agree with the byte tests on UTF-8 text;
* a Go `[]byte` (file content) is a `List UInt8`;
* a Go `map[string]T` is an association list with at most one entry per key;
  `len(m)` is its length, a `range` loop visits the entries in list order;
* a method with a pointer receiver that mutates its receiver returns the
  receiver after the call together with the error (`none` for `nil`);
* a Go `error` is a value of `types.Error`; `nil` is `none`;
* a pointer that the code can meet as nil is an `Option`, `none` for the nil pointer; a
  run-time panic is the outcome `Outcome.panic`.
-/

set_option autoImplicit false

/-! ## Package `types`: the error values -/

namespace types

/-- Modelled from the spec: the sentinel error values of package `pkg/types`, whose
source file is not among the sources. Each `ErrXxx` is one distinct value; `other`
carries the message of an error made on the spot (`errors.New`, `fmt.Errorf`) or
coming from the file system or a decoder. -/
inductive Error where
  | ErrUnableToInferSourceFormat
  | ErrUnableToInferOutputFormat
  | ErrUnsupportedSourceType
  | ErrUnsupportedSourceFormat
  | ErrUnsupportedOutputFormat
  | ErrSourceGlobWithRawOutput
  | ErrOutputFileRequired
  | ErrOutputFormatRequiresExtractors
  | ErrWrongOutputFormatWithFieldExtractions
  | ErrFormatGlobRequiresNoOutputFile
  | ErrAbsolutePathSource
  | ErrMultipleExtractorsFound
  | ErrMissingName
  | ErrMissingNamespace
  | ErrInvalidName
  | ErrInvalidNamespace
  | other (msg : String)
  deriving DecidableEq, Repr

end types

open types.Error

/-! ## Go library functions used by the packages -/

/-- Content bytes: Go `[]byte`. -/
abbrev Bytes := List UInt8

/-- A Go map from `string`, as the list of its entries. -/
abbrev GoMap (β : Type) := List (String × β)

namespace strings

/-- Go `strings.Contains(s, "*")`, for a one-character substring. -/
def ContainsChar (s : String) (c : Char) : Bool := s.data.contains c

/-- Go `strings.HasSuffix(s, suffix)`. -/
def HasSuffix (s suffix : String) : Bool := suffix.data.isSuffixOf s.data

end strings

namespace path

/-- Go `path.IsAbs(p)`: `len(p) > 0 && p[0] == '/'`. -/
def IsAbs (p : String) : Bool :=
  match p.data with
  | c :: _ => c == '/'
  | [] => false

/-- The characters of `p` without its trailing slashes (the first loop of `path.Base`). -/
def stripTrailingSlashes (p : List Char) : List Char :=
  (p.reverse.dropWhile (fun c => c == '/')).reverse

/-- The characters after the last `'/'` of `p`, all of `p` when it has none
(`p[strings.LastIndexByte(p, '/')+1:]`). -/
def afterLastSlash (p : List Char) : List Char :=
  (p.reverse.takeWhile (fun c => c != '/')).reverse

/-- Go `path.Base(p)`: the last element of `p`. Trailing slashes are removed first;
`""` gives `"."`, a path of slashes only gives `"/"`. -/
def Base (p : String) : String :=
  if p = "" then "."
  else
    let last := afterLastSlash (stripTrailingSlashes p.data)
    if last = [] then "/" else String.mk last

end path

/-! ## Package `datasource`: the source descriptor -/

namespace datasource

/-- SourceFormat is a type of input format (`type SourceFormat string`). -/
abbrev SourceFormat := String

/-- OutputType is a type of output format (`type OutputType string`). -/
abbrev OutputType := String

/-- FormatFile is the default input format. -/
def FormatFile : SourceFormat := "file"
/-- FormatGlob takes a glob and expands to multiple raw outputs. -/
def FormatGlob : SourceFormat := "glob"
/-- FormatYAML reads a file in as yaml structured data. -/
def FormatYAML : SourceFormat := "yaml"
/-- FormatJSON reads a file in as json structured data. -/
def FormatJSON : SourceFormat := "json"
/-- OutputRaw outputs normal files. -/
def OutputRaw : OutputType := "raw"
/-- OutputJSON outputs extracted fields as JSON subsets. -/
def OutputJSON : OutputType := "json"
/-- OutputYAML outputs extracted fields as YAML subsets. -/
def OutputYAML : OutputType := "yaml"

/-- DataSource represents a config file source, resulting in 1 or more projected files.
`Source` is the `location` of the specification. -/
structure DataSource where
  Source : String
  OutputFile : String
  SourceFormat : SourceFormat
  Extract : String
  FieldExtractions : GoMap String
  OutputFormat : OutputType
  deriving DecidableEq, Repr

namespace DataSource

/-- isGlobSource tells us if the DataSource uses globs (not one file). -/
def isGlobSource (f : DataSource) : Bool := strings.ContainsChar f.Source '*'

/-- If source format is empty, infers proper format, or errors. -/
def inferredSourceFormat (f : DataSource) : Except types.Error datasource.SourceFormat :=
  if f.isGlobSource then .ok FormatGlob
  else if f.Source ≠ "" then
    if f.Extract = "" ∧ f.FieldExtractions.length = 0 then .ok FormatFile
    else if (f.Extract ≠ "" ∨ f.FieldExtractions.length > 0) ∧ strings.HasSuffix f.Source ".json" then
      .ok FormatJSON
    else if (f.Extract ≠ "" ∨ f.FieldExtractions.length > 0) ∧ strings.HasSuffix f.Source ".yaml" then
      .ok FormatYAML
    else .error ErrUnableToInferSourceFormat
  else .error ErrUnableToInferSourceFormat

/-- If output format is empty, infers proper format, or errors. -/
def inferredOutputFormat (f : DataSource) : Except types.Error datasource.OutputType :=
  if strings.HasSuffix f.Source ".json" ∧ f.FieldExtractions.length > 0 then .ok OutputJSON
  else if strings.HasSuffix f.Source ".yaml" ∧ f.FieldExtractions.length > 0 then .ok OutputYAML
  else if f.SourceFormat = FormatGlob then .ok OutputRaw
  else if (f.SourceFormat = FormatFile ∧ f.Extract = "" ∧ f.FieldExtractions.length = 0) ∨
      (f.SourceFormat = FormatJSON ∧ f.Extract ≠ "") ∨
      (f.SourceFormat = FormatYAML ∧ f.Extract ≠ "") then .ok OutputRaw
  else .error ErrUnableToInferOutputFormat

/-- The first step of `SetDefaults`: the source format. -/
def setDefaultSourceFormat (f : DataSource) : DataSource × Option types.Error :=
  if f.SourceFormat = "" then
    match f.inferredSourceFormat with
    | .error err => (f, some err)
    | .ok sf => ({ f with SourceFormat := sf }, none)
  else (f, none)

/-- The second step of `SetDefaults`: the output format. -/
def setDefaultOutputFormat (f : DataSource) : DataSource × Option types.Error :=
  if f.OutputFormat = "" then
    match f.inferredOutputFormat with
    | .error err => (f, some err)
    | .ok o => ({ f with OutputFormat := o }, none)
  else (f, none)

/-- The third step of `SetDefaults`: the output file. -/
def setDefaultOutputFile (f : DataSource) : DataSource :=
  if f.OutputFile = "" ∧ f.OutputFormat = OutputRaw ∧ f.SourceFormat = FormatFile then
    { f with OutputFile := path.Base f.Source }
  else f

/-- SetDefaults after loading from a yaml. Returns the descriptor as the call leaves it
(a failing step returns at once, earlier steps stay applied) and the error. -/
def SetDefaults (f : DataSource) : DataSource × Option types.Error :=
  match setDefaultSourceFormat f with
  | (f1, some err) => (f1, some err)
  | (f1, none) =>
    match setDefaultOutputFormat f1 with
    | (f2, some err) => (f2, some err)
    | (f2, none) => (setDefaultOutputFile f2, none)

/-- Validate validates a DataSource. -/
def Validate (f : DataSource) : Option types.Error :=
  if f.SourceFormat ≠ FormatFile ∧ f.SourceFormat ≠ FormatGlob ∧ f.SourceFormat ≠ FormatJSON ∧
      f.SourceFormat ≠ FormatYAML then
    some ErrUnsupportedSourceFormat
  else if f.OutputFormat ≠ OutputJSON ∧ f.OutputFormat ≠ OutputYAML ∧ f.OutputFormat ≠ OutputRaw then
    some ErrUnsupportedOutputFormat
  else if f.isGlobSource ∧ f.OutputFormat ≠ OutputRaw then
    some ErrSourceGlobWithRawOutput
  else if f.OutputFile = "" ∧
      (f.OutputFormat = OutputRaw ∨ f.OutputFormat = OutputJSON ∨ f.OutputFormat = OutputYAML) ∧
      f.SourceFormat ≠ FormatGlob then
    some ErrOutputFileRequired
  else if f.Extract = "" ∧ f.FieldExtractions.length = 0 ∧ f.OutputFormat ≠ OutputRaw then
    some ErrOutputFormatRequiresExtractors
  else if f.OutputFormat = OutputRaw ∧ f.FieldExtractions.length ≠ 0 then
    some ErrWrongOutputFormatWithFieldExtractions
  else if f.OutputFile ≠ "" ∧ f.SourceFormat = FormatGlob then
    some ErrFormatGlobRequiresNoOutputFile
  else if path.IsAbs f.Source then
    some ErrAbsolutePathSource
  else none

end DataSource

/-- The pre-check of the structured projections (`projectJSON`, `projectYAML`). -/
def validateBeforeStructuredProjection (d : DataSource) : Option types.Error :=
  if d.FieldExtractions.length > 0 ∧ ¬ (d.OutputFormat = OutputJSON ∨ d.OutputFormat = OutputYAML) then
    some ErrUnsupportedOutputFormat
  else if d.Extract ≠ "" ∧ d.OutputFormat ≠ OutputRaw then
    some ErrUnsupportedOutputFormat
  else if d.Extract ≠ "" ∧ d.FieldExtractions.length > 0 then
    some ErrMultipleExtractorsFound
  else if d.Extract = "" ∧ d.FieldExtractions.length = 0 then
    some ErrOutputFormatRequiresExtractors
  else none

end datasource

/-! ## Package `manifest`: the manifest aggregator -/

namespace GoMap

/-- The test `_, ok := m[k]` of a Go map. -/
def has {β : Type} (m : GoMap β) (k : String) : Bool := m.any (fun e => e.1 == k)

/-- The read `m[k]` of a Go map, `none` when the key is absent. -/
def get? {β : Type} (m : GoMap β) (k : String) : Option β := (m.find? (fun e => e.1 == k)).map Prod.snd

/-- The assignment `m[k] = v` of a Go map: the entry of `k` is replaced when there is
one, added otherwise. -/
def set {β : Type} : GoMap β → String → β → GoMap β
  | [], k, v => [(k, v)]
  | e :: m, k, v => if e.1 = k then (k, v) :: m else e :: set m k v

/-- The keys of a Go map. -/
def keys {β : Type} (m : GoMap β) : List String := m.map Prod.fst

end GoMap

/-- A Go `string` holding projected content: the conversion `string(v)` of a `[]byte`
keeps the bytes of `v` unchanged. -/
structure Text where
  bytes : Bytes
  deriving DecidableEq, Repr

/-- Go `string(v)` for `v : []byte`. -/
def stringOfBytes (v : Bytes) : Text := ⟨v⟩

namespace conf

/-- The part of `conf.Config` that the manifest reads. -/
structure Config where
  ConfigDir : String
  Generation : String
  LabelVersionKey : String
  LabelManagedKey : String
  deriving DecidableEq, Repr

end conf

namespace manifest

open datasource

/-- The part of `v1.ConfigMap` that `Project` fills. `Data` is `none` while the field is
nil (never assigned). -/
structure ConfigMap where
  Name : String
  Namespace : String
  Labels : GoMap String
  Kind : String
  APIVersion : String
  Data : Option (GoMap Text)
  deriving DecidableEq, Repr

/-- The character class `[a-z0-9]`. -/
def isLowerAlnum (c : Char) : Bool :=
  (decide ('a' ≤ c) && decide (c ≤ 'z')) || (decide ('0' ≤ c) && decide (c ≤ '9'))

/-- The character class `[a-z0-9\-\.]`. -/
def isNameChar (c : Char) : Bool := isLowerAlnum c || c == '-' || c == '.'

/-- The regular expression `^[a-z0-9][a-z0-9\-\.]+$` of `nameValidationRegexp`, as
`MatchString` decides it: the anchors `^` and `$` (no multi-line flag) make it match the
whole text only, so the text is one character of the first class followed by one or more
of the second. -/
def nameValidationRegexp (s : String) : Bool :=
  match s.data with
  | [] => false
  | c :: rest => isLowerAlnum c && !rest.isEmpty && rest.all isNameChar

/-- ConfigProjectionManifest is the user-supplied config ConfigProjectionManifest. `Data`
lists the descriptors that the entries of the Go slice `[]*ds.DataSource` point to: this is
the manifest none of whose entries is nil. The manifest as the YAML decoder leaves it, in
which an entry can be the nil pointer, is `DecodedManifest` below. -/
structure ConfigProjectionManifest where
  Name : String
  Namespace : String
  Data : List DataSource
  c : conf.Config
  deriving DecidableEq, Repr

/-- The inner loop of `Project`: the items of one descriptor are merged into `dataList`;
a key already present stops the projection with an error. -/
def mergeItems : GoMap Bytes → GoMap Text → Except types.Error (GoMap Text)
  | [], dataList => .ok dataList
  | (k, v) :: items, dataList =>
    if dataList.has k then
      .error (other ("duplicate projection key " ++ k ++ " in projection sources"))
    else mergeItems items (dataList.set k (stringOfBytes v))

/-- The outer loop of `Project` over the descriptors; `outcomes` lists, in declared order,
what `d.Project(basePath)` returns for each descriptor `d` of the manifest. -/
def projectLoop : List (Except types.Error (GoMap Bytes)) → GoMap Text →
    Except types.Error (GoMap Text)
  | [], dataList => .ok dataList
  | .error err :: _, _ => .error err
  | .ok projectedDataItems :: rest, dataList =>
    match mergeItems projectedDataItems dataList with
    | .error err => .error err
    | .ok dataList1 => projectLoop rest dataList1

namespace ConfigProjectionManifest

/-- Project - return the config projections of the ConfigProjectionManifest.
`project d basePath` stands for the call `d.Project(basePath)`. -/
def Project (m : ConfigProjectionManifest)
    (project : DataSource → String → Except types.Error (GoMap Bytes)) :
    ConfigMap × Option types.Error :=
  let basePath := m.c.ConfigDir
  let cm : ConfigMap :=
    { Name := m.Name
      Namespace := m.Namespace
      Labels := (GoMap.set [] m.c.LabelVersionKey m.c.Generation).set m.c.LabelManagedKey "true"
      Kind := "ConfigMap"
      APIVersion := "v1"
      Data := none }
  match projectLoop (m.Data.map (fun d => project d basePath)) [] with
  | .error err => (cm, some err)
  | .ok dataList => ({ cm with Data := some dataList }, none)

/-- The loop of `Validate` over the descriptors: the first error stops it. -/
def validateData : List DataSource → Option types.Error
  | [] => none
  | d :: rest =>
    match d.Validate with
    | some err => some err
    | none => validateData rest

/-- Validate validates a ProjectionManifest. -/
def Validate (m : ConfigProjectionManifest) : Option types.Error :=
  if m.Name = "" then some ErrMissingName
  else if m.Namespace = "" then some ErrMissingNamespace
  else if m.Name.utf8ByteSize > 253 ∨ ¬ nameValidationRegexp m.Name then some ErrInvalidName
  else if m.Namespace.utf8ByteSize > 253 ∨ ¬ nameValidationRegexp m.Namespace then
    some ErrInvalidNamespace
  else validateData m.Data

end ConfigProjectionManifest

end manifest

/-! ## The rules of the specification, as it words them -/

namespace Spec

open datasource

/-- The eight validation rules of a source descriptor in the order the specification
lists them: each is the condition under which the rule is violated, paired with the error
it gives. A glob location is a location that contains `'*'`. -/
def validateRules (f : DataSource) : List (Bool × types.Error) :=
  [ (decide (f.SourceFormat ∉ ["file", "glob", "yaml", "json"]), ErrUnsupportedSourceFormat),
    (decide (f.OutputFormat ∉ ["raw", "json", "yaml"]), ErrUnsupportedOutputFormat),
    (decide ('*' ∈ f.Source.data ∧ f.OutputFormat ≠ "raw"), ErrSourceGlobWithRawOutput),
    (decide (f.OutputFile = "" ∧ f.SourceFormat ≠ "glob"), ErrOutputFileRequired),
    (decide (f.Extract = "" ∧ f.FieldExtractions = [] ∧ f.OutputFormat ≠ "raw"),
      ErrOutputFormatRequiresExtractors),
    (decide (f.OutputFormat = "raw" ∧ f.FieldExtractions ≠ []),
      ErrWrongOutputFormatWithFieldExtractions),
    (decide (f.OutputFile ≠ "" ∧ f.SourceFormat = "glob"), ErrFormatGlobRequiresNoOutputFile),
    (decide (f.Source.data.head? = some '/'), ErrAbsolutePathSource) ]

/-- The error of the first violated rule of an ordered list of rules, `none` when no rule
is violated. -/
def firstViolation : List (Bool × types.Error) → Option types.Error
  | [] => none
  | (violated, err) :: rest => if violated then some err else firstViolation rest

/-- A valid manifest identifier in the words of the specification: non-empty, at most 253
bytes long, and matching `^[a-z0-9][a-z0-9\-.]+$`. -/
def validIdentifier (s : String) : Prop :=
  s ≠ "" ∧ s.utf8ByteSize ≤ 253 ∧ manifest.nameValidationRegexp s = true

instance (s : String) : Decidable (validIdentifier s) := by
  unfold validIdentifier
  infer_instance

end Spec

/-! ## The raw projections of a source descriptor: `file` and `glob` -/

namespace strings

/-- The loop of Go `strings.Split` for a non-empty separator: `cur` holds, reversed, the
characters read since the last separator; `fuel` bounds the number of steps (one more than
the length of the text is enough, each step consumes a character). -/
def splitAux (sep : List Char) : Nat → List Char → List Char → List (List Char)
  | 0, s, cur => [cur.reverse ++ s]
  | _ + 1, [], cur => [cur.reverse]
  | fuel + 1, c :: cs, cur =>
    if sep.isPrefixOf (c :: cs) then
      cur.reverse :: splitAux sep fuel ((c :: cs).drop sep.length) []
    else splitAux sep fuel cs (c :: cur)

/-- Go `strings.Split(s, sep)`: the pieces of `s` between the occurrences of `sep`, found
from the left without overlap; with an empty `sep`, the characters of `s` one by one. -/
def Split (s sep : String) : List String :=
  if sep = "" then s.data.map (fun c => String.mk [c])
  else (splitAux sep.data (s.data.length + 1) s.data []).map String.mk

/-- Go `strings.TrimLeft(s, "/")`: `s` without its leading slashes. -/
def TrimLeftSlash (s : String) : String := String.mk (s.data.dropWhile (fun c => c == '/'))

/-- Go `s[strings.LastIndex(s, "/")+1:]`: what follows the last `'/'` of `s`. -/
def afterLastSlash (s : String) : String := String.mk (path.afterLastSlash s.data)

end strings

namespace bytes

/-- Go `bytes.TrimSuffix(b, suffix)`: `b` without the trailing `suffix`, `b` itself when it
does not end with `suffix`. -/
def TrimSuffix (b suffix : Bytes) : Bytes :=
  if suffix.isSuffixOf b then b.take (b.length - suffix.length) else b

end bytes

namespace path

/-- The elements of a path: its pieces between slashes. -/
def elements : List Char → List Char → List (List Char)
  | [], cur => [cur.reverse]
  | c :: cs, cur => if c = '/' then cur.reverse :: elements cs [] else elements cs (c :: cur)

/-- The loop of Go `path.Clean`, element by element; `out` holds the elements kept so far,
last one first. An empty element and `.` are dropped; `..` removes the last kept element
when there is one that is not itself `..`, is dropped at the root, and is kept otherwise. -/
def cleanElements (rooted : Bool) : List (List Char) → List (List Char) → List (List Char)
  | [], out => out.reverse
  | e :: es, out =>
    if e = [] ∨ e = ['.'] then cleanElements rooted es out
    else if e = ['.', '.'] then
      match out with
      | [] => if rooted then cleanElements rooted es [] else cleanElements rooted es [e]
      | o :: os =>
        if o = ['.', '.'] then cleanElements rooted es (e :: o :: os)
        else cleanElements rooted es os
    else cleanElements rooted es (e :: out)

/-- Go `path.Clean(p)`: the shortest path name equivalent to `p` by purely lexical
processing. -/
def Clean (p : String) : String :=
  if p = "" then "."
  else
    let rooted := p.data.head? = some '/'
    let kept := cleanElements rooted (elements p.data []) []
    let body := List.intercalate ['/'] kept
    if rooted then String.mk ('/' :: body)
    else if body = [] then "." else String.mk body

/-- Go `path.Join(elem...)` (and `filepath.Join` on a system whose separator is `'/'`): the
non-empty elements joined with `'/'` and cleaned; `""` when all elements are empty. -/
def Join (elem : List String) : String :=
  match elem.filter (fun e => e ≠ "") with
  | [] => ""
  | es => Clean (String.intercalate "/" es)

end path

namespace datasource

/-- The file system as `DataSource.Project` sees it: `Glob pattern` is what
`filepath.Glob(pattern)` returns, `ReadFile name` what `ioutil.ReadFile(name)` returns. -/
structure FileSystem where
  Glob : String → Except types.Error (List String)
  ReadFile : String → Except types.Error Bytes

/-- What a piece of code does: it runs into a run-time panic, or it returns. -/
inductive Outcome (α : Type) where
  | panic
  | returns (a : α)
  deriving DecidableEq, Repr

namespace DataSource

/-- The first lines of the body of the glob loop of `Project`, for one matched file `v`:
the output key `name` and the path `source` of the file that is read. The index expression
`strings.Split(v, basePath)[1]` panics when the split has fewer than two pieces. -/
def globEntry (basePath v : String) : Outcome (String × String) :=
  match (strings.Split v basePath)[1]? with
  | none => .panic
  | some piece =>
    let relativeSource := strings.TrimLeftSlash piece
    let name := strings.afterLastSlash relativeSource
    .returns (name, path.Join [basePath, relativeSource])

/-- The glob loop of `Project` over the matched files. -/
def projectGlobLoop (fs : FileSystem) (basePath : String) :
    List String → GoMap Bytes → Outcome (Except types.Error (GoMap Bytes))
  | [], projectedFiles => .returns (.ok projectedFiles)
  | v :: files, projectedFiles =>
    match globEntry basePath v with
    | .panic => .panic
    | .returns (name, source) =>
      if projectedFiles.has name then
        .returns (.error (other ("existing file projection with name " ++ name)))
      else
        match fs.ReadFile source with
        | .error err => .returns (.error err)
        | .ok buf => projectGlobLoop fs basePath files (projectedFiles.set name (bytes.TrimSuffix buf [10]))

/-- The `FormatGlob` branch of `Project`. -/
def projectGlob (f : DataSource) (fs : FileSystem) (basePath : String) :
    Outcome (Except types.Error (GoMap Bytes)) :=
  match fs.Glob (path.Join [basePath, f.Source]) with
  | .error err => .returns (.error err)
  | .ok files => projectGlobLoop fs basePath files []

/-- The `FormatFile` branch of `Project`. -/
def projectFile (f : DataSource) (fs : FileSystem) (basePath : String) :
    Outcome (Except types.Error (GoMap Bytes)) :=
  if GoMap.has ([] : GoMap Bytes) f.OutputFile then
    .returns (.error (other ("existing file projection with name " ++ f.OutputFile)))
  else
    match fs.ReadFile (path.Join [basePath, f.Source]) with
    | .error err => .returns (.error err)
    | .ok buf => .returns (.ok (GoMap.set [] f.OutputFile (bytes.TrimSuffix buf [10])))

end DataSource

end datasource

/-! ## The value coercer -/

/-- Go `[]byte(s)` for a string `s`: the UTF-8 bytes of the text. -/
def bytesOfString (s : String) : Bytes := s.data.flatMap String.utf8EncodeChar

namespace strings

/-- Go `strings.ContainsAny(s, chars)`. -/
def ContainsAny (s chars : String) : Bool := s.data.any (fun c => chars.data.contains c)

/-- Go `strings.Join(elems, sep)`. -/
def Join (elems : List String) (sep : String) : String := String.intercalate sep elems

end strings

namespace strconv

/-- The decimal digits of `n`, most significant first, `[0]` for zero; `fuel` bounds the
number of digits produced. -/
def decDigits : Nat → Nat → List Nat → List Nat
  | 0, _, acc => acc
  | fuel + 1, n, acc => if n < 10 then n :: acc else decDigits fuel (n / 10) (n % 10 :: acc)

/-- The character of a decimal digit. -/
def digitChar (d : Nat) : Char := Char.ofNat (48 + d)

/-- Go `strconv.FormatUint(n, 10)`: `n` in decimal without leading zeros. -/
def FormatUint (n : Nat) : String := String.mk ((decDigits (n + 1) n []).map digitChar)

/-- Go `strconv.FormatInt(i, 10)` (and `strconv.Itoa`): the decimal form of `i`, with a
leading `-` when `i` is negative. -/
def FormatInt (i : Int) : String :=
  if i < 0 then String.mk ('-' :: (FormatUint i.natAbs).data) else FormatUint i.toNat

/-- Go `strconv.FormatBool`. -/
def FormatBool (b : Bool) : String := if b then "true" else "false"

/-- The value of a run of decimal digits after the value `acc` of the digits before it;
`none` when a character is not a decimal digit. -/
def parseDigits : List Char → Nat → Option Nat
  | [], acc => some acc
  | c :: cs, acc =>
    if '0' ≤ c ∧ c ≤ '9' then parseDigits cs (acc * 10 + (c.toNat - 48)) else none

/-- Go `strconv.ParseUint(s, 10, 64)`, `none` for an error: the text must be one decimal
digit or more (syntax error otherwise) and its value must be below `2^64` (range error
otherwise). -/
def ParseUint (s : List Char) : Option Nat :=
  if s = [] then none
  else
    match parseDigits s 0 with
    | none => none
    | some un => if un < 2 ^ 64 then some un else none

/-- Go `strconv.ParseInt(s, 10, 64)`, `none` for an error: an optional sign `+` or `-`, then
`ParseUint`; the value must lie between `-2^63` and `2^63 - 1` (range error otherwise). -/
def ParseInt (s : String) : Option Int :=
  match s.data with
  | [] => none
  | c :: cs =>
    let neg := decide (c = '-')
    let body := if c = '+' ∨ c = '-' then cs else c :: cs
    match ParseUint body with
    | none => none
    | some un =>
      if neg = false ∧ un ≥ 2 ^ 63 then none
      else if neg = true ∧ un > 2 ^ 63 then none
      else some (if neg then - (un : Int) else (un : Int))

/-- A Go `float64`: one of the `2^64` bit patterns of IEEE-754 binary64
(`math.Float64bits`). -/
abbrev Float64 := Fin (2 ^ 64)

/-- The two floating-point functions of Go's `strconv` that the value coercer calls. They
are library code outside the repository and are taken as parameters:
`ParseFloat s` is `strconv.ParseFloat(s, 64)`, `none` when it returns an error;
`FormatFloat f` is `strconv.FormatFloat(f, 'f', -1, 64)`. -/
structure FloatLib where
  ParseFloat : String → Option Float64
  FormatFloat : Float64 → String

end strconv

namespace datasource

/-- The dynamic values (`interface{}`) that the JSON and YAML decoders produce and the
value coercer receives. `number` is a `json.Number`, the text of a JSON number literal;
`slice` is a `[]interface{}`, `map` a `map[string]interface{}`, `null` the nil interface. -/
inductive GoValue where
  | string (s : String)
  | int64 (i : Int)
  | int (i : Int)
  | float64 (f : strconv.Float64)
  | number (s : String)
  | bool (b : Bool)
  | slice (xs : List GoValue)
  | map (m : List (String × GoValue))
  | null

/-- The loop of the slice case of `convertInterfaceValueToBytes`: the elements as strings,
or an error at the first element that is not a string. -/
def stringsOfSlice : List GoValue → Except types.Error (List String)
  | [] => .ok []
  | .string s :: xs =>
    match stringsOfSlice xs with
    | .ok ss => .ok (s :: ss)
    | .error err => .error err
  | _ :: _ =>
    .error (other ("unable extract scalar value from slice, only []string are supported " ++
      "currently. try extracting a specific element. unsupported datatype"))

/-- Takes some interface and returns it converted to a byte buffer. The recursive calls of
the `json.Number` case (on a string, an int64, a float64) are unfolded in place. The text of
an error made with `fmt.Errorf` is kept without the rendering of the value. -/
def convertInterfaceValueToBytes (lib : strconv.FloatLib) : GoValue → Except types.Error Bytes
  | .string s => .ok (bytesOfString s)
  | .int64 i => .ok (bytesOfString (strconv.FormatInt i))
  | .int i => .ok (bytesOfString (strconv.FormatInt i))
  | .float64 f => .ok (bytesOfString (lib.FormatFloat f))
  | .number dataString =>
    if strings.ContainsAny dataString "eE" then .ok (bytesOfString dataString)
    else
      match strconv.ParseInt dataString with
      | some i => .ok (bytesOfString (strconv.FormatInt i))
      | none =>
        match lib.ParseFloat dataString with
        | some f => .ok (bytesOfString (lib.FormatFloat f))
        | none => .error (other "Unable to convert json.Number to any value of Int64 or Float64")
  | .bool b => .ok (bytesOfString (strconv.FormatBool b))
  | .slice xs =>
    match stringsOfSlice xs with
    | .ok s => .ok (bytesOfString (strings.Join s ","))
    | .error err => .error err
  | _ => .error (other "unable extract scalar value, unsupported datatype")

end datasource

namespace Spec

/-- The integer that a decimal text denotes: an optional minus sign followed by one decimal
digit or more, nothing else (no fraction, no exponent); `none` for any other text. -/
def integerLiteralValue (s : String) : Option Int :=
  match s.data with
  | [] => none
  | c :: cs =>
    if c = '-' then
      if cs = [] then none else (strconv.parseDigits cs 0).map (fun (n : Nat) => - (n : Int))
    else (strconv.parseDigits (c :: cs) 0).map (fun (n : Nat) => (n : Int))

/-- The integer that output bytes denote, read as decimal ASCII text. -/
def denotedInteger (out : Bytes) : Option Int :=
  integerLiteralValue (String.mk (out.map (fun b => Char.ofNat b.toNat)))

end Spec

namespace Spec

/-- The content `c` with its final byte removed when that byte is a newline, `c` itself
otherwise. -/
def stripOneNewline (c : Bytes) : Bytes :=
  if c.getLast? = some 10 then c.dropLast else c

end Spec

namespace Spec

/-- The elements of a list of texts in their original order with a single `','` between
neighbours: nothing for the empty list, the element itself for a one-element list, and no
change to the elements (a comma inside an element stays as it is). -/
def joinWithComma : List String → String
  | [] => ""
  | [x] => x
  | x :: y :: rest => x ++ "," ++ joinWithComma (y :: rest)

/-- Whether a decoded value is a text. -/
def isText : datasource.GoValue → Bool
  | .string _ => true
  | _ => false

end Spec

namespace Spec

/-- Whether `ds` is a run of decimal digits without leading zeros: one digit or more, and a
first digit `0` only when it is the only one. -/
def canonicalDigits (ds : List Char) : Bool :=
  !ds.isEmpty && ds.all (fun c => decide ('0' ≤ c ∧ c ≤ '9')) &&
    (ds.head? != some '0' || ds.length == 1)

/-- Whether the text `s` is the canonical decimal form of the integer `n`: a leading `'-'`
exactly when `n` is negative, then digits without leading zeros. -/
def isCanonicalDecimal (s : String) (n : Int) : Bool :=
  match s.data with
  | [] => false
  | c :: cs =>
    if c = '-' then decide (n < 0) && canonicalDigits cs
    else decide (0 ≤ n) && canonicalDigits (c :: cs)

end Spec

namespace Spec

/-- An identifier that the name rule of a manifest rejects: it is longer than 253
characters, or shorter than 2 characters, or its first character is not a lower-case
alphanumeric, or it contains a character other than a lower-case alphanumeric, `'-'` and
`'.'`. -/
def malformedIdentifier (s : String) : Prop :=
  s.data.length > 253 ∨ s.data.length < 2 ∨
    (∃ c, s.data.head? = some c ∧ manifest.isLowerAlnum c = false) ∨
    (∃ c ∈ s.data, manifest.isNameChar c = false)

end Spec

/-! ## The structured projections and the dispatch of `Project` -/

namespace datasource

/-- The decoders, the path query and the encoders that the structured projections call.
They are library code outside the repository and are taken as parameters; a failure carries
the text of its error.
`jsonDecode` is `json.NewDecoder` with `UseNumber` followed by `Decode`, `yamlUnmarshal` is
`yaml.Unmarshal`, `JsonPathLookup` is `jsonpath.JsonPathLookup`, `jsonMarshal` and
`yamlMarshal` are `json.Marshal` and `yaml.Marshal` on a `map[string]interface{}`. -/
structure Codecs where
  float : strconv.FloatLib
  jsonDecode : Bytes → Except String GoValue
  yamlUnmarshal : Bytes → Except String GoValue
  JsonPathLookup : GoValue → String → Except String GoValue
  jsonMarshal : GoMap GoValue → Except String Bytes
  yamlMarshal : GoMap GoValue → Except String Bytes

/-- The loop of a structured projection over `field_extractions`: each path is resolved
and bound to its label in `resArray`; the first failing lookup stops the projection. -/
def extractFields (lookup : String → Except String GoValue) :
    GoMap String → GoMap GoValue → Except types.Error (GoMap GoValue)
  | [], resArray => .ok resArray
  | (label, jpath) :: rest, resArray =>
    match lookup jpath with
    | .error msg => .error (other msg)
    | .ok res => extractFields lookup rest (resArray.set label res)

/-- The common body of `projectJSON` and `projectYAML`, which differ by the decoder only.
The value returned is the map when the error is nil, the error otherwise. -/
def projectStructured (c : Codecs) (decode : Bytes → Except String GoValue) (d : DataSource)
    (fs : FileSystem) (basePath : String) : Except types.Error (GoMap Bytes) :=
  match validateBeforeStructuredProjection d with
  | some err => .error err
  | none =>
    match fs.ReadFile (path.Join [basePath, d.Source]) with
    | .error err => .error err
    | .ok content =>
      match decode content with
      | .error msg => .error (other msg)
      | .ok data =>
        if d.Extract ≠ "" then
          match c.JsonPathLookup data d.Extract with
          | .error msg => .error (other msg)
          | .ok res =>
            match convertInterfaceValueToBytes c.float res with
            | .error err => .error err
            | .ok v => .ok [(d.OutputFile, v)]
        else
          match extractFields (c.JsonPathLookup data) d.FieldExtractions [] with
          | .error err => .error err
          | .ok resArray =>
            if d.OutputFormat = OutputJSON then
              match c.jsonMarshal resArray with
              | .error msg => .error (other msg)
              | .ok v => .ok [(d.OutputFile, v)]
            else if d.OutputFormat = OutputYAML then
              match c.yamlMarshal resArray with
              | .error msg => .error (other msg)
              | .ok v => .ok [(d.OutputFile, v)]
            else .error ErrUnsupportedOutputFormat

namespace DataSource

/-- projectJSON will extract fields from the json source and project it into the desired
output format. -/
def projectJSON (d : DataSource) (c : Codecs) (fs : FileSystem) (basePath : String) :
    Except types.Error (GoMap Bytes) :=
  projectStructured c c.jsonDecode d fs basePath

/-- projectYAML will extract fields from the yaml source and project it into the desired
output format. -/
def projectYAML (d : DataSource) (c : Codecs) (fs : FileSystem) (basePath : String) :
    Except types.Error (GoMap Bytes) :=
  projectStructured c c.yamlUnmarshal d fs basePath

/-- Project will take a base path and project the source into a list of byte arrays,
performing any extraction and globbing necessary. -/
def Project (f : DataSource) (c : Codecs) (fs : FileSystem) (basePath : String) :
    Outcome (Except types.Error (GoMap Bytes)) :=
  if f.SourceFormat = FormatGlob then f.projectGlob fs basePath
  else if f.SourceFormat = FormatFile then f.projectFile fs basePath
  else if f.SourceFormat = FormatJSON then .returns (f.projectJSON c fs basePath)
  else if f.SourceFormat = FormatYAML then .returns (f.projectYAML c fs basePath)
  else .returns (.error ErrUnsupportedSourceType)

end DataSource

end datasource

/-! ## Loading the manifests -/

namespace manifest

open datasource

/-- The Go struct `ConfigProjectionManifest` as `LoadFromYAMLBytes` holds it: `Data` is a
`[]*ds.DataSource`, and a null item of the YAML list (`- ~`) decodes to a nil pointer,
`none` here. A method call on a nil entry dereferences it and panics. -/
structure DecodedManifest where
  Name : String
  Namespace : String
  Data : List (Option DataSource)
  c : conf.Config
  deriving DecidableEq, Repr

/-- The manifest none of whose entries is nil, as a decoded manifest. -/
def ConfigProjectionManifest.toDecoded (m : ConfigProjectionManifest) : DecodedManifest :=
  ⟨m.Name, m.Namespace, m.Data.map some, m.c⟩

namespace DecodedManifest

/-- The loop of `SetDefaults` over the entries, each defaulted in place; the first failure
stops it and leaves the later entries untouched; `d.SetDefaults()` on a nil entry reads
`f.SourceFormat` through the nil pointer and panics. -/
def setDefaultsData : List (Option DataSource) →
    Outcome (List (Option DataSource) × Option types.Error)
  | [] => .returns ([], none)
  | none :: _ => .panic
  | some d :: rest =>
    match d.SetDefaults with
    | (d1, some err) => .returns (some d1 :: rest, some err)
    | (d1, none) =>
      match setDefaultsData rest with
      | .panic => .panic
      | .returns (rest1, err) => .returns (some d1 :: rest1, err)

/-- SetDefaults after loading from a yaml. -/
def SetDefaults (m : DecodedManifest) : Outcome (DecodedManifest × Option types.Error) :=
  match setDefaultsData m.Data with
  | .panic => .panic
  | .returns (data, err) => .returns ({ m with Data := data }, err)

/-- The loop of `Validate` over the entries: the first error stops it; `d.Validate()` on a
nil entry reads `f.SourceFormat` through the nil pointer and panics. -/
def validateData : List (Option DataSource) → Outcome (Option types.Error)
  | [] => .returns none
  | none :: _ => .panic
  | some d :: rest =>
    match d.Validate with
    | some err => .returns (some err)
    | none => validateData rest

/-- Validate validates a ProjectionManifest. -/
def Validate (m : DecodedManifest) : Outcome (Option types.Error) :=
  if m.Name = "" then .returns (some ErrMissingName)
  else if m.Namespace = "" then .returns (some ErrMissingNamespace)
  else if m.Name.utf8ByteSize > 253 ∨ ¬ nameValidationRegexp m.Name then
    .returns (some ErrInvalidName)
  else if m.Namespace.utf8ByteSize > 253 ∨ ¬ nameValidationRegexp m.Namespace then
    .returns (some ErrInvalidNamespace)
  else validateData m.Data

end DecodedManifest

/-- LoadFromYAMLBytes - load a ConfigProjectionManifest from a byte slice typically read
from IO. `unmarshalStrict raw` stands for `yaml.UnmarshalStrict(raw, &m)`: the manifest as
the decoder leaves it and the text of its error, if any. The error of `SetDefaults` is not
looked at; a panic of `SetDefaults` or of `Validate` ends the call. -/
def LoadFromYAMLBytes (unmarshalStrict : Bytes → DecodedManifest × Option String)
    (raw : Bytes) (cfg : conf.Config) : Outcome (DecodedManifest × Option types.Error) :=
  match unmarshalStrict raw with
  | (m, some msg) => .returns (m, some (other msg))
  | (m, none) =>
    match m.SetDefaults with
    | .panic => .panic
    | .returns (m0, _) =>
      let m1 := { m0 with c := cfg }
      match m1.Validate with
      | .panic => .panic
      | .returns (some err) => .returns (m1, some err)
      | .returns none => .returns (m1, none)

end manifest

namespace main

open datasource manifest

/-- One call that `filepath.Walk` makes to its function: the path, the error it passes, and
the file information (`Name()`, `IsDir()`), `none` for a nil `info`. -/
structure WalkEntry where
  path : String
  err : Option types.Error
  info : Option (String × Bool)

/-- The environment of `loadManifests`: the file system, the YAML decoder, the calls that
`filepath.Walk(rootpath, ...)` makes in order for as long as the function returns nil, and
the text `err.Error()` of an error value. -/
structure LoadEnv where
  fs : FileSystem
  unmarshalStrict : Bytes → DecodedManifest × Option String
  walk : String → List WalkEntry
  errorText : types.Error → String

/-- The walk of `loadManifests`. `manifests` is the named result, `none` while it is the nil
map: a nil map can be read (no key is present) but an assignment to it panics. The walk
stops at the first error that the function returns. -/
def loadManifestsWalk (env : LoadEnv) (cfg : conf.Config) :
    List WalkEntry → Option (GoMap DecodedManifest) →
    Outcome (Option (GoMap DecodedManifest) × Option types.Error)
  | [], manifests => .returns (manifests, none)
  | e :: rest, manifests =>
    match e.err with
    | some err => .returns (manifests, some err)
    | none =>
      match e.info with
      | none => loadManifestsWalk env cfg rest manifests
      | some (name, isDir) =>
        if isDir then loadManifestsWalk env cfg rest manifests
        else if ¬ strings.HasSuffix name ".yaml" then loadManifestsWalk env cfg rest manifests
        else
          match env.fs.ReadFile e.path with
          | .error err => .returns (manifests, some (other (e.path ++ ": " ++ env.errorText err)))
          | .ok raw =>
            match LoadFromYAMLBytes env.unmarshalStrict raw cfg with
            | .panic => .panic
            | .returns (_, some err) =>
              .returns (manifests, some (other (e.path ++ ": " ++ env.errorText err)))
            | .returns (m, none) =>
              let key := m.Namespace ++ "/" ++ m.Name
              if GoMap.has (manifests.getD []) key then
                .returns (manifests, some (other ("duplicate projection mapping found at namespace=" ++
                  m.Namespace ++ " name=" ++ m.Name ++ " file=" ++ e.path)))
              else
                match manifests with
                | none => .panic
                | some entries => loadManifestsWalk env cfg rest (some (entries.set key m))

/-- loadManifests takes a conf.Config, determines the root manifest path, and recursively
finds all yaml manifests under it. `manifestDir` is `cfg.ManifestDir()`. The named result
`manifests` is never initialised, so the walk starts from the nil map. -/
def loadManifests (env : LoadEnv) (cfg : conf.Config) (manifestDir : String) :
    Outcome (Option (GoMap DecodedManifest) × Option types.Error) :=
  loadManifestsWalk env cfg (env.walk manifestDir) none

end main

/-! ## Package `output`: the names of the generated files -/

namespace output

/-- BuildFileOutputName - Creates the output file name in the form of
{namespace}--{name}--{timestamp}.yaml (`fmt.Sprintf("%s--%s--%d.yaml", ...)`: the two texts as
they are, the timestamp in decimal). -/
def BuildFileOutputName (namespace_ : String) (name : String) (timestamp : Int) : String :=
  namespace_ ++ "--" ++ name ++ "--" ++ strconv.FormatInt timestamp ++ ".yaml"

/-- The character class `[^a-zA-Z0-9-.]` of `FormatName`: every character that is not an
ASCII letter, a digit, `'-'` or `'.'` (the `-` after the range `0-9` is a literal). -/
def formatNameClass (c : Char) : Bool :=
  !((decide ('a' ≤ c) && decide (c ≤ 'z')) || (decide ('A' ≤ c) && decide (c ≤ 'Z')) ||
    (decide ('0' ≤ c) && decide (c ≤ '9')) || c == '-' || c == '.')

/-- What the replacement template `$1-$2` expands to at a match: the expression has no
capture group, so `$1` and `$2` expand to the empty text and `-` is all that is left. -/
def formatNameReplacement : List Char := ['-']

/-- FormatName - Format name to k8s compatible string to only include alpha numeric and -.
`re.ReplaceAllString(name, "$1-$2")` for a one-character expression: each character of the
class is a match and is replaced by the expansion of the template, the others are copied. -/
def FormatName (name : String) : String :=
  String.mk (name.data.flatMap (fun c => if formatNameClass c then formatNameReplacement else [c]))

end output

namespace Spec

/-- The characters that the specification lets a formatted name keep: ASCII letters, digits,
`'-'` and `'.'`. -/
def keptInName (c : Char) : Bool := c.isAlpha || c.isDigit || c = '-' || c = '.'

/-- A text contains two hyphens in a row. -/
def hasDoubleHyphen (s : String) : Prop := ['-', '-'] <:+: s.data

instance (s : String) : Decidable (hasDoubleHyphen s) := by
  unfold hasDoubleHyphen
  exact inferInstance

end Spec

/-! ## Package `unicode/utf8` -/

namespace utf8

/-- Go `utf8.RuneError`, the replacement character U+FFFD. -/
def RuneError : Char := Char.ofNat 0xFFFD

/-- A byte between `lo` and `hi`. -/
def inRange (lo hi : Nat) (b : UInt8) : Bool := decide (lo ≤ b.toNat) && decide (b.toNat ≤ hi)

/-- Go `utf8.DecodeRune`: the first rune of the bytes and the bytes after it. An encoding
that is invalid (an unexpected byte, an overlong form, a surrogate, a value above U+10FFFF)
or cut short gives `RuneError` and consumes one byte. The accepted ranges of the second
byte are those of Go's `acceptRanges` table. -/
def DecodeRune : Bytes → Char × Bytes
  | [] => (RuneError, [])
  | b0 :: rest =>
    let x := b0.toNat
    if x < 0x80 then (Char.ofNat x, rest)
    else if 0xC2 ≤ x ∧ x ≤ 0xDF then
      match rest with
      | b1 :: r1 =>
        if inRange 0x80 0xBF b1 then
          (Char.ofNat ((x - 0xC0) * 64 + (b1.toNat - 0x80)), r1)
        else (RuneError, rest)
      | _ => (RuneError, rest)
    else if 0xE0 ≤ x ∧ x ≤ 0xEF then
      match rest with
      | b1 :: b2 :: r2 =>
        if inRange (if x = 0xE0 then 0xA0 else 0x80) (if x = 0xED then 0x9F else 0xBF) b1 ∧
            inRange 0x80 0xBF b2 then
          (Char.ofNat ((x - 0xE0) * 4096 + (b1.toNat - 0x80) * 64 + (b2.toNat - 0x80)), r2)
        else (RuneError, rest)
      | _ => (RuneError, rest)
    else if 0xF0 ≤ x ∧ x ≤ 0xF4 then
      match rest with
      | b1 :: b2 :: b3 :: r3 =>
        if inRange (if x = 0xF0 then 0x90 else 0x80) (if x = 0xF4 then 0x8F else 0xBF) b1 ∧
            inRange 0x80 0xBF b2 ∧ inRange 0x80 0xBF b3 then
          (Char.ofNat ((x - 0xF0) * 262144 + (b1.toNat - 0x80) * 4096 +
            (b2.toNat - 0x80) * 64 + (b3.toNat - 0x80)), r3)
        else (RuneError, rest)
      | _ => (RuneError, rest)
    else (RuneError, rest)

/-- The runes of a byte sequence, as a `for range` loop over `string(b)` yields them;
`fuel` bounds the number of runes, and the length of the sequence is always enough. -/
def runesAux : Nat → Bytes → List Char
  | 0, _ => []
  | _ + 1, [] => []
  | fuel + 1, b :: bs => (DecodeRune (b :: bs)).1 :: runesAux fuel (DecodeRune (b :: bs)).2

/-- The runes of a byte sequence. -/
def runes (b : Bytes) : List Char := runesAux b.length b

end utf8

/-! ## Package `encoding/json` -/

namespace json

open datasource

/-- The white space of the scanner (`isSpace`). -/
def isSpace (c : Char) : Bool := c = ' ' || c = '\t' || c = '\r' || c = '\n'

/-- The text without its leading white space. -/
def skipSpace (cs : List Char) : List Char := cs.dropWhile isSpace

/-- The value of a hexadecimal digit. -/
def hexValue (c : Char) : Option Nat :=
  if '0' ≤ c ∧ c ≤ '9' then some (c.toNat - 48)
  else if 'a' ≤ c ∧ c ≤ 'f' then some (c.toNat - 87)
  else if 'A' ≤ c ∧ c ≤ 'F' then some (c.toNat - 55)
  else none

/-- Four hexadecimal digits: their value and the text after them. -/
def hex4 : List Char → Option (Nat × List Char)
  | a :: b :: c :: d :: rest =>
    match hexValue a, hexValue b, hexValue c, hexValue d with
    | some x, some y, some z, some w => some (((x * 16 + y) * 16 + z) * 16 + w, rest)
    | _, _, _, _ => none
  | _ => none

/-- Go `getu4`: the value of a `\uXXXX` escape at the head of the text. -/
def getu4 : List Char → Option (Nat × List Char)
  | c :: d :: rest => if c = '\\' ∧ d = 'u' then hex4 rest else none
  | _ => none

/-- One escape of a string literal, read after its backslash: the character it denotes and
the text after it. The escapes are those the scanner accepts (`" \ / b f n r t u`); a
`\uXXXX` that is a surrogate is combined with a following `\uXXXX` when the two form a
valid pair and is replaced by U+FFFD otherwise, as `unquote` does. -/
def unescape : List Char → Option (Char × List Char)
  | [] => none
  | c :: rest =>
    if c = '"' ∨ c = '\\' ∨ c = '/' then some (c, rest)
    else if c = 'b' then some (Char.ofNat 8, rest)
    else if c = 'f' then some (Char.ofNat 12, rest)
    else if c = 'n' then some ('\n', rest)
    else if c = 'r' then some ('\r', rest)
    else if c = 't' then some ('\t', rest)
    else if c = 'u' then
      match hex4 rest with
      | none => none
      | some (rr, rest1) =>
        if 0xD800 ≤ rr ∧ rr < 0xE000 then
          match getu4 rest1 with
          | some (rr1, rest2) =>
            if rr < 0xDC00 ∧ 0xDC00 ≤ rr1 ∧ rr1 < 0xE000 then
              some (Char.ofNat ((rr - 0xD800) * 1024 + (rr1 - 0xDC00) + 0x10000), rest2)
            else some (utf8.RuneError, rest1)
          | none => some (utf8.RuneError, rest1)
        else some (Char.ofNat rr, rest1)
    else none

/-- The rest of a string literal, read after its opening quote: the text it denotes and
the text after its closing quote. A control character (below U+0020) inside the literal is
an error. `fuel` bounds the number of characters of the result; the length of the input is
always enough. -/
def parseStringBody : Nat → List Char → Option (List Char × List Char)
  | 0, _ => none
  | _ + 1, [] => none
  | fuel + 1, c :: rest =>
    if c = '"' then some ([], rest)
    else if c = '\\' then
      match unescape rest with
      | none => none
      | some (r, rest1) => (parseStringBody fuel rest1).map (fun p => (r :: p.1, p.2))
    else if c.toNat < 0x20 then none
    else (parseStringBody fuel rest).map (fun p => (c :: p.1, p.2))

/-- The states of the scanner inside a number literal. -/
inductive NumState where
  | start | neg | zero | int | dot | frac | exp | expSign | expDigits
  deriving DecidableEq, Repr

/-- A decimal digit. -/
def isDigit (c : Char) : Bool := decide ('0' ≤ c) && decide (c ≤ '9')

/-- One step of the scanner inside a number literal (`stateNeg`, `state0`, `state1`,
`stateDot`, `stateDot0`, `stateE`, `stateESign`, `stateE0`); `none` when the character does
not continue the literal. -/
def numStep : NumState → Char → Option NumState
  | .start, c => if c = '-' then some .neg else if c = '0' then some .zero
      else if isDigit c then some .int else none
  | .neg, c => if c = '0' then some .zero else if isDigit c then some .int else none
  | .zero, c => if c = '.' then some .dot else if c = 'e' ∨ c = 'E' then some .exp else none
  | .int, c => if isDigit c then some .int else if c = '.' then some .dot
      else if c = 'e' ∨ c = 'E' then some .exp else none
  | .dot, c => if isDigit c then some .frac else none
  | .frac, c => if isDigit c then some .frac else if c = 'e' ∨ c = 'E' then some .exp else none
  | .exp, c => if c = '+' ∨ c = '-' then some .expSign else if isDigit c then some .expDigits
      else none
  | .expSign, c => if isDigit c then some .expDigits else none
  | .expDigits, c => if isDigit c then some .expDigits else none

/-- The states in which a number literal may end. -/
def NumState.final : NumState → Bool
  | .zero | .int | .frac | .expDigits => true
  | _ => false

/-- The number literal at the head of the text, read from the given state: the literal and
the text after it; `none` when the text stops or goes on in a way no number allows. -/
def scanNumberFrom : NumState → List Char → Option (List Char × List Char)
  | st, [] => if st.final then some ([], []) else none
  | st, c :: cs =>
    match numStep st c with
    | some st1 => (scanNumberFrom st1 cs).map (fun p => (c :: p.1, p.2))
    | none => if st.final then some ([], c :: cs) else none

/-- The number literal at the head of the text. -/
def scanNumber (cs : List Char) : Option (List Char × List Char) := scanNumberFrom .start cs

/-- Go `isValidNumber`: the text is a JSON number literal. -/
def isValidNumber (s : List Char) : Bool :=
  match scanNumber s with
  | some (_, rest) => rest.isEmpty
  | none => false

mutual

/-- The JSON value at the head of the text, as `Decoder.Decode` into an `interface{}` reads
it with `UseNumber`: the value and the text after it. Objects come out as maps (a repeated
key keeps its last value), arrays as slices, numbers as `json.Number` with the text of the
literal. `fuel` bounds the nesting; the length of the text is always enough. The scanner
has no limit of its own on the nesting (the limit of 10000 levels that later releases of the
library have is not modelled). -/
def parseValue : Nat → List Char → Option (GoValue × List Char)
  | 0, _ => none
  | fuel + 1, cs =>
    match skipSpace cs with
    | [] => none
    | c :: rest =>
      if c = '{' then
        match skipSpace rest with
        | [] => none
        | c1 :: rest1 =>
          if c1 = '}' then some (.map [], rest1)
          else (parseMembers fuel (c1 :: rest1)).map
            (fun p => (.map (p.1.foldl (fun m e => GoMap.set m e.1 e.2) []), p.2))
      else if c = '[' then
        match skipSpace rest with
        | [] => none
        | c1 :: rest1 =>
          if c1 = ']' then some (.slice [], rest1)
          else (parseElements fuel (c1 :: rest1)).map (fun p => (.slice p.1, p.2))
      else if c = '"' then
        (parseStringBody rest.length rest).map (fun p => (.string (String.mk p.1), p.2))
      else if c = 't' then
        if ['r', 'u', 'e'].isPrefixOf rest then some (.bool true, rest.drop 3) else none
      else if c = 'f' then
        if ['a', 'l', 's', 'e'].isPrefixOf rest then some (.bool false, rest.drop 4) else none
      else if c = 'n' then
        if ['u', 'l', 'l'].isPrefixOf rest then some (.null, rest.drop 3) else none
      else (scanNumber (c :: rest)).map (fun p => (.number (String.mk p.1), p.2))

/-- The elements of an array, read after its opening bracket when the array is not empty:
the elements and the text after the closing bracket. -/
def parseElements : Nat → List Char → Option (List GoValue × List Char)
  | 0, _ => none
  | fuel + 1, cs =>
    match parseValue fuel cs with
    | none => none
    | some (v, rest) =>
      match skipSpace rest with
      | [] => none
      | c :: rest1 =>
        if c = ',' then (parseElements fuel rest1).map (fun p => (v :: p.1, p.2))
        else if c = ']' then some ([v], rest1)
        else none

/-- The members of an object, read after its opening brace when the object is not empty:
the members in the order of the text and the text after the closing brace. -/
def parseMembers : Nat → List Char → Option (List (String × GoValue) × List Char)
  | 0, _ => none
  | fuel + 1, cs =>
    match skipSpace cs with
    | [] => none
    | c :: rest =>
      if c = '"' then
        match parseStringBody rest.length rest with
        | none => none
        | some (k, rest1) =>
          match skipSpace rest1 with
          | [] => none
          | c1 :: rest2 =>
            if c1 = ':' then
              match parseValue fuel rest2 with
              | none => none
              | some (v, rest3) =>
                match skipSpace rest3 with
                | [] => none
                | c2 :: rest4 =>
                  if c2 = ',' then
                    (parseMembers fuel rest4).map (fun p => ((String.mk k, v) :: p.1, p.2))
                  else if c2 = '}' then some ([(String.mk k, v)], rest4)
                  else none
            else none
      else none

end

/-- Go `json.NewDecoder(r)` with `UseNumber()` followed by one `Decode(&v)` into an
`interface{}`: the first JSON value of the input; what follows it is not read. Bytes that
are not valid UTF-8 are read as U+FFFD, which is an error outside a string literal. The
text of the error is not modelled. -/
def Decode (b : Bytes) : Except String GoValue :=
  match parseValue ((utf8.runes b).length + 1) (utf8.runes b) with
  | some (v, _) => .ok v
  | none => .error "invalid JSON input"

/-- A hexadecimal digit in lower case (`hex[n]` for `hex = "0123456789abcdef"`). -/
def hexDigit (n : Nat) : Char := if n < 10 then Char.ofNat (48 + n) else Char.ofNat (87 + n)

/-- The text written for one character of a string by `encodeState.string` with HTML
escaping, which is what `json.Marshal` uses: `"` and `\` get a backslash, newline, carriage
return and tab their short escapes, the other control characters and `<`, `>`, `&` the
escape `\u00XX`, U+2028 and U+2029 the escapes `\u2028` and `\u2029`;
every other character
is written as it is. -/
def escapeChar (c : Char) : List Char :=
  if c = '"' ∨ c = '\\' then ['\\', c]
  else if c = '\n' then ['\\', 'n']
  else if c = '\r' then ['\\', 'r']
  else if c = '\t' then ['\\', 't']
  else if c.toNat < 0x20 ∨ c = '<' ∨ c = '>' ∨ c = '&' then
    ['\\', 'u', '0', '0', hexDigit (c.toNat / 16), hexDigit (c.toNat % 16)]
  else if c = Char.ofNat 0x2028 then ['\\', 'u', '2', '0', '2', '8']
  else if c = Char.ofNat 0x2029 then ['\\', 'u', '2', '0', '2', '9']
  else [c]

/-- The string literal written for a text. -/
def encodeString (s : String) : List Char := '"' :: (s.data.flatMap escapeChar ++ ['"'])

mutual

/-- The text that the encoder writes for a value, the entries of a map in the order of the
list; `none` when the value cannot be encoded (a `json.Number` that is not a number
literal, a float that `encodeFloat` refuses). An empty `json.Number` is written `0`.
`encodeFloat` stands for the float formatting of the encoder. -/
def encodeValue (encodeFloat : strconv.Float64 → Option String) :
    GoValue → Option (List Char)
  | .string s => some (encodeString s)
  | .int64 i => some (strconv.FormatInt i).data
  | .int i => some (strconv.FormatInt i).data
  | .float64 f => (encodeFloat f).map String.data
  | .number s =>
    if s = "" then some ['0'] else if isValidNumber s.data then some s.data else none
  | .bool b => some (if b then ['t', 'r', 'u', 'e'] else ['f', 'a', 'l', 's', 'e'])
  | .null => some ['n', 'u', 'l', 'l']
  | .slice xs => (encodeElements encodeFloat xs).map (fun body => '[' :: (body ++ [']']))
  | .map m => (encodeMembers encodeFloat m).map (fun body => '{' :: (body ++ ['}']))

/-- The elements of a slice, separated by commas. -/
def encodeElements (encodeFloat : strconv.Float64 → Option String) :
    List GoValue → Option (List Char)
  | [] => some []
  | x :: xs =>
    match encodeValue encodeFloat x, encodeElements encodeFloat xs with
    | some a, some b => some (if xs.isEmpty then a else a ++ ',' :: b)
    | _, _ => none

/-- The members of a map, `"key":value` separated by commas. -/
def encodeMembers (encodeFloat : strconv.Float64 → Option String) :
    List (String × GoValue) → Option (List Char)
  | [] => some []
  | (k, v) :: m =>
    match encodeValue encodeFloat v, encodeMembers encodeFloat m with
    | some a, some b =>
      some (if m.isEmpty then encodeString k ++ ':' :: a else encodeString k ++ ':' :: a ++ ',' :: b)
    | _, _ => none

end

/-- The entries of a map in the order of their keys (`sort.Slice` on the key strings; the
order of the bytes of UTF-8 text is the order of its characters). -/
def sortEntries (m : List (String × GoValue)) : List (String × GoValue) :=
  m.insertionSort (fun a b => a.1.data ≤ b.1.data)

mutual

/-- The value with the entries of every map in key order, which is how the encoder visits
a map: a Go map has no order of its own. -/
def sortKeys : GoValue → GoValue
  | .slice xs => .slice (sortKeysList xs)
  | .map m => .map (sortEntries (sortKeysEntries m))
  | .string s => .string s
  | .int64 i => .int64 i
  | .int i => .int i
  | .float64 f => .float64 f
  | .number s => .number s
  | .bool b => .bool b
  | .null => .null

/-- `sortKeys` on the elements of a slice. -/
def sortKeysList : List GoValue → List GoValue
  | [] => []
  | x :: xs => sortKeys x :: sortKeysList xs

/-- `sortKeys` on the values of the entries of a map. -/
def sortKeysEntries : List (String × GoValue) → List (String × GoValue)
  | [] => []
  | (k, v) :: m => (k, sortKeys v) :: sortKeysEntries m

end

/-- Go `json.Marshal(m)` for a `map[string]interface{}`: the object with the members of
every map written in key order, as UTF-8. -/
def Marshal (encodeFloat : strconv.Float64 → Option String) (m : GoMap GoValue) :
    Except String Bytes :=
  match encodeValue encodeFloat (sortKeys (.map m)) with
  | some cs => .ok (bytesOfString (String.mk cs))
  | none => .error "json: unsupported value"

end json

namespace Spec

open datasource

mutual

/-- A value of the JSON data model, as the decoder with `UseNumber` produces it: a text, a
number literal, a boolean, null, a list of such values, or a mapping with distinct keys to
such values. -/
def isJSONValue : GoValue → Bool
  | .string _ => true
  | .number s => json.isValidNumber s.data
  | .bool _ => true
  | .null => true
  | .slice xs => isJSONList xs
  | .map m => isJSONEntries m && decide (GoMap.keys m).Nodup
  | .int64 _ => false
  | .int _ => false
  | .float64 _ => false

/-- Every element is a value of the JSON data model. -/
def isJSONList : List GoValue → Bool
  | [] => true
  | x :: xs => isJSONValue x && isJSONList xs

/-- Every entry binds a value of the JSON data model. -/
def isJSONEntries : List (String × GoValue) → Bool
  | [] => true
  | (_, v) :: m => isJSONValue v && isJSONEntries m

end

mutual

/-- Semantic equality of two values: the same value up to the order in which the entries
of a mapping are listed, at every depth. -/
inductive sameValue : GoValue → GoValue → Prop
  | same (v : GoValue) : sameValue v v
  | slice (xs ys : List GoValue) : sameList xs ys → sameValue (.slice xs) (.slice ys)
  | map (m m1 m2 : List (String × GoValue)) : sameEntries m m1 → List.Perm m1 m2 →
      sameValue (.map m) (.map m2)

/-- Two lists of pairwise semantically equal values. -/
inductive sameList : List GoValue → List GoValue → Prop
  | nil : sameList [] []
  | cons (x y : GoValue) (xs ys : List GoValue) : sameValue x y → sameList xs ys →
      sameList (x :: xs) (y :: ys)

/-- Two lists of entries with the same keys in the same order and pairwise semantically
equal values. -/
inductive sameEntries : List (String × GoValue) → List (String × GoValue) → Prop
  | nil : sameEntries [] []
  | cons (k : String) (v w : GoValue) (m n : List (String × GoValue)) : sameValue v w →
      sameEntries m n → sameEntries ((k, v) :: m) ((k, w) :: n)

end

/-- The values that a path can resolve to in a document: the document, an element of a
list or a member of a mapping that is such a value, and a list collected from such
values. -/
inductive fromDocument (doc : GoValue) : GoValue → Prop
  | here : fromDocument doc doc
  | element (xs : List GoValue) (x : GoValue) : fromDocument doc (.slice xs) → x ∈ xs →
      fromDocument doc x
  | member (m : List (String × GoValue)) (k : String) (x : GoValue) :
      fromDocument doc (.map m) → (k, x) ∈ m → fromDocument doc x
  | collect (xs : List GoValue) : (∀ x ∈ xs, fromDocument doc x) → fromDocument doc (.slice xs)

end Spec

namespace datasource

/-- The libraries for examples: `encoding/json` as modelled above, no YAML, and a path query
that resolves `$.key` to the value of `key` in a mapping and nothing else. -/
def exampleCodecs : Codecs where
  float := ⟨fun _ => none, fun _ => ""⟩
  jsonDecode := json.Decode
  yamlUnmarshal := fun _ => .error "yaml: unsupported"
  JsonPathLookup := fun doc p =>
    match doc, p.data with
    | .map m, '$' :: '.' :: key =>
      match GoMap.get? m (String.mk key) with
      | some v => .ok v
      | none => .error "key error"
    | _, _ => .error "unsupported path"
  jsonMarshal := json.Marshal (fun _ => none)
  yamlMarshal := fun _ => .error "yaml: unsupported"

/-- A file system for examples in which every file holds the document
`{"a": 1, "b": ["x<", "é"]}`. -/
def exampleFileSystem : FileSystem where
  Glob := fun _ => .ok []
  ReadFile := fun _ => .ok [123, 34, 97, 34, 58, 32, 49, 44, 32, 34, 98, 34, 58, 32, 91, 34,
    120, 60, 34, 44, 32, 34, 195, 169, 34, 93, 125]

end datasource

/-! # Theorems -/

namespace datasource

theorem isAbs_iff_head (p : String) : path.IsAbs p = true ↔ p.data.head? = some '/' := by
  unfold path.IsAbs
  cases h : p.data with
  | nil => simp
  | cons c cs => simp

theorem ite_congr_first {α : Type} {c c' : Prop} [Decidable c] [Decidable c'] (h : c ↔ c')
    (a b b' : α) (hb : ¬ c → b = b') : (if c then a else b) = (if c' then a else b') := by
  by_cases hc : c
  · rw [if_pos hc, if_pos (h.mp hc)]
  · rw [if_neg hc, if_neg (fun hc' => hc (h.mpr hc')), hb hc]

theorem validate_eq_firstViolation (f : DataSource) :
    f.Validate = Spec.firstViolation (Spec.validateRules f) := by
  have habs := isAbs_iff_head f.Source
  have hlen : f.FieldExtractions.length = 0 ↔ f.FieldExtractions = [] := List.length_eq_zero
  simp only [DataSource.Validate, Spec.validateRules, Spec.firstViolation, FormatFile, FormatGlob,
      FormatJSON, FormatYAML, OutputRaw, OutputJSON, OutputYAML, DataSource.isGlobSource,
      strings.ContainsChar, hlen, List.mem_cons, List.mem_singleton, List.not_mem_nil, or_false,
      not_or, decide_eq_true_eq, List.elem_eq_mem, habs, ne_eq]
  clear habs hlen
  refine ite_congr_first (by tauto) _ _ _ (fun _ => ?_)
  refine ite_congr_first (by tauto) _ _ _ (fun h2 => ?_)
  refine ite_congr_first Iff.rfl _ _ _ (fun _ => ?_)
  refine ite_congr_first (by tauto) _ _ _ (fun _ => ?_)
  rfl

theorem firstViolation_eq_none (rules : List (Bool × types.Error)) :
    Spec.firstViolation rules = none ↔ ∀ r ∈ rules, r.1 = false := by
  induction rules with
  | nil => simp [Spec.firstViolation]
  | cons r rest ih =>
    obtain ⟨b, e⟩ := r
    cases b <;> simp [Spec.firstViolation, ih]

/-- C2: `DataSource.Validate` returns the error of the first violated rule, in the order
of the specification's eight rules, and returns no error exactly when none of the eight
rules is violated. -/
theorem validate_eq_first_violated_rule (f : DataSource) :
    f.Validate = Spec.firstViolation (Spec.validateRules f) ∧
    (f.Validate = none ↔ ∀ r ∈ Spec.validateRules f, r.1 = false) := by
  refine ⟨validate_eq_firstViolation f, ?_⟩
  rw [validate_eq_firstViolation, firstViolation_eq_none]

theorem base_ne_empty (p : String) : path.Base p ≠ "" := by
  unfold path.Base
  split
  · decide
  · simp only
    split
    · decide
    · rename_i hlast
      intro h
      exact hlast (congrArg String.data h)

theorem inferredSourceFormat_ne_empty (f : DataSource) (sf : SourceFormat)
    (h : f.inferredSourceFormat = .ok sf) : sf ≠ "" := by
  unfold DataSource.inferredSourceFormat at h
  split_ifs at h <;> (injection h with h; subst h; decide)

theorem inferredOutputFormat_ne_empty (f : DataSource) (o : OutputType)
    (h : f.inferredOutputFormat = .ok o) : o ≠ "" := by
  unfold DataSource.inferredOutputFormat at h
  split_ifs at h <;> (injection h with h; subst h; decide)

theorem setDefaultSourceFormat_ok (f f1 : DataSource)
    (h : f.setDefaultSourceFormat = (f1, none)) :
    f1.SourceFormat ≠ "" ∧ f1.OutputFormat = f.OutputFormat := by
  unfold DataSource.setDefaultSourceFormat at h
  split_ifs at h with hs
  · cases hi : f.inferredSourceFormat with
    | error e => rw [hi] at h; simp at h
    | ok sf =>
      rw [hi] at h
      simp only [Prod.mk.injEq, and_true] at h
      subst h
      exact ⟨inferredSourceFormat_ne_empty f sf hi, rfl⟩
  · simp only [Prod.mk.injEq, and_true] at h
    subst h
    exact ⟨hs, rfl⟩

theorem setDefaultOutputFormat_ok (f f2 : DataSource)
    (h : f.setDefaultOutputFormat = (f2, none)) :
    f2.OutputFormat ≠ "" ∧ f2.SourceFormat = f.SourceFormat := by
  unfold DataSource.setDefaultOutputFormat at h
  split_ifs at h with hs
  · cases hi : f.inferredOutputFormat with
    | error e => rw [hi] at h; simp at h
    | ok o =>
      rw [hi] at h
      simp only [Prod.mk.injEq, and_true] at h
      subst h
      exact ⟨inferredOutputFormat_ne_empty f o hi, rfl⟩
  · simp only [Prod.mk.injEq, and_true] at h
    subst h
    exact ⟨hs, rfl⟩

theorem setDefaultOutputFile_formats (f : DataSource) :
    f.setDefaultOutputFile.SourceFormat = f.SourceFormat ∧
    f.setDefaultOutputFile.OutputFormat = f.OutputFormat := by
  unfold DataSource.setDefaultOutputFile
  split_ifs <;> exact ⟨rfl, rfl⟩

theorem setDefaultOutputFile_idem (f : DataSource) :
    f.setDefaultOutputFile.setDefaultOutputFile = f.setDefaultOutputFile := by
  unfold DataSource.setDefaultOutputFile
  split_ifs with h1 h2
  · exact absurd h2.1 (base_ne_empty f.Source)
  · rfl
  · rfl

theorem setDefaults_fixed (f : DataSource) (hs : f.SourceFormat ≠ "") (ho : f.OutputFormat ≠ "")
    (hf : f.setDefaultOutputFile = f) : f.SetDefaults = (f, none) := by
  have h1 : f.setDefaultSourceFormat = (f, none) := by
    unfold DataSource.setDefaultSourceFormat
    rw [if_neg hs]
  have h2 : f.setDefaultOutputFormat = (f, none) := by
    unfold DataSource.setDefaultOutputFormat
    rw [if_neg ho]
  unfold DataSource.SetDefaults
  rw [h1]
  simp only
  rw [h2]
  simp only [hf]

theorem setDefaults_ok_shape (d d' : DataSource) (h : d.SetDefaults = (d', none)) :
    ∃ f1 f2, d.setDefaultSourceFormat = (f1, none) ∧ f1.setDefaultOutputFormat = (f2, none) ∧
      d' = f2.setDefaultOutputFile := by
  unfold DataSource.SetDefaults at h
  rcases h1 : d.setDefaultSourceFormat with ⟨f1, e1⟩
  rw [h1] at h
  cases e1 with
  | some e => simp at h
  | none =>
    simp only at h
    rcases h2 : f1.setDefaultOutputFormat with ⟨f2, e2⟩
    rw [h2] at h
    cases e2 with
    | some e => simp at h
    | none =>
      simp only [Prod.mk.injEq, and_true] at h
      exact ⟨f1, f2, rfl, h2, h.symm⟩

/-- C3: `SetDefaults` is idempotent. When `SetDefaults` succeeds on `d` and leaves it as
`d'`, a second `SetDefaults` on `d'` succeeds too and leaves `d'` as it is, so every field
(source_format, output_format, output_file, location, extract, field_extractions) is
unchanged. -/
theorem setDefaults_idempotent (d d' : DataSource) (h : d.SetDefaults = (d', none)) :
    d'.SetDefaults = (d', none) := by
  obtain ⟨f1, f2, h1, h2, rfl⟩ := setDefaults_ok_shape d d' h
  have a1 := setDefaultSourceFormat_ok d f1 h1
  have a2 := setDefaultOutputFormat_ok f1 f2 h2
  have a3 := setDefaultOutputFile_formats f2
  apply setDefaults_fixed
  · rw [a3.1, a2.2]; exact a1.1
  · rw [a3.2]; exact a2.1
  · exact setDefaultOutputFile_idem f2

/-- C3, at a concrete descriptor: defaulting `{location: "conf/app.txt"}` succeeds and a
second defaulting changes nothing. -/
theorem setDefaults_idempotent_witness :
    (DataSource.SetDefaults ⟨"conf/app.txt", "", "", "", [], ""⟩ =
        (⟨"conf/app.txt", "app.txt", "file", "", [], "raw"⟩, none)) ∧
    DataSource.SetDefaults ⟨"conf/app.txt", "app.txt", "file", "", [], "raw"⟩ =
        (⟨"conf/app.txt", "app.txt", "file", "", [], "raw"⟩, none) :=
  ⟨by decide, setDefaults_idempotent ⟨"conf/app.txt", "", "", "", [], ""⟩ _ (by decide)⟩

theorem ite_some_eq_none_iff {α : Type} {c : Prop} [Decidable c] (a : α) (b : Option α) :
    (if c then some a else b) = none ↔ ¬ c ∧ b = none := by
  by_cases hc : c
  · simp [hc]
  · simp [hc]

theorem validate_none_iff (f : DataSource) :
    f.Validate = none ↔
      ¬ (f.SourceFormat ≠ FormatFile ∧ f.SourceFormat ≠ FormatGlob ∧ f.SourceFormat ≠ FormatJSON ∧
        f.SourceFormat ≠ FormatYAML) ∧
      ¬ (f.OutputFormat ≠ OutputJSON ∧ f.OutputFormat ≠ OutputYAML ∧ f.OutputFormat ≠ OutputRaw) ∧
      ¬ (f.isGlobSource = true ∧ f.OutputFormat ≠ OutputRaw) ∧
      ¬ (f.OutputFile = "" ∧
        (f.OutputFormat = OutputRaw ∨ f.OutputFormat = OutputJSON ∨ f.OutputFormat = OutputYAML) ∧
        f.SourceFormat ≠ FormatGlob) ∧
      ¬ (f.Extract = "" ∧ f.FieldExtractions.length = 0 ∧ f.OutputFormat ≠ OutputRaw) ∧
      ¬ (f.OutputFormat = OutputRaw ∧ f.FieldExtractions.length ≠ 0) ∧
      ¬ (f.OutputFile ≠ "" ∧ f.SourceFormat = FormatGlob) ∧
      ¬ (path.IsAbs f.Source = true) := by
  unfold DataSource.Validate
  simp only [ite_some_eq_none_iff, and_true]

/-- C4, as stated, fails: `Validate` accepts the descriptor
`{location: "app.json", output_file: "out", source_format: json, extract: "$.a",
field_extractions: {b: "$.b"}, output_format: json}`, in which extract and
field_extractions are both non-empty. -/
theorem validate_accepts_both_extractors :
    DataSource.Validate ⟨"app.json", "out", "json", "$.a", [("b", "$.b")], "json"⟩ = none ∧
    (⟨"app.json", "out", "json", "$.a", [("b", "$.b")], "json"⟩ : DataSource).Extract ≠ "" ∧
    (⟨"app.json", "out", "json", "$.a", [("b", "$.b")], "json"⟩ :
      DataSource).FieldExtractions.length > 0 := by
  decide

/-- C4, amended: on a descriptor that `Validate` accepts and whose output_format is raw,
field_extractions is empty, so extract and field_extractions are not both set; and a
descriptor that `Validate` accepts with both set (its output_format is then json or yaml) is
rejected by `validateBeforeStructuredProjection` with `ErrUnsupportedOutputFormat`. -/
theorem validate_extractors_exclusive_when_raw (d : DataSource) (h : d.Validate = none) :
    (d.OutputFormat = OutputRaw →
      d.FieldExtractions.length = 0 ∧ ¬ (d.Extract ≠ "" ∧ d.FieldExtractions.length > 0)) ∧
    (d.Extract ≠ "" ∧ d.FieldExtractions.length > 0 →
      (d.OutputFormat = OutputJSON ∨ d.OutputFormat = OutputYAML) ∧
      validateBeforeStructuredProjection d = some ErrUnsupportedOutputFormat) := by
  rw [validate_none_iff] at h
  obtain ⟨-, h2, -, -, -, h6, -, -⟩ := h
  have hraw : d.OutputFormat = OutputRaw → d.FieldExtractions.length = 0 := by
    intro hr
    by_contra hne
    exact h6 ⟨hr, hne⟩
  refine ⟨fun hr => ⟨hraw hr, fun hb => ?_⟩, fun hb => ?_⟩
  · have := hraw hr
    omega
  · have hnr : d.OutputFormat ≠ OutputRaw := by
      intro hr
      have := hraw hr
      omega
    have hjy : d.OutputFormat = OutputJSON ∨ d.OutputFormat = OutputYAML := by
      by_contra hc
      push_neg at hc
      exact h2 ⟨hc.1, hc.2, hnr⟩
    refine ⟨hjy, ?_⟩
    unfold validateBeforeStructuredProjection
    rw [if_neg (by tauto), if_pos ⟨hb.1, hnr⟩]

/-- C4, amended, at a concrete descriptor: `Validate` accepts
`{location: "app.json", output_file: "out", source_format: json, extract: "$.a",
output_format: raw}`. -/
theorem validate_extractors_exclusive_when_raw_witness :
    DataSource.Validate ⟨"app.json", "out", "json", "$.a", [], "raw"⟩ = none ∧
    ((⟨"app.json", "out", "json", "$.a", [], "raw"⟩ : DataSource).OutputFormat = OutputRaw →
      (⟨"app.json", "out", "json", "$.a", [], "raw"⟩ : DataSource).FieldExtractions.length = 0 ∧
      ¬ ((⟨"app.json", "out", "json", "$.a", [], "raw"⟩ : DataSource).Extract ≠ "" ∧
        (⟨"app.json", "out", "json", "$.a", [], "raw"⟩ : DataSource).FieldExtractions.length > 0)) :=
  ⟨by decide,
    (validate_extractors_exclusive_when_raw ⟨"app.json", "out", "json", "$.a", [], "raw"⟩
      (by decide)).1⟩

/-- C5, the code at the failing input: `Validate` accepts the descriptor
`{location: "conf/app?.json", source_format: glob, extract: "$.a", output_format: json}`,
whose source_format is glob and whose output_format is not raw. The rule that guards the
output format of a glob tests the location for `'*'`, not the source format. -/
theorem validate_accepts_glob_with_json_output :
    DataSource.Validate ⟨"conf/app?.json", "", "glob", "$.a", [], "json"⟩ = none ∧
    (⟨"conf/app?.json", "", "glob", "$.a", [], "json"⟩ : DataSource).SourceFormat = FormatGlob ∧
    (⟨"conf/app?.json", "", "glob", "$.a", [], "json"⟩ : DataSource).OutputFormat ≠ OutputRaw := by
  decide

/-- C9: `validateBeforeStructuredProjection` returns no error exactly when one of extract
and field_extractions is set and the other is not, with output_format raw when extract is
the one set and output_format json or yaml when field_extractions is the one set; it returns
an error whenever both are set and whenever neither is set. -/
theorem validateBeforeStructuredProjection_ok_iff (d : DataSource) :
    (validateBeforeStructuredProjection d = none ↔
      (d.Extract ≠ "" ∧ d.FieldExtractions.length = 0 ∧ d.OutputFormat = OutputRaw) ∨
      (d.Extract = "" ∧ d.FieldExtractions.length > 0 ∧
        (d.OutputFormat = OutputJSON ∨ d.OutputFormat = OutputYAML))) ∧
    (d.Extract ≠ "" ∧ d.FieldExtractions.length > 0 →
      validateBeforeStructuredProjection d ≠ none) ∧
    (d.Extract = "" ∧ d.FieldExtractions.length = 0 →
      validateBeforeStructuredProjection d ≠ none) := by
  have key : validateBeforeStructuredProjection d = none ↔
      (d.Extract ≠ "" ∧ d.FieldExtractions.length = 0 ∧ d.OutputFormat = OutputRaw) ∨
      (d.Extract = "" ∧ d.FieldExtractions.length > 0 ∧
        (d.OutputFormat = OutputJSON ∨ d.OutputFormat = OutputYAML)) := by
    have hrj : OutputRaw ≠ OutputJSON := by decide
    have hry : OutputRaw ≠ OutputYAML := by decide
    unfold validateBeforeStructuredProjection
    by_cases he : d.Extract = "" <;> by_cases hf : d.FieldExtractions.length = 0 <;>
      by_cases hr : d.OutputFormat = OutputRaw <;>
      by_cases hjy : d.OutputFormat = OutputJSON ∨ d.OutputFormat = OutputYAML <;>
      simp [he, hf, hr, hjy, Nat.pos_iff_ne_zero, hrj, hry]
  refine ⟨key, fun hb => ?_, fun hn => ?_⟩
  · rw [Ne, key]
    intro h
    rcases h with h | h
    · omega
    · exact hb.1 h.1
  · rw [Ne, key]
    intro h
    rcases h with h | h
    · exact h.1 hn.1
    · omega

/-- C10, as stated, fails: for the descriptor with every field empty (its location `""`
contains no `'*'`), `SetDefaults` fails with `ErrUnableToInferSourceFormat` and leaves
source_format unset. -/
theorem setDefaults_empty_location_fails :
    (⟨"", "", "", "", [], ""⟩ : DataSource).SourceFormat = "" ∧
    (⟨"", "", "", "", [], ""⟩ : DataSource).isGlobSource = false ∧
    DataSource.SetDefaults ⟨"", "", "", "", [], ""⟩ =
      (⟨"", "", "", "", [], ""⟩, some ErrUnableToInferSourceFormat) := by
  decide

theorem inferredOutputFormat_file (f : DataSource) (hsf : f.SourceFormat = FormatFile)
    (he : f.Extract = "") (hfe : f.FieldExtractions.length = 0) :
    f.inferredOutputFormat = .ok OutputRaw := by
  unfold DataSource.inferredOutputFormat
  rw [if_neg (by omega), if_neg (by omega), if_neg (by rw [hsf]; decide), if_pos (Or.inl ⟨hsf, he, hfe⟩)]

/-- C10, amended: for every descriptor with source_format unset, a non-empty location that
contains no `'*'`, an empty extract and an empty field_extractions map, `SetDefaults`
succeeds and sets source_format to file. -/
theorem setDefaults_infers_file (d : DataSource) (hsf : d.SourceFormat = "")
    (hloc : d.Source ≠ "") (hglob : d.isGlobSource = false) (he : d.Extract = "")
    (hfe : d.FieldExtractions.length = 0) :
    d.SetDefaults.2 = none ∧ d.SetDefaults.1.SourceFormat = FormatFile := by
  have h0 : d.inferredSourceFormat = .ok FormatFile := by
    unfold DataSource.inferredSourceFormat
    rw [hglob]
    rw [if_neg (by simp), if_pos hloc, if_pos ⟨he, hfe⟩]
  have h1 : d.setDefaultSourceFormat = ({ d with SourceFormat := FormatFile }, none) := by
    unfold DataSource.setDefaultSourceFormat
    rw [if_pos hsf, h0]
  unfold DataSource.SetDefaults
  rw [h1]
  simp only
  by_cases ho : d.OutputFormat = ""
  · have h2 : ({ d with SourceFormat := FormatFile } : DataSource).setDefaultOutputFormat =
        ({ d with SourceFormat := FormatFile, OutputFormat := OutputRaw }, none) := by
      unfold DataSource.setDefaultOutputFormat
      rw [if_pos ho, inferredOutputFormat_file { d with SourceFormat := FormatFile } rfl he hfe]
    rw [h2]
    exact ⟨rfl, (setDefaultOutputFile_formats _).1⟩
  · have h2 : ({ d with SourceFormat := FormatFile } : DataSource).setDefaultOutputFormat =
        ({ d with SourceFormat := FormatFile }, none) := by
      unfold DataSource.setDefaultOutputFormat
      rw [if_neg ho]
    rw [h2]
    exact ⟨rfl, (setDefaultOutputFile_formats _).1⟩

/-- C10, amended, at a concrete descriptor: `{location: "conf/app.txt"}` gets source_format
file. -/
theorem setDefaults_infers_file_witness :
    (DataSource.SetDefaults ⟨"conf/app.txt", "", "", "", [], ""⟩).2 = none ∧
    (DataSource.SetDefaults ⟨"conf/app.txt", "", "", "", [], ""⟩).1.SourceFormat = FormatFile :=
  setDefaults_infers_file ⟨"conf/app.txt", "", "", "", [], ""⟩ rfl (by decide) (by decide) rfl rfl

end datasource

namespace manifest

open datasource

theorem validateData_eq_none (ds : List DataSource) :
    ConfigProjectionManifest.validateData ds = none ↔ ∀ d ∈ ds, d.Validate = none := by
  induction ds with
  | nil => simp [ConfigProjectionManifest.validateData]
  | cons d rest ih =>
    unfold ConfigProjectionManifest.validateData
    cases hd : d.Validate with
    | some e => simp [hd]
    | none => simp [hd, ih]

theorem validateData_first_failure (pre post : List DataSource) (d : DataSource)
    (hpre : ∀ x ∈ pre, x.Validate = none) (hd : d.Validate ≠ none) :
    ConfigProjectionManifest.validateData (pre ++ d :: post) = d.Validate := by
  induction pre with
  | nil =>
    simp only [List.nil_append]
    unfold ConfigProjectionManifest.validateData
    cases h : d.Validate with
    | some e => rfl
    | none => exact absurd h hd
  | cons x pre ih =>
    simp only [List.cons_append]
    unfold ConfigProjectionManifest.validateData
    rw [hpre x (List.mem_cons_self x pre)]
    exact ih (fun y hy => hpre y (List.mem_cons_of_mem x hy))

theorem manifest_validate_of_valid_ids (m : ConfigProjectionManifest)
    (hn : Spec.validIdentifier m.Name) (hns : Spec.validIdentifier m.Namespace) :
    m.Validate = ConfigProjectionManifest.validateData m.Data := by
  obtain ⟨hn1, hn2, hn3⟩ := hn
  obtain ⟨hs1, hs2, hs3⟩ := hns
  unfold ConfigProjectionManifest.Validate
  rw [if_neg hn1, if_neg hs1, if_neg (by rw [hn3]; simp; omega), if_neg (by rw [hs3]; simp; omega)]

theorem manifest_validate_ids_of_ok (m : ConfigProjectionManifest) (h : m.Validate = none) :
    Spec.validIdentifier m.Name ∧ Spec.validIdentifier m.Namespace := by
  unfold ConfigProjectionManifest.Validate at h
  split_ifs at h with h1 h2 h3 h4
  push_neg at h3 h4
  exact ⟨⟨h1, by omega, h3.2⟩, ⟨h2, by omega, h4.2⟩⟩

/-- C8: `ConfigProjectionManifest.Validate` returns no error if and only if name and
namespace are each non-empty, at most 253 bytes long and match `^[a-z0-9][a-z0-9\-.]+$`, and
every DataSource of `data` passes its own `Validate`; and when the name and namespace checks
pass and some DataSource fails, the error returned is that of the first failing DataSource in
declared order. -/
theorem manifest_validate_ok_iff (m : ConfigProjectionManifest) :
    (m.Validate = none ↔
      Spec.validIdentifier m.Name ∧ Spec.validIdentifier m.Namespace ∧
        ∀ d ∈ m.Data, d.Validate = none) ∧
    (Spec.validIdentifier m.Name → Spec.validIdentifier m.Namespace →
      ∀ (pre post : List DataSource) (d : DataSource), m.Data = pre ++ d :: post →
        (∀ x ∈ pre, x.Validate = none) → d.Validate ≠ none → m.Validate = d.Validate) := by
  constructor
  · constructor
    · intro h
      obtain ⟨hn, hns⟩ := manifest_validate_ids_of_ok m h
      rw [manifest_validate_of_valid_ids m hn hns, validateData_eq_none] at h
      exact ⟨hn, hns, h⟩
    · rintro ⟨hn, hns, hd⟩
      rw [manifest_validate_of_valid_ids m hn hns, validateData_eq_none]
      exact hd
  · intro hn hns pre post d hdata hpre hd
    rw [manifest_validate_of_valid_ids m hn hns, hdata]
    exact validateData_first_failure pre post d hpre hd

/-- C8, at a concrete manifest: with valid name and namespace, a valid first descriptor and
two failing ones after it, `Validate` returns the error of the second descriptor. -/
theorem manifest_validate_ok_iff_witness :
    ConfigProjectionManifest.Validate
      ⟨"app-config", "prod", [⟨"a.txt", "a.txt", "file", "", [], "raw"⟩,
        ⟨"/etc/b", "b", "file", "", [], "raw"⟩, ⟨"c", "", "xml", "", [], "raw"⟩],
        ⟨"", "", "", ""⟩⟩ =
      some ErrAbsolutePathSource :=
  (manifest_validate_ok_iff
      ⟨"app-config", "prod", [⟨"a.txt", "a.txt", "file", "", [], "raw"⟩,
        ⟨"/etc/b", "b", "file", "", [], "raw"⟩, ⟨"c", "", "xml", "", [], "raw"⟩],
        ⟨"", "", "", ""⟩⟩).2
    (by decide) (by decide) [⟨"a.txt", "a.txt", "file", "", [], "raw"⟩] [⟨"c", "", "xml", "", [], "raw"⟩]
    ⟨"/etc/b", "b", "file", "", [], "raw"⟩ rfl (by decide) (by decide)

theorem has_iff_mem_keys {β : Type} (m : GoMap β) (k : String) :
    GoMap.has m k = true ↔ k ∈ GoMap.keys m := by
  unfold GoMap.has GoMap.keys
  simp only [List.any_eq_true, beq_iff_eq, List.mem_map]

theorem set_of_not_mem {β : Type} (m : GoMap β) (k : String) (v : β)
    (h : k ∉ GoMap.keys m) : GoMap.set m k v = m ++ [(k, v)] := by
  induction m with
  | nil => rfl
  | cons e m ih =>
    unfold GoMap.keys at h
    simp only [List.map_cons, List.mem_cons, not_or] at h
    unfold GoMap.set
    rw [if_neg (fun he => h.1 he.symm)]
    rw [ih h.2]
    rfl

theorem mergeItems_ok (items : GoMap Bytes) (acc : GoMap Text)
    (hnd : (GoMap.keys items).Nodup) (hdis : List.Disjoint (GoMap.keys acc) (GoMap.keys items)) :
    mergeItems items acc = .ok (acc ++ items.map (fun e => (e.1, stringOfBytes e.2))) := by
  induction items generalizing acc with
  | nil => simp [mergeItems]
  | cons e items ih =>
    obtain ⟨k, v⟩ := e
    unfold GoMap.keys at hnd hdis
    simp only [List.map_cons, List.nodup_cons, List.disjoint_cons_right] at hnd hdis
    unfold mergeItems
    have hk : GoMap.has acc k = false := by
      rw [Bool.eq_false_iff, Ne, has_iff_mem_keys]
      exact hdis.1
    rw [hk]
    simp only [Bool.false_eq_true, if_false]
    rw [set_of_not_mem acc k _ hdis.1]
    rw [ih _ hnd.2]
    · simp
    · unfold GoMap.keys
      simp only [List.map_append, List.map_cons, List.map_nil, List.disjoint_append_left,
        List.singleton_disjoint]
      exact ⟨hdis.2, hnd.1⟩

theorem mergeItems_error (items : GoMap Bytes) (acc : GoMap Text)
    (h : ¬ ((GoMap.keys items).Nodup ∧ List.Disjoint (GoMap.keys acc) (GoMap.keys items))) :
    ∃ err, mergeItems items acc = .error err := by
  induction items generalizing acc with
  | nil => exact absurd ⟨List.nodup_nil, List.disjoint_nil_right _⟩ h
  | cons e items ih =>
    obtain ⟨k, v⟩ := e
    unfold mergeItems
    by_cases hk : GoMap.has acc k = true
    · rw [if_pos hk]
      exact ⟨_, rfl⟩
    · rw [if_neg hk]
      rw [has_iff_mem_keys] at hk
      rw [set_of_not_mem acc k _ hk]
      apply ih
      intro hc
      apply h
      unfold GoMap.keys at hc hk ⊢
      simp only [List.map_append, List.map_cons, List.map_nil, List.disjoint_append_left,
        List.singleton_disjoint] at hc
      simp only [List.map_cons, List.nodup_cons, List.disjoint_cons_right]
      exact ⟨⟨hc.2.2, hc.1⟩, hk, hc.2.1⟩

theorem mergeItems_cons (k : String) (v : Bytes) (items : GoMap Bytes) (acc : GoMap Text) :
    mergeItems ((k, v) :: items) acc =
      if GoMap.has acc k = true then
        .error (other ("duplicate projection key " ++ k ++ " in projection sources"))
      else mergeItems items (GoMap.set acc k (stringOfBytes v)) := rfl

theorem mergeItems_append (a b : GoMap Bytes) (acc : GoMap Text) :
    mergeItems (a ++ b) acc =
      match mergeItems a acc with
      | .error err => .error err
      | .ok acc1 => mergeItems b acc1 := by
  induction a generalizing acc with
  | nil => simp [mergeItems]
  | cons e a ih =>
    obtain ⟨k, v⟩ := e
    simp only [List.cons_append]
    rw [mergeItems_cons, mergeItems_cons]
    by_cases hk : GoMap.has acc k = true
    · rw [if_pos hk, if_pos hk]
    · rw [if_neg hk, if_neg hk]
      exact ih _

theorem projectLoop_eq_mergeItems (results : List (GoMap Bytes)) (acc : GoMap Text) :
    projectLoop (results.map .ok) acc = mergeItems results.flatten acc := by
  induction results generalizing acc with
  | nil => simp [projectLoop, mergeItems]
  | cons r rest ih =>
    simp only [List.map_cons, List.flatten_cons]
    rw [mergeItems_append]
    unfold projectLoop
    cases mergeItems r acc with
    | error e => rfl
    | ok acc1 => exact ih acc1

theorem keys_flatten_nodup_iff (results : List (GoMap Bytes))
    (hmap : ∀ r ∈ results, (GoMap.keys r).Nodup) :
    (GoMap.keys results.flatten).Nodup ↔
      results.Pairwise (fun a b => List.Disjoint (GoMap.keys a) (GoMap.keys b)) := by
  unfold GoMap.keys at hmap ⊢
  rw [List.map_flatten, List.nodup_flatten, List.pairwise_map]
  constructor
  · exact fun h => h.2
  · intro h
    refine ⟨?_, h⟩
    intro l hl
    rw [List.mem_map] at hl
    obtain ⟨r, hr, rfl⟩ := hl
    exact hmap r hr

theorem get?_eq_some_iff_mem {β : Type} (m : GoMap β) (hnd : (GoMap.keys m).Nodup) (k : String)
    (t : β) : GoMap.get? m k = some t ↔ (k, t) ∈ m := by
  induction m with
  | nil => simp [GoMap.get?]
  | cons e m ih =>
    obtain ⟨k1, t1⟩ := e
    unfold GoMap.keys at hnd
    simp only [List.map_cons, List.nodup_cons, List.mem_map, not_exists, not_and] at hnd
    unfold GoMap.get?
    by_cases hk : k1 = k
    · subst hk
      simp only [List.find?_cons, beq_self_eq_true, Option.map_some', Option.some.injEq,
        List.mem_cons, Prod.mk.injEq, true_and]
      constructor
      · exact fun h => Or.inl h.symm
      · rintro (h | h)
        · exact h.symm
        · exact absurd rfl (hnd.1 (k1, t) h)
    · have hne : (k1 == k) = false := by simpa using hk
      simp only [List.find?_cons, hne, List.mem_cons, Prod.mk.injEq]
      have := ih hnd.2
      unfold GoMap.get? at this
      rw [this]
      constructor
      · exact fun h => Or.inr h
      · rintro (h | h)
        · exact absurd h.1.symm hk
        · exact h

theorem projectLoop_ok_of_pairwise (results : List (GoMap Bytes))
    (hmap : ∀ r ∈ results, (GoMap.keys r).Nodup)
    (hpw : results.Pairwise (fun a b => List.Disjoint (GoMap.keys a) (GoMap.keys b))) :
    projectLoop (results.map .ok) [] =
      .ok (results.flatten.map (fun e => (e.1, stringOfBytes e.2))) := by
  rw [projectLoop_eq_mergeItems,
    mergeItems_ok _ [] ((keys_flatten_nodup_iff results hmap).mpr hpw) (List.disjoint_nil_left _)]
  rfl

theorem mem_merged_iff (results : List (GoMap Bytes)) (k : String) (t : Text) :
    (k, t) ∈ results.flatten.map (fun e => (e.1, stringOfBytes e.2)) ↔
      ∃ r ∈ results, ∃ v, (k, v) ∈ r ∧ t = stringOfBytes v := by
  simp only [List.mem_map, List.mem_flatten, Prod.mk.injEq]
  constructor
  · rintro ⟨⟨k1, v⟩, ⟨r, hr, he⟩, rfl, rfl⟩
    exact ⟨r, hr, v, he, rfl⟩
  · rintro ⟨r, hr, v, he, rfl⟩
    exact ⟨(k, v), ⟨r, hr, he⟩, rfl, rfl⟩

theorem keys_merged (items : GoMap Bytes) :
    GoMap.keys (items.map (fun e => (e.1, stringOfBytes e.2))) = GoMap.keys items := by
  unfold GoMap.keys
  rw [List.map_map]
  rfl

/-- C1: the merge step of `ConfigProjectionManifest.Project`. When every descriptor's
projection succeeds, with the results `results` (each a Go map: its keys are distinct),
`Project` returns an error if and only if some key is produced by two different descriptors
(the key sets of the results are not pairwise disjoint); when no key repeats, the returned
data binds a key to a text exactly when some result binds the key to bytes of which the text
is the conversion, and what has been merged after any number of descriptors is still bound
the same way in the returned data: no entry is overwritten by a later one. -/
theorem project_merge_error_iff_duplicate_key (m : ConfigProjectionManifest)
    (project : datasource.DataSource → String → Except types.Error (GoMap Bytes))
    (results : List (GoMap Bytes))
    (hres : m.Data.map (fun d => project d m.c.ConfigDir) = results.map .ok)
    (hmap : ∀ r ∈ results, (GoMap.keys r).Nodup) :
    ((m.Project project).2 ≠ none ↔
      ¬ results.Pairwise (fun a b => List.Disjoint (GoMap.keys a) (GoMap.keys b))) ∧
    (results.Pairwise (fun a b => List.Disjoint (GoMap.keys a) (GoMap.keys b)) →
      ∃ dataList, m.Project project =
          ({ Name := m.Name, Namespace := m.Namespace,
             Labels := (GoMap.set [] m.c.LabelVersionKey m.c.Generation).set
               m.c.LabelManagedKey "true",
             Kind := "ConfigMap", APIVersion := "v1", Data := some dataList }, none) ∧
        (∀ k t, GoMap.get? dataList k = some t ↔
          ∃ r ∈ results, ∃ v, (k, v) ∈ r ∧ t = stringOfBytes v) ∧
        (∀ n, ∃ d1, projectLoop ((results.take n).map .ok) [] = .ok d1 ∧
          ∀ k t, GoMap.get? d1 k = some t → GoMap.get? dataList k = some t)) := by
  have hok : results.Pairwise (fun a b => List.Disjoint (GoMap.keys a) (GoMap.keys b)) →
      m.Project project =
          ({ Name := m.Name, Namespace := m.Namespace,
             Labels := (GoMap.set [] m.c.LabelVersionKey m.c.Generation).set
               m.c.LabelManagedKey "true",
             Kind := "ConfigMap", APIVersion := "v1",
             Data := some (results.flatten.map (fun e => (e.1, stringOfBytes e.2))) }, none) := by
    intro hpw
    unfold ConfigProjectionManifest.Project
    simp only [hres]
    rw [projectLoop_ok_of_pairwise results hmap hpw]
  constructor
  · constructor
    · intro herr hpw
      rw [hok hpw] at herr
      exact herr rfl
    · intro hpw
      have hnd : ¬ ((GoMap.keys results.flatten).Nodup ∧
          List.Disjoint (GoMap.keys ([] : GoMap Text)) (GoMap.keys results.flatten)) :=
        fun h => hpw ((keys_flatten_nodup_iff results hmap).mp h.1)
      obtain ⟨err, herr⟩ := mergeItems_error results.flatten [] hnd
      unfold ConfigProjectionManifest.Project
      simp only [hres]
      rw [projectLoop_eq_mergeItems, herr]
      simp
  · intro hpw
    have hnd : (GoMap.keys (results.flatten.map (fun e => (e.1, stringOfBytes e.2)))).Nodup := by
      rw [keys_merged]
      exact (keys_flatten_nodup_iff results hmap).mpr hpw
    refine ⟨_, hok hpw, ?_, ?_⟩
    · intro k t
      rw [get?_eq_some_iff_mem _ hnd, mem_merged_iff]
    · intro n
      have hmapn : ∀ r ∈ results.take n, (GoMap.keys r).Nodup :=
        fun r hr => hmap r (List.mem_of_mem_take hr)
      have hpwn := hpw.sublist (List.take_sublist n results)
      refine ⟨_, projectLoop_ok_of_pairwise _ hmapn hpwn, ?_⟩
      intro k t hkt
      have hndn : (GoMap.keys ((results.take n).flatten.map
          (fun e => (e.1, stringOfBytes e.2)))).Nodup := by
        rw [keys_merged]
        exact (keys_flatten_nodup_iff _ hmapn).mpr hpwn
      rw [get?_eq_some_iff_mem _ hndn, mem_merged_iff] at hkt
      rw [get?_eq_some_iff_mem _ hnd, mem_merged_iff]
      obtain ⟨r, hr, v, hv, ht⟩ := hkt
      exact ⟨r, List.mem_of_mem_take hr, v, hv, ht⟩

/-- C1, at a concrete manifest: two descriptors projecting to `{a.conf, b.conf}` and
`{c.conf}` merge without error, and two descriptors that both produce `app.json` give an
error. -/
theorem project_merge_error_iff_duplicate_key_witness :
    (ConfigProjectionManifest.Project
        ⟨"app", "prod", [⟨"*.conf", "", "glob", "", [], "raw"⟩,
          ⟨"c.conf", "c.conf", "file", "", [], "raw"⟩], ⟨"cfg", "g1", "version", "managed"⟩⟩
        (fun d _ => if d.SourceFormat = "glob" then .ok [("a.conf", [97]), ("b.conf", [98])]
          else .ok [("c.conf", [99])])).2 = none ∧
    (ConfigProjectionManifest.Project
        ⟨"app", "prod", [⟨"app.json", "app.json", "file", "", [], "raw"⟩,
          ⟨"x/app.json", "app.json", "file", "", [], "raw"⟩], ⟨"cfg", "g1", "version", "managed"⟩⟩
        (fun _ _ => .ok [("app.json", [123, 125])])).2 ≠ none :=
  ⟨by
    have h := (project_merge_error_iff_duplicate_key
      ⟨"app", "prod", [⟨"*.conf", "", "glob", "", [], "raw"⟩,
          ⟨"c.conf", "c.conf", "file", "", [], "raw"⟩], ⟨"cfg", "g1", "version", "managed"⟩⟩
      (fun d _ => if d.SourceFormat = "glob" then .ok [("a.conf", [97]), ("b.conf", [98])]
          else .ok [("c.conf", [99])])
      [[("a.conf", [97]), ("b.conf", [98])], [("c.conf", [99])]] rfl (by decide)).1
    exact not_not.mp (fun hne => h.mp hne (by simp [GoMap.keys])),
   (project_merge_error_iff_duplicate_key
      ⟨"app", "prod", [⟨"app.json", "app.json", "file", "", [], "raw"⟩,
          ⟨"x/app.json", "app.json", "file", "", [], "raw"⟩], ⟨"cfg", "g1", "version", "managed"⟩⟩
      (fun _ _ => .ok [("app.json", [123, 125])])
      [[("app.json", [123, 125])], [("app.json", [123, 125])]] rfl (by decide)).1.mpr (by simp [GoMap.keys])⟩

end manifest

namespace strconv

theorem decDigits_append (fuel n : Nat) (acc : List Nat) :
    decDigits fuel n acc = decDigits fuel n [] ++ acc := by
  induction fuel generalizing n acc with
  | zero => simp [decDigits]
  | succ fuel ih =>
    unfold decDigits
    split_ifs
    · simp
    · rw [ih (n / 10) (n % 10 :: acc), ih (n / 10) [n % 10]]
      simp

theorem decDigits_lt_ten (fuel n : Nat) : ∀ d ∈ decDigits fuel n [], d < 10 := by
  induction fuel generalizing n with
  | zero => simp [decDigits]
  | succ fuel ih =>
    unfold decDigits
    split_ifs with h
    · simpa using h
    · rw [decDigits_append]
      intro d hd
      rw [List.mem_append] at hd
      rcases hd with hd | hd
      · exact ih _ d hd
      · simp only [List.mem_singleton] at hd
        omega

theorem decDigits_ne_nil (fuel n : Nat) : decDigits (fuel + 1) n [] ≠ [] := by
  unfold decDigits
  split_ifs
  · simp
  · rw [decDigits_append]
    simp

theorem decDigits_value (fuel n : Nat) (h : n < 10 ^ fuel) :
    (decDigits fuel n []).foldl (fun a d => a * 10 + d) 0 = n := by
  induction fuel generalizing n with
  | zero =>
    simp only [pow_zero, Nat.lt_one_iff] at h
    simp [decDigits, h]
  | succ fuel ih =>
    unfold decDigits
    split_ifs with hn
    · simp
    · rw [decDigits_append, List.foldl_append, ih (n / 10) (by rw [pow_succ] at h; omega)]
      simp only [List.foldl_cons, List.foldl_nil]
      omega

theorem lt_ten_pow_succ (n : Nat) : n < 10 ^ (n + 1) :=
  lt_trans (Nat.lt_pow_self (by norm_num) n) (Nat.pow_lt_pow_right (by norm_num) (Nat.lt_succ_self n))

theorem digitChar_props (d : Nat) (h : d < 10) :
    ('0' ≤ digitChar d ∧ digitChar d ≤ '9') ∧ (digitChar d).toNat - 48 = d ∧
    (String.utf8EncodeChar (digitChar d)).map (fun b => Char.ofNat b.toNat) = [digitChar d] := by
  interval_cases d <;> decide

theorem parseDigits_map_digitChar (ds : List Nat) (h : ∀ d ∈ ds, d < 10) (acc : Nat) :
    parseDigits (ds.map digitChar) acc = some (ds.foldl (fun a d => a * 10 + d) acc) := by
  induction ds generalizing acc with
  | nil => rfl
  | cons d ds ih =>
    have hd := digitChar_props d (h d (List.mem_cons_self d ds))
    simp only [List.map_cons, List.foldl_cons]
    unfold parseDigits
    rw [if_pos hd.1, hd.2.1]
    exact ih (fun x hx => h x (List.mem_cons_of_mem d hx)) _

theorem parseDigits_formatUint (n : Nat) : parseDigits (FormatUint n).data 0 = some n := by
  unfold FormatUint
  simp only
  rw [parseDigits_map_digitChar _ (decDigits_lt_ten _ _), decDigits_value _ _ (lt_ten_pow_succ n)]

theorem parseDigits_all_digits (cs : List Char) (acc v : Nat) (h : parseDigits cs acc = some v) :
    ∀ c ∈ cs, '0' ≤ c ∧ c ≤ '9' := by
  induction cs generalizing acc with
  | nil => simp
  | cons c cs ih =>
    unfold parseDigits at h
    split_ifs at h with hc
    intro x hx
    rw [List.mem_cons] at hx
    rcases hx with rfl | hx
    · exact hc
    · exact ih _ h x hx

theorem digit_ne_marks (c : Char) (h : '0' ≤ c ∧ c ≤ '9') :
    c ≠ 'e' ∧ c ≠ 'E' ∧ c ≠ '-' ∧ c ≠ '+' := by
  refine ⟨?_, ?_, ?_, ?_⟩ <;> (rintro rfl; revert h; decide)

theorem formatUint_data_ne_nil (n : Nat) : (FormatUint n).data ≠ [] := by
  unfold FormatUint
  simp only [ne_eq, List.map_eq_nil_iff]
  exact decDigits_ne_nil n n

theorem formatUint_all_digits (n : Nat) : ∀ c ∈ (FormatUint n).data, '0' ≤ c ∧ c ≤ '9' :=
  parseDigits_all_digits _ 0 n (parseDigits_formatUint n)

theorem containsAny_eE_of_digits (cs : List Char) (h : ∀ c ∈ cs, '0' ≤ c ∧ c ≤ '9') :
    cs.any (fun c => "eE".data.contains c) = false := by
  rw [List.any_eq_false]
  intro c hc
  have := digit_ne_marks c (h c hc)
  simp [this.1, this.2.1]

theorem parseInt_of_literal (lit : String) (n : Int)
    (hlit : Spec.integerLiteralValue lit = some n) (hlo : -2 ^ 63 ≤ n) (hhi : n < 2 ^ 63) :
    strings.ContainsAny lit "eE" = false ∧ ParseInt lit = some n := by
  unfold Spec.integerLiteralValue at hlit
  unfold strings.ContainsAny ParseInt
  cases hd : lit.data with
  | nil => rw [hd] at hlit; simp at hlit
  | cons c cs =>
    rw [hd] at hlit
    simp only at hlit ⊢
    by_cases hc : c = '-'
    · subst hc
      rw [if_pos rfl] at hlit
      split_ifs at hlit with hcs
      cases hp : parseDigits cs 0 with
      | none => rw [hp] at hlit; simp at hlit
      | some m =>
        rw [hp] at hlit
        simp only [Option.map_some', Option.some.injEq] at hlit
        subst hlit
        have hdig := parseDigits_all_digits cs 0 m hp
        constructor
        · rw [List.any_cons, containsAny_eE_of_digits cs hdig]
          decide
        · have hm : m ≤ 2 ^ 63 := by omega
          have hm2 : m < 2 ^ 64 := by omega
          unfold ParseUint
          simp only [decide_True, or_true, if_true, hcs, if_false, hp, hm2]
          simp only [Bool.true_eq_false, false_and, if_false, true_and]
          rw [if_neg (by omega)]
    · rw [if_neg hc] at hlit
      cases hp : parseDigits (c :: cs) 0 with
      | none => rw [hp] at hlit; simp at hlit
      | some m =>
        rw [hp] at hlit
        simp only [Option.map_some', Option.some.injEq] at hlit
        subst hlit
        have hdig := parseDigits_all_digits (c :: cs) 0 m hp
        have hcd := digit_ne_marks c (hdig c (List.mem_cons_self c cs))
        constructor
        · exact containsAny_eE_of_digits (c :: cs) hdig
        · have hm : m < 2 ^ 63 := by omega
          have hm2 : m < 2 ^ 64 := by omega
          unfold ParseUint
          simp only [hc, hcd.2.2.2, decide_False, or_self, if_false, hp, hm2, if_true]
          rw [if_neg (List.cons_ne_nil c cs)]
          simp only [true_and, Bool.false_eq_true, false_and, if_false]
          rw [if_neg (by omega)]

theorem parseInt_of_large (n : Nat) (h : 2 ^ 63 ≤ n) :
    strings.ContainsAny (FormatUint n) "eE" = false ∧ ParseInt (FormatUint n) = none ∧
    Spec.integerLiteralValue (FormatUint n) = some (n : Int) := by
  have hdig := formatUint_all_digits n
  have hp := parseDigits_formatUint n
  refine ⟨containsAny_eE_of_digits _ hdig, ?_, ?_⟩
  · unfold ParseInt
    cases hd : (FormatUint n).data with
    | nil => rfl
    | cons c cs =>
      rw [hd] at hdig hp
      have hcd := digit_ne_marks c (hdig c (List.mem_cons_self c cs))
      unfold ParseUint
      simp only [hcd.2.2.2, hcd.2.2.1, decide_False, or_self, if_false, hp]
      rw [if_neg (List.cons_ne_nil c cs)]
      by_cases h64 : n < 2 ^ 64
      · rw [if_pos h64]
        simp only [true_and]
        rw [if_pos h]
      · rw [if_neg h64]
  · unfold Spec.integerLiteralValue
    cases hd : (FormatUint n).data with
    | nil => exact absurd hd (formatUint_data_ne_nil n)
    | cons c cs =>
      rw [hd] at hdig hp
      have hcd := digit_ne_marks c (hdig c (List.mem_cons_self c cs))
      simp only [hcd.2.2.1, if_false, hp, Option.map_some']

end strconv

namespace datasource

open strconv

theorem integerLiteralValue_formatUint (n : Nat) :
    Spec.integerLiteralValue (FormatUint n) = some (n : Int) := by
  have hdig := formatUint_all_digits n
  have hp := parseDigits_formatUint n
  unfold Spec.integerLiteralValue
  cases hd : (FormatUint n).data with
  | nil => exact absurd hd (formatUint_data_ne_nil n)
  | cons c cs =>
    rw [hd] at hdig hp
    have hcd := digit_ne_marks c (hdig c (List.mem_cons_self c cs))
    simp only [hcd.2.2.1, if_false, hp, Option.map_some']

theorem integerLiteralValue_formatInt (n : Int) :
    Spec.integerLiteralValue (FormatInt n) = some n := by
  unfold FormatInt
  split_ifs with hneg
  · unfold Spec.integerLiteralValue
    simp only [if_true, formatUint_data_ne_nil, if_false, parseDigits_formatUint,
      Option.map_some', Option.some.injEq]
    omega
  · rw [integerLiteralValue_formatUint]
    congr 1
    omega

theorem decode_encode_chars (cs : List Char)
    (h : ∀ c ∈ cs, (String.utf8EncodeChar c).map (fun b => Char.ofNat b.toNat) = [c]) :
    (cs.flatMap String.utf8EncodeChar).map (fun b => Char.ofNat b.toNat) = cs := by
  induction cs with
  | nil => rfl
  | cons c cs ih =>
    rw [List.flatMap_cons, List.map_append, h c (List.mem_cons_self c cs),
      ih (fun x hx => h x (List.mem_cons_of_mem c hx))]
    rfl

theorem decode_encode_formatUint (n : Nat) :
    (bytesOfString (FormatUint n)).map (fun b => Char.ofNat b.toNat) = (FormatUint n).data := by
  unfold bytesOfString
  apply decode_encode_chars
  intro c hc
  unfold FormatUint at hc
  simp only [List.mem_map] at hc
  obtain ⟨d, hd, rfl⟩ := hc
  exact (digitChar_props d (decDigits_lt_ten _ _ d hd)).2.2

theorem denotedInteger_formatInt (n : Int) :
    Spec.denotedInteger (bytesOfString (FormatInt n)) = some n := by
  have key : String.mk ((bytesOfString (FormatInt n)).map (fun b => Char.ofNat b.toNat)) =
      FormatInt n := by
    unfold FormatInt
    split_ifs with hneg
    · have h := decode_encode_formatUint n.natAbs
      unfold bytesOfString at h ⊢
      simp only [List.flatMap_cons, List.map_append, h]
      rfl
    · rw [decode_encode_formatUint]
  unfold Spec.denotedInteger
  rw [key]
  exact integerLiteralValue_formatInt n

theorem convert_number (lib : FloatLib) (dataString : String) :
    convertInterfaceValueToBytes lib (.number dataString) =
      if strings.ContainsAny dataString "eE" then .ok (bytesOfString dataString)
      else
        match ParseInt dataString with
        | some i => .ok (bytesOfString (FormatInt i))
        | none =>
          match lib.ParseFloat dataString with
          | some f => .ok (bytesOfString (lib.FormatFloat f))
          | none =>
            .error (other "Unable to convert json.Number to any value of Int64 or Float64") :=
  rfl

/-- C6, as stated, fails, whatever the floating-point functions of `strconv` compute: there
are no `ParseFloat` and `FormatFloat` on the `2^64` values of a float64 with which
`convertInterfaceValueToBytes` returns, for every integer literal of any magnitude, text that
denotes the same integer. The integers from `2^63` to `2^63 + 2^64` are not int64 values, so
each goes through a float64, and there are more of them than float64 values. -/
theorem large_integer_literals_not_all_preserved :
    ¬ ∃ lib : FloatLib, ∀ (lit : String) (n : Int), Spec.integerLiteralValue lit = some n →
      ∃ out, convertInterfaceValueToBytes lib (.number lit) = .ok out ∧
        Spec.denotedInteger out = some n := by
  rintro ⟨lib, hall⟩
  have hstep : ∀ i : Nat, ∃ f, lib.ParseFloat (FormatUint (2 ^ 63 + i)) = some f ∧
      Spec.denotedInteger (bytesOfString (lib.FormatFloat f)) = some ((2 ^ 63 + i : Nat) : Int) := by
    intro i
    obtain ⟨h1, h2, h3⟩ := parseInt_of_large (2 ^ 63 + i) (Nat.le_add_right _ _)
    obtain ⟨out, hout, hden⟩ := hall _ _ h3
    rw [convert_number, h1, h2] at hout
    simp only [Bool.false_eq_true, if_false] at hout
    cases hpf : lib.ParseFloat (FormatUint (2 ^ 63 + i)) with
    | none => rw [hpf] at hout; simp at hout
    | some f =>
      rw [hpf] at hout
      simp only [Except.ok.injEq] at hout
      subst hout
      exact ⟨f, rfl, hden⟩
  choose g hg using hstep
  have hinj : Function.Injective (fun i : Fin (2 ^ 64 + 1) => g i.val) := by
    intro i j hij
    simp only at hij
    have hi := (hg i.val).2
    have hj := (hg j.val).2
    rw [hij, hj] at hi
    simp only [Option.some.injEq, Nat.cast_inj] at hi
    exact Fin.ext (by omega)
  have hcard := Fintype.card_le_of_injective _ hinj
  simp only [Fintype.card_fin] at hcard
  omega

/-- C6, amended to the signed 64-bit range: for every integer literal (an optional minus
sign followed by digits) whose value `n` lies between `-2^63` and `2^63 - 1`, and whatever
the floating-point functions of `strconv` compute, `convertInterfaceValueToBytes` applied to
the `json.Number` of that literal returns without error the bytes of the decimal form of `n`,
which denote exactly `n`. -/
theorem int64_integer_literal_preserved (lib : FloatLib) (lit : String) (n : Int)
    (hlit : Spec.integerLiteralValue lit = some n) (hlo : -2 ^ 63 ≤ n) (hhi : n < 2 ^ 63) :
    convertInterfaceValueToBytes lib (.number lit) = .ok (bytesOfString (FormatInt n)) ∧
    Spec.denotedInteger (bytesOfString (FormatInt n)) = some n := by
  obtain ⟨h1, h2⟩ := parseInt_of_literal lit n hlit hlo hhi
  refine ⟨?_, denotedInteger_formatInt n⟩
  rw [convert_number, h1, h2]
  simp

/-- C6, amended, at a concrete literal: the largest int64 value is returned digit for
digit. -/
theorem int64_integer_literal_preserved_witness :
    convertInterfaceValueToBytes ⟨fun _ => none, fun _ => ""⟩ (.number "9223372036854775807") =
      .ok (bytesOfString "9223372036854775807") ∧
    Spec.denotedInteger (bytesOfString "9223372036854775807") = some 9223372036854775807 :=
  int64_integer_literal_preserved ⟨fun _ => none, fun _ => ""⟩ "9223372036854775807"
    9223372036854775807 (by decide) (by decide) (by decide)

/-- C7, the code at two failing inputs. With base path `conf` and the matched file
`conf/app/conf.yaml` (pattern `app/*.yaml`), the base path occurs again inside the file name:
the key derived is the empty string, not the base name `conf.yaml`, and the path read is the
directory `conf/app`, so the projection fails. With base path `./configs` the glob returns
`configs/a.conf`, which does not contain the base path: the index expression panics. -/
theorem glob_key_not_base_name :
    DataSource.globEntry "conf" "conf/app/conf.yaml" = .returns ("", "conf/app") ∧
    path.Base "conf/app/conf.yaml" = "conf.yaml" ∧
    DataSource.projectGlob ⟨"app/*.yaml", "", "glob", "", [], "raw"⟩
      ⟨fun pattern => if pattern = "conf/app/*.yaml" then .ok ["conf/app/conf.yaml"] else .ok [],
       fun name => if name = "conf/app/conf.yaml" then .ok [107, 58, 32, 118, 10]
         else .error (other ("read " ++ name ++ ": is a directory"))⟩ "conf" =
      .returns (.error (other "read conf/app: is a directory")) ∧
    path.Join ["./configs", "*.conf"] = "configs/*.conf" ∧
    DataSource.globEntry "./configs" "configs/a.conf" = .panic ∧
    DataSource.projectGlob ⟨"*.conf", "", "glob", "", [], "raw"⟩
      ⟨fun pattern => if pattern = "configs/*.conf" then .ok ["configs/a.conf"] else .ok [],
       fun name => if name = "configs/a.conf" then .ok [97, 10]
         else .error (other ("open " ++ name ++ ": no such file or directory"))⟩ "./configs" =
      .panic :=
  ⟨by decide, by decide, by rfl, by decide, by decide, by rfl⟩

end datasource

namespace datasource

theorem setDefaults_ok_fields (d d' : DataSource) (h : d.SetDefaults = (d', none)) :
    ∃ f1 f2, d.setDefaultSourceFormat = (f1, none) ∧ f1.setDefaultOutputFormat = (f2, none) ∧
      d' = f2.setDefaultOutputFile ∧
      f1.Source = d.Source ∧ f1.Extract = d.Extract ∧ f1.FieldExtractions = d.FieldExtractions ∧
      f1.OutputFormat = d.OutputFormat ∧ d'.SourceFormat = f1.SourceFormat ∧
      d'.OutputFormat = f2.OutputFormat := by
  obtain ⟨f1, f2, h1, h2, rfl⟩ := setDefaults_ok_shape d d' h
  refine ⟨f1, f2, h1, h2, rfl, ?_⟩
  have a2 := setDefaultOutputFormat_ok f1 f2 h2
  have a3 := setDefaultOutputFile_formats f2
  have hf1 : f1.Source = d.Source ∧ f1.Extract = d.Extract ∧
      f1.FieldExtractions = d.FieldExtractions ∧ f1.OutputFormat = d.OutputFormat := by
    unfold DataSource.setDefaultSourceFormat at h1
    split_ifs at h1
    · cases hi : d.inferredSourceFormat with
      | error e => rw [hi] at h1; simp at h1
      | ok sf =>
        rw [hi] at h1
        simp only [Prod.mk.injEq, and_true] at h1
        subst h1
        exact ⟨rfl, rfl, rfl, rfl⟩
    · simp only [Prod.mk.injEq, and_true] at h1
      subst h1
      exact ⟨rfl, rfl, rfl, rfl⟩
  exact ⟨hf1.1, hf1.2.1, hf1.2.2.1, hf1.2.2.2, by rw [a3.1, a2.2], a3.2⟩

/-- C11, as stated, fails: the descriptor `{location: "app.yml", source_format: yaml,
extract: "$.a", field_extractions: {b: "$.b"}}` has output_format unset, a non-empty
field_extractions map and a source_format that is not glob, yet `SetDefaults` succeeds and
infers output_format raw. -/
theorem setDefaults_infers_raw_with_field_extractions :
    DataSource.SetDefaults ⟨"app.yml", "", "yaml", "$.a", [("b", "$.b")], ""⟩ =
      (⟨"app.yml", "", "yaml", "$.a", [("b", "$.b")], "raw"⟩, none) := by
  decide

/-- C11, amended: for every descriptor with output_format unset on which `SetDefaults`
succeeds, the inferred output_format is raw only if the resolved source_format is glob, or
the field_extractions map is empty, or extract is non-empty with a resolved source_format
json or yaml; a descriptor that has a non-empty field_extractions map, an empty extract and
a source_format other than glob never gets raw inferred. -/
theorem setDefaults_raw_inferred_only_if (d d' : DataSource) (ho : d.OutputFormat = "")
    (h : d.SetDefaults = (d', none)) :
    (d'.OutputFormat = OutputRaw →
      d'.SourceFormat = FormatGlob ∨ d.FieldExtractions.length = 0 ∨
      (d.Extract ≠ "" ∧ (d'.SourceFormat = FormatJSON ∨ d'.SourceFormat = FormatYAML))) ∧
    (d.FieldExtractions.length > 0 → d.Extract = "" → d'.SourceFormat ≠ FormatGlob →
      d'.OutputFormat ≠ OutputRaw) := by
  obtain ⟨f1, f2, h1, h2, -, hs, he, hf, hof, hsf, hout⟩ := setDefaults_ok_fields d d' h
  have key : d'.OutputFormat = OutputRaw →
      d'.SourceFormat = FormatGlob ∨ d.FieldExtractions.length = 0 ∨
      (d.Extract ≠ "" ∧ (d'.SourceFormat = FormatJSON ∨ d'.SourceFormat = FormatYAML)) := by
    intro hraw
    rw [hout] at hraw
    rw [hsf, ← he, ← hf]
    unfold DataSource.setDefaultOutputFormat at h2
    rw [if_pos (by rw [hof]; exact ho)] at h2
    cases hi : f1.inferredOutputFormat with
    | error e => rw [hi] at h2; simp at h2
    | ok o =>
      rw [hi] at h2
      simp only [Prod.mk.injEq, and_true] at h2
      subst h2
      simp only at hraw
      subst hraw
      unfold DataSource.inferredOutputFormat at hi
      split_ifs at hi with c1 c2 c3 c4
      · injection hi with hi
        exact absurd hi (by decide)
      · injection hi with hi
        exact absurd hi (by decide)
      · exact Or.inl c3
      · rcases c4 with c | c | c
        · exact Or.inr (Or.inl c.2.2)
        · exact Or.inr (Or.inr ⟨c.2, Or.inl c.1⟩)
        · exact Or.inr (Or.inr ⟨c.2, Or.inr c.1⟩)
  refine ⟨key, fun hfe hex hng hraw => ?_⟩
  rcases key hraw with c | c | c
  · exact hng c
  · omega
  · exact c.1 hex

/-- C11, amended, at a concrete descriptor: `{location: "app.yaml", extract: "$.a"}` gets
source_format yaml and output_format raw. -/
theorem setDefaults_raw_inferred_only_if_witness :
    (DataSource.SetDefaults ⟨"app.yaml", "out", "", "$.a", [], ""⟩).1.OutputFormat = OutputRaw ∧
    ((DataSource.SetDefaults ⟨"app.yaml", "out", "", "$.a", [], ""⟩).1.OutputFormat = OutputRaw →
      (DataSource.SetDefaults ⟨"app.yaml", "out", "", "$.a", [], ""⟩).1.SourceFormat = FormatGlob ∨
      (⟨"app.yaml", "out", "", "$.a", [], ""⟩ : DataSource).FieldExtractions.length = 0 ∨
      ((⟨"app.yaml", "out", "", "$.a", [], ""⟩ : DataSource).Extract ≠ "" ∧
        ((DataSource.SetDefaults ⟨"app.yaml", "out", "", "$.a", [], ""⟩).1.SourceFormat = FormatJSON ∨
         (DataSource.SetDefaults ⟨"app.yaml", "out", "", "$.a", [], ""⟩).1.SourceFormat =
           FormatYAML))) :=
  ⟨by decide,
    (setDefaults_raw_inferred_only_if ⟨"app.yaml", "out", "", "$.a", [], ""⟩
      (DataSource.SetDefaults ⟨"app.yaml", "out", "", "$.a", [], ""⟩).1 rfl (by decide)).1⟩

/-- C12, as stated, fails: the location `conf/app?.conf` is a glob pattern for
`filepath.Glob` (it contains `'?'`), yet with source_format unset `SetDefaults` sets
source_format to file; and `conf/app[12].json` with an extract gets json. -/
theorem setDefaults_question_mark_not_glob :
    DataSource.SetDefaults ⟨"conf/app?.conf", "", "", "", [], ""⟩ =
      (⟨"conf/app?.conf", "app?.conf", "file", "", [], "raw"⟩, none) ∧
    DataSource.SetDefaults ⟨"conf/app[12].json", "out", "", "$.a", [], ""⟩ =
      (⟨"conf/app[12].json", "out", "json", "$.a", [], "raw"⟩, none) := by
  decide

/-- C12, amended: for every descriptor with source_format unset whose location contains
`'*'`, `SetDefaults` succeeds and sets source_format to glob, whether or not extraction is
requested. -/
theorem setDefaults_star_infers_glob (d : DataSource) (hsf : d.SourceFormat = "")
    (hstar : '*' ∈ d.Source.data) :
    d.SetDefaults.2 = none ∧ d.SetDefaults.1.SourceFormat = FormatGlob := by
  have hg : d.isGlobSource = true := by
    unfold DataSource.isGlobSource strings.ContainsChar
    simpa using hstar
  have h0 : d.inferredSourceFormat = .ok FormatGlob := by
    unfold DataSource.inferredSourceFormat
    rw [if_pos hg]
  have h1 : d.setDefaultSourceFormat = ({ d with SourceFormat := FormatGlob }, none) := by
    unfold DataSource.setDefaultSourceFormat
    rw [if_pos hsf, h0]
  have h2 : ∃ f2, ({ d with SourceFormat := FormatGlob } : DataSource).setDefaultOutputFormat =
      (f2, none) ∧ f2.SourceFormat = FormatGlob := by
    unfold DataSource.setDefaultOutputFormat
    split_ifs with ho
    · have hinf : ∃ o, ({ d with SourceFormat := FormatGlob } :
          DataSource).inferredOutputFormat = .ok o := by
        unfold DataSource.inferredOutputFormat
        split_ifs with c1 c2 c3
        · exact ⟨_, rfl⟩
        · exact ⟨_, rfl⟩
        · exact ⟨_, rfl⟩
        · exact absurd rfl c3
        · exact absurd rfl c3
      obtain ⟨o, hio⟩ := hinf
      rw [hio]
      exact ⟨_, rfl, rfl⟩
    · exact ⟨_, rfl, rfl⟩
  obtain ⟨f2, hf2, hf2s⟩ := h2
  unfold DataSource.SetDefaults
  rw [h1]
  simp only
  rw [hf2]
  exact ⟨rfl, by rw [(setDefaultOutputFile_formats f2).1, hf2s]⟩

/-- C12, amended, at a concrete descriptor: `{location: "conf/*.json", extract: "$.a"}`
gets source_format glob although extraction is requested. -/
theorem setDefaults_star_infers_glob_witness :
    (DataSource.SetDefaults ⟨"conf/*.json", "", "", "$.a", [], ""⟩).2 = none ∧
    (DataSource.SetDefaults ⟨"conf/*.json", "", "", "$.a", [], ""⟩).1.SourceFormat = FormatGlob :=
  setDefaults_star_infers_glob ⟨"conf/*.json", "", "", "$.a", [], ""⟩ rfl (by decide)

end datasource

namespace datasource

theorem trimSuffix_newline (c : Bytes) : bytes.TrimSuffix c [10] = Spec.stripOneNewline c := by
  unfold bytes.TrimSuffix Spec.stripOneNewline
  have hsuf : ([10] : Bytes).isSuffixOf c = true ↔ c.getLast? = some 10 := by
    rw [List.isSuffixOf_iff_suffix]
    constructor
    · rintro ⟨t, rfl⟩
      simp
    · intro h
      rw [List.getLast?_eq_some_iff] at h
      obtain ⟨ys, rfl⟩ := h
      exact ⟨ys, rfl⟩
  by_cases h : c.getLast? = some 10
  · rw [if_pos (hsuf.mpr h), if_pos h, List.dropLast_eq_take]
    rfl
  · rw [if_neg (fun hc => h (hsuf.mp hc)), if_neg h]

theorem stripOneNewline_append (r : Bytes) : Spec.stripOneNewline (r ++ [10]) = r := by
  unfold Spec.stripOneNewline
  simp

theorem projectGlobLoop_entries (fs : FileSystem) (basePath : String) (files : List String)
    (acc m : GoMap Bytes)
    (h : DataSource.projectGlobLoop fs basePath files acc = .returns (.ok m)) :
    ∀ k x, (k, x) ∈ m → (k, x) ∈ acc ∨
      ∃ v ∈ files, ∃ source buf, DataSource.globEntry basePath v = .returns (k, source) ∧
        fs.ReadFile source = .ok buf ∧ x = Spec.stripOneNewline buf := by
  induction files generalizing acc with
  | nil =>
    unfold DataSource.projectGlobLoop at h
    simp only [Outcome.returns.injEq, Except.ok.injEq] at h
    subst h
    exact fun k x hkx => Or.inl hkx
  | cons v files ih =>
    unfold DataSource.projectGlobLoop at h
    cases hge : DataSource.globEntry basePath v with
    | panic => rw [hge] at h; simp at h
    | returns ns =>
      obtain ⟨name, source⟩ := ns
      rw [hge] at h
      simp only at h
      by_cases hhas : GoMap.has acc name = true
      · rw [if_pos hhas] at h
        simp at h
      rw [if_neg hhas] at h
      cases hrf : fs.ReadFile source with
      | error e => rw [hrf] at h; simp at h
      | ok buf =>
        rw [hrf] at h
        simp only at h
        intro k x hkx
        have hnot : name ∉ GoMap.keys acc := by
          rw [← manifest.has_iff_mem_keys]
          exact hhas
        rw [manifest.set_of_not_mem acc name _ hnot] at h
        rcases ih _ h k x hkx with hin | ⟨v1, hv1, s1, b1, hg1, hr1, hx1⟩
        · rw [List.mem_append, List.mem_singleton] at hin
          rcases hin with hin | hin
          · exact Or.inl hin
          · simp only [Prod.mk.injEq] at hin
            obtain ⟨rfl, rfl⟩ := hin
            exact Or.inr ⟨v, List.mem_cons_self v files, source, buf, hge, hrf,
              trimSuffix_newline buf⟩
        · exact Or.inr ⟨v1, List.mem_cons_of_mem v hv1, s1, b1, hg1, hr1, hx1⟩

theorem projectGlobLoop_ok_iff (fs : FileSystem) (basePath : String) (files : List String)
    (acc m : GoMap Bytes) :
    DataSource.projectGlobLoop fs basePath files acc = .returns (.ok m) ↔
      ∃ ents : GoMap Bytes, m = acc ++ ents ∧
        List.Forall₂ (fun v e => ∃ source buf,
          DataSource.globEntry basePath v = .returns (e.1, source) ∧
          fs.ReadFile source = .ok buf ∧ e.2 = Spec.stripOneNewline buf) files ents ∧
        (GoMap.keys ents).Nodup ∧ ∀ k ∈ GoMap.keys ents, k ∉ GoMap.keys acc := by
  induction files generalizing acc with
  | nil =>
    unfold DataSource.projectGlobLoop
    constructor
    · intro h
      simp only [Outcome.returns.injEq, Except.ok.injEq] at h
      exact ⟨[], by simp [h], List.Forall₂.nil, by simp [GoMap.keys], by simp [GoMap.keys]⟩
    · rintro ⟨ents, hm, hf, -, -⟩
      cases hf
      simp [hm]
  | cons v files ih =>
    unfold DataSource.projectGlobLoop
    cases hge : DataSource.globEntry basePath v with
    | panic =>
      simp only
      constructor
      · intro h
        exact absurd h (by simp)
      · rintro ⟨ents, -, hf, -, -⟩
        cases hf with
        | cons hr _ =>
          obtain ⟨source, buf, hg, -, -⟩ := hr
          rw [hge] at hg
          exact absurd hg (by simp)
    | returns ns =>
      obtain ⟨name, source⟩ := ns
      simp only
      by_cases hhas : GoMap.has acc name = true
      · rw [if_pos hhas]
        constructor
        · intro h
          exact absurd h (by simp)
        · rintro ⟨ents, -, hf, -, hdis⟩
          cases hf with
          | cons hr _ =>
            obtain ⟨source2, buf, hg, -, -⟩ := hr
            rw [hge] at hg
            simp only [Outcome.returns.injEq, Prod.mk.injEq] at hg
            exfalso
            refine hdis name ?_ ((manifest.has_iff_mem_keys acc name).mp hhas)
            rw [hg.1]
            simp [GoMap.keys]
      · rw [if_neg hhas]
        have hnot : name ∉ GoMap.keys acc := fun hk =>
          hhas ((manifest.has_iff_mem_keys acc name).mpr hk)
        cases hrf : fs.ReadFile source with
        | error err =>
          simp only
          constructor
          · intro h
            exact absurd h (by simp)
          · rintro ⟨ents, -, hf, -, -⟩
            cases hf with
            | cons hr _ =>
              obtain ⟨source2, buf, hg, hread, -⟩ := hr
              rw [hge] at hg
              simp only [Outcome.returns.injEq, Prod.mk.injEq] at hg
              rw [← hg.2, hrf] at hread
              exact absurd hread (by simp)
        | ok buf =>
          simp only
          rw [manifest.set_of_not_mem acc name _ hnot, trimSuffix_newline, ih]
          constructor
          · rintro ⟨ents, hm, hf, hnd, hdis⟩
            refine ⟨(name, Spec.stripOneNewline buf) :: ents, by simp [hm],
              List.Forall₂.cons ⟨source, buf, hge, hrf, rfl⟩ hf, ?_, ?_⟩
            · unfold GoMap.keys at hnd hdis ⊢
              simp only [List.map_cons, List.nodup_cons]
              refine ⟨fun hmem => ?_, hnd⟩
              exact hdis name hmem (by simp)
            · intro k hk hka
              unfold GoMap.keys at hk hdis hka hnot
              simp only [List.map_cons, List.mem_cons] at hk
              rcases hk with rfl | hk
              · exact hnot hka
              · exact hdis k hk (by simp [hka])
          · rintro ⟨ents, hm, hf, hnd, hdis⟩
            cases hf with
            | @cons _ e _ ents2 hr hf2 =>
              obtain ⟨source2, buf2, hg, hread, he2⟩ := hr
              rw [hge] at hg
              simp only [Outcome.returns.injEq, Prod.mk.injEq] at hg
              rw [← hg.2, hrf] at hread
              injection hread with hread
              subst hread
              have he : e = (name, Spec.stripOneNewline buf) := Prod.ext hg.1.symm he2
              subst he
              unfold GoMap.keys at hnd hdis ⊢
              simp only [List.map_cons, List.nodup_cons] at hnd
              refine ⟨ents2, by simp [hm], hf2, hnd.2, ?_⟩
              intro k hk hka
              simp only [List.map_append, List.map_cons, List.map_nil, List.mem_append,
                List.mem_singleton] at hka
              rcases hka with hka | hka
              · exact hdis k (by simp [hk]) hka
              · exact hnd.1 (hka ▸ hk)

/-- C13: the file branch and the glob branch of `DataSource.Project` emit a file content
`c` with its final byte removed when `c` ends in a newline and `c` unchanged otherwise;
`strip` removes exactly one trailing newline (content ending in two newlines keeps one) and
leaves every other content as it is. For source_format file, `Project` returns the one entry
`output_file ↦ strip c` for the content `c` read. For source_format glob, `Project` returns
the mapping `m` exactly when `m` lists, file by file in the order of the matches, one entry
per matched file whose value is `strip buf` for the content `buf` read for that file, under
keys that are pairwise distinct: every matched file is emitted, and nothing else is. The
same holds of the two loops `projectFile` and `projectGlobLoop` by themselves. -/
theorem raw_projection_strips_one_newline (cd : Codecs) (fs : FileSystem) (f : DataSource)
    (basePath : String) (c : Bytes) :
    (∀ r : Bytes, Spec.stripOneNewline (r ++ [10]) = r) ∧
    (∀ r : Bytes, Spec.stripOneNewline (r ++ [10, 10]) = r ++ [10]) ∧
    (c.getLast? ≠ some 10 → Spec.stripOneNewline c = c) ∧
    (fs.ReadFile (path.Join [basePath, f.Source]) = .ok c →
      f.projectFile fs basePath = .returns (.ok [(f.OutputFile, Spec.stripOneNewline c)])) ∧
    (∀ (files : List String) (m : GoMap Bytes),
      DataSource.projectGlobLoop fs basePath files [] = .returns (.ok m) →
      ∀ k x, (k, x) ∈ m →
        ∃ v ∈ files, ∃ source buf, DataSource.globEntry basePath v = .returns (k, source) ∧
          fs.ReadFile source = .ok buf ∧ x = Spec.stripOneNewline buf) ∧
    (f.SourceFormat = FormatFile → fs.ReadFile (path.Join [basePath, f.Source]) = .ok c →
      f.Project cd fs basePath = .returns (.ok [(f.OutputFile, Spec.stripOneNewline c)])) ∧
    (f.SourceFormat = FormatGlob → ∀ files : List String,
      fs.Glob (path.Join [basePath, f.Source]) = .ok files → ∀ m : GoMap Bytes,
      (f.Project cd fs basePath = .returns (.ok m) ↔
        List.Forall₂ (fun v e => ∃ source buf,
          DataSource.globEntry basePath v = .returns (e.1, source) ∧
          fs.ReadFile source = .ok buf ∧ e.2 = Spec.stripOneNewline buf) files m ∧
        (GoMap.keys m).Nodup)) := by
  have hfile : fs.ReadFile (path.Join [basePath, f.Source]) = .ok c →
      f.projectFile fs basePath = .returns (.ok [(f.OutputFile, Spec.stripOneNewline c)]) := by
    intro h
    unfold DataSource.projectFile
    rw [h, ← trimSuffix_newline]
    rfl
  refine ⟨stripOneNewline_append, ?_, ?_, hfile, ?_, ?_, ?_⟩
  · intro r
    have := stripOneNewline_append (r ++ [10])
    simpa using this
  · intro h
    unfold Spec.stripOneNewline
    rw [if_neg h]
  · intro files m h k x hkx
    rcases projectGlobLoop_entries fs basePath files [] m h k x hkx with hin | hex
    · exact absurd hin (List.not_mem_nil _)
    · exact hex
  · intro hsf hread
    have hng : f.SourceFormat ≠ FormatGlob := by rw [hsf]; decide
    unfold DataSource.Project
    rw [if_neg hng, if_pos hsf]
    exact hfile hread
  · intro hsf files hglob m
    unfold DataSource.Project
    rw [if_pos hsf]
    unfold DataSource.projectGlob
    rw [hglob]
    simp only
    rw [projectGlobLoop_ok_iff]
    constructor
    · rintro ⟨ents, hm, hf, hnd, -⟩
      rw [List.nil_append] at hm
      subst hm
      exact ⟨hf, hnd⟩
    · rintro ⟨hf, hnd⟩
      exact ⟨m, by simp, hf, hnd, by simp [GoMap.keys]⟩

/-- C13, at concrete files: the content `"k: v\n\n"` of `conf/app.txt` is projected as
`"k: v\n"` by the file branch of `Project`; the glob branch, with the two matches
`conf/a.txt` and `conf/b.txt`, emits both files under their names, each stripped. -/
theorem raw_projection_strips_one_newline_witness :
    DataSource.Project ⟨"app.txt", "app.txt", "file", "", [], "raw"⟩
      (⟨⟨fun _ => none, fun _ => ""⟩, fun _ => .error "eof", fun _ => .error "eof",
        fun _ _ => .error "not found", fun _ => .error "", fun _ => .error ""⟩ : Codecs)
      ⟨fun _ => .ok ["conf/app.txt"], fun _ => .ok [107, 58, 32, 118, 10, 10]⟩ "conf" =
      .returns (.ok [("app.txt", [107, 58, 32, 118, 10])]) ∧
    DataSource.Project ⟨"*.txt", "", "glob", "", [], "raw"⟩
      (⟨⟨fun _ => none, fun _ => ""⟩, fun _ => .error "eof", fun _ => .error "eof",
        fun _ _ => .error "not found", fun _ => .error "", fun _ => .error ""⟩ : Codecs)
      ⟨fun _ => .ok ["conf/a.txt", "conf/b.txt"],
        fun p => if p = "conf/a.txt" then .ok [97, 10] else .ok [98]⟩ "conf" =
      .returns (.ok [("a.txt", [97]), ("b.txt", [98])]) :=
  ⟨(raw_projection_strips_one_newline
      (⟨⟨fun _ => none, fun _ => ""⟩, fun _ => .error "eof", fun _ => .error "eof",
        fun _ _ => .error "not found", fun _ => .error "", fun _ => .error ""⟩ : Codecs)
      ⟨fun _ => .ok ["conf/app.txt"], fun _ => .ok [107, 58, 32, 118, 10, 10]⟩
      ⟨"app.txt", "app.txt", "file", "", [], "raw"⟩ "conf"
      [107, 58, 32, 118, 10, 10]).2.2.2.2.2.1 rfl rfl,
   ((raw_projection_strips_one_newline
      (⟨⟨fun _ => none, fun _ => ""⟩, fun _ => .error "eof", fun _ => .error "eof",
        fun _ _ => .error "not found", fun _ => .error "", fun _ => .error ""⟩ : Codecs)
      ⟨fun _ => .ok ["conf/a.txt", "conf/b.txt"],
        fun p => if p = "conf/a.txt" then .ok [97, 10] else .ok [98]⟩
      ⟨"*.txt", "", "glob", "", [], "raw"⟩ "conf" []).2.2.2.2.2.2 rfl
      ["conf/a.txt", "conf/b.txt"] rfl [("a.txt", [97]), ("b.txt", [98])]).mpr
    ⟨List.Forall₂.cons ⟨"conf/a.txt", [97, 10], by rfl, by rfl, by decide⟩
      (List.Forall₂.cons ⟨"conf/b.txt", [98], by rfl, by rfl, by decide⟩ List.Forall₂.nil),
     by decide⟩⟩

end datasource

namespace datasource

open strconv

theorem intercalate_go_comma (acc x : String) (xs : List String) :
    String.intercalate.go acc "," (x :: xs) = acc ++ "," ++ Spec.joinWithComma (x :: xs) := by
  induction xs generalizing acc x with
  | nil => simp [String.intercalate.go, Spec.joinWithComma]
  | cons y ys ih =>
    rw [String.intercalate.go, ih]
    simp [Spec.joinWithComma, String.append_assoc]

theorem join_comma_eq (xs : List String) : strings.Join xs "," = Spec.joinWithComma xs := by
  unfold strings.Join
  cases xs with
  | nil => rfl
  | cons x xs =>
    cases xs with
    | nil => simp [String.intercalate, String.intercalate.go, Spec.joinWithComma]
    | cons y ys =>
      rw [String.intercalate, intercalate_go_comma]
      simp [Spec.joinWithComma]

theorem stringsOfSlice_strings (xs : List String) :
    stringsOfSlice (xs.map GoValue.string) = .ok xs := by
  induction xs with
  | nil => rfl
  | cons x xs ih =>
    simp only [List.map_cons]
    unfold stringsOfSlice
    rw [ih]

theorem stringsOfSlice_error (xs : List GoValue) (h : ∃ x ∈ xs, Spec.isText x = false) :
    ∃ err, stringsOfSlice xs = .error err := by
  induction xs with
  | nil =>
    obtain ⟨x, hx, -⟩ := h
    exact absurd hx (List.not_mem_nil x)
  | cons y ys ih =>
    cases y with
    | string s =>
      have hys : ∃ x ∈ ys, Spec.isText x = false := by
        obtain ⟨x, hx, hxt⟩ := h
        rw [List.mem_cons] at hx
        rcases hx with rfl | hx
        · simp [Spec.isText] at hxt
        · exact ⟨x, hx, hxt⟩
      obtain ⟨err, herr⟩ := ih hys
      unfold stringsOfSlice
      rw [herr]
      exact ⟨err, rfl⟩
    | int64 i => exact ⟨_, rfl⟩
    | int i => exact ⟨_, rfl⟩
    | float64 f => exact ⟨_, rfl⟩
    | number s => exact ⟨_, rfl⟩
    | bool b => exact ⟨_, rfl⟩
    | slice zs => exact ⟨_, rfl⟩
    | map m => exact ⟨_, rfl⟩
    | null => exact ⟨_, rfl⟩

theorem convert_slice (lib : FloatLib) (xs : List GoValue) :
    convertInterfaceValueToBytes lib (.slice xs) =
      match stringsOfSlice xs with
      | .ok s => .ok (bytesOfString (strings.Join s ","))
      | .error err => .error err :=
  rfl

/-- C16: for every list whose elements are all text, `convertInterfaceValueToBytes` returns
without error the elements joined in their original order with a single `','` between
neighbours and no escaping of commas inside elements; the empty list gives empty output and
a one-element list gives that element. -/
theorem convert_list_of_text (lib : FloatLib) (xs : List String) :
    convertInterfaceValueToBytes lib (.slice (xs.map GoValue.string)) =
      .ok (bytesOfString (Spec.joinWithComma xs)) ∧
    convertInterfaceValueToBytes lib (.slice []) = .ok [] ∧
    (∀ x : String, convertInterfaceValueToBytes lib (.slice [.string x]) = .ok (bytesOfString x)) ∧
    convertInterfaceValueToBytes lib (.slice [.string "a,b", .string "c"]) =
      .ok (bytesOfString "a,b,c") := by
  have key : ∀ ys : List String, convertInterfaceValueToBytes lib (.slice (ys.map GoValue.string)) =
      .ok (bytesOfString (Spec.joinWithComma ys)) := by
    intro ys
    rw [convert_slice, stringsOfSlice_strings]
    simp only
    rw [join_comma_eq]
  exact ⟨key xs, key [], fun x => key [x], key ["a,b", "c"]⟩

/-- C17: for every `json.Number` whose literal text contains `'e'` or `'E'`,
`convertInterfaceValueToBytes` returns without error exactly the bytes of that literal
text. -/
theorem convert_number_with_exponent (lib : FloatLib) (s : String)
    (h : 'e' ∈ s.data ∨ 'E' ∈ s.data) :
    convertInterfaceValueToBytes lib (.number s) = .ok (bytesOfString s) := by
  have hc : strings.ContainsAny s "eE" = true := by
    unfold strings.ContainsAny
    rw [List.any_eq_true]
    rcases h with h | h
    · exact ⟨'e', h, by decide⟩
    · exact ⟨'E', h, by decide⟩
  rw [convert_number, if_pos hc]

/-- C17, at a concrete literal: `1.5e+10` is returned as it is written. -/
theorem convert_number_with_exponent_witness :
    convertInterfaceValueToBytes ⟨fun _ => none, fun _ => ""⟩ (.number "1.5e+10") =
      .ok [49, 46, 53, 101, 43, 49, 48] :=
  convert_number_with_exponent ⟨fun _ => none, fun _ => ""⟩ "1.5e+10" (Or.inl (by decide))

/-- C18: for every decoded value that is null, a mapping, or a list containing at least one
element that is not text, `convertInterfaceValueToBytes` returns an error, hence no bytes. -/
theorem convert_unsupported_is_error (lib : FloatLib) :
    (∃ err, convertInterfaceValueToBytes lib .null = .error err) ∧
    (∀ m, ∃ err, convertInterfaceValueToBytes lib (.map m) = .error err) ∧
    (∀ xs : List GoValue, (∃ x ∈ xs, Spec.isText x = false) →
      ∃ err, convertInterfaceValueToBytes lib (.slice xs) = .error err) := by
  refine ⟨⟨_, rfl⟩, fun m => ⟨_, rfl⟩, fun xs h => ?_⟩
  obtain ⟨err, herr⟩ := stringsOfSlice_error xs h
  rw [convert_slice, herr]
  exact ⟨err, rfl⟩

/-- C18, at a concrete list: a list of a text and a number is rejected. -/
theorem convert_unsupported_is_error_witness :
    ∃ err, convertInterfaceValueToBytes ⟨fun _ => none, fun _ => ""⟩
      (.slice [.string "a", .number "1"]) = .error err :=
  (convert_unsupported_is_error ⟨fun _ => none, fun _ => ""⟩).2.2 [.string "a", .number "1"]
    ⟨.number "1", by simp, rfl⟩

end datasource

namespace datasource

open strconv

theorem decDigits_head_zero (fuel n : Nat) (h : n < 10 ^ fuel)
    (hz : (decDigits fuel n []).head? = some 0) : n = 0 := by
  induction fuel generalizing n with
  | zero =>
    simp only [pow_zero, Nat.lt_one_iff] at h
    exact h
  | succ fuel ih =>
    unfold decDigits at hz
    split_ifs at hz with hn
    · simpa using hz
    · exfalso
      rw [decDigits_append] at hz
      have hlt : n / 10 < 10 ^ fuel := by rw [pow_succ] at h; omega
      cases fuel with
      | zero => simp at hlt; omega
      | succ k =>
        have hne := decDigits_ne_nil k (n / 10)
        rw [List.head?_append_of_ne_nil _ hne] at hz
        have := ih (n / 10) hlt hz
        omega

theorem canonicalDigits_formatUint (n : Nat) :
    Spec.canonicalDigits (FormatUint n).data = true := by
  unfold Spec.canonicalDigits
  have hne := formatUint_data_ne_nil n
  have hdig := formatUint_all_digits n
  simp only [Bool.and_eq_true, Bool.not_eq_true', List.isEmpty_eq_false, ne_eq, hne,
    not_false_eq_true, List.all_eq_true, decide_eq_true_eq, true_and, Bool.or_eq_true,
    bne_iff_ne, beq_iff_eq]
  refine ⟨hdig, ?_⟩
  by_cases hz : (FormatUint n).data.head? = some '0'
  · right
    have hz0 : (decDigits (n + 1) n []).head? = some 0 := by
      unfold FormatUint at hz
      simp only [List.head?_map] at hz
      cases hd : (decDigits (n + 1) n []).head? with
      | none => rw [hd] at hz; simp at hz
      | some d =>
        rw [hd] at hz
        simp only [Option.map_some', Option.some.injEq] at hz
        have hdlt : d < 10 := decDigits_lt_ten _ _ d (List.mem_of_mem_head? hd)
        have := (digitChar_props d hdlt).2.1
        rw [hz] at this
        rw [← this]
        rfl
    have hn0 := decDigits_head_zero (n + 1) n (lt_ten_pow_succ n) hz0
    subst hn0
    rfl
  · left
    exact hz

theorem isCanonicalDecimal_formatInt (n : Int) :
    Spec.isCanonicalDecimal (FormatInt n) n = true := by
  unfold Spec.isCanonicalDecimal FormatInt
  split_ifs with hneg
  · simp only [if_true, Bool.and_eq_true, decide_eq_true_eq]
    exact ⟨hneg, canonicalDigits_formatUint _⟩
  · have hdig := formatUint_all_digits n.toNat
    have hc := canonicalDigits_formatUint n.toNat
    cases hd : (FormatUint n.toNat).data with
    | nil => exact absurd hd (formatUint_data_ne_nil _)
    | cons c cs =>
      rw [hd] at hdig hc
      have hcd := digit_ne_marks c (hdig c (List.mem_cons_self c cs))
      simp only [hcd.2.2.1, if_false, Bool.and_eq_true, decide_eq_true_eq]
      exact ⟨by omega, hc⟩

/-- C19: for every `json.Number` whose literal is a decimal integer in the signed 64-bit
range (no exponent marker), and for every int64 value, `convertInterfaceValueToBytes`
returns the canonical decimal ASCII form of that integer: no leading zeros, a leading `'-'`
exactly when the value is negative, and parsing the output as a decimal integer gives back
the same value. -/
theorem convert_int64_canonical_decimal (lib : FloatLib) :
    (∀ (lit : String) (n : Int), Spec.integerLiteralValue lit = some n → -2 ^ 63 ≤ n →
      n < 2 ^ 63 →
      convertInterfaceValueToBytes lib (.number lit) = .ok (bytesOfString (FormatInt n))) ∧
    (∀ i : Int, convertInterfaceValueToBytes lib (.int64 i) = .ok (bytesOfString (FormatInt i))) ∧
    (∀ n : Int, Spec.isCanonicalDecimal (FormatInt n) n = true ∧
      Spec.denotedInteger (bytesOfString (FormatInt n)) = some n) := by
  refine ⟨fun lit n hlit hlo hhi => ?_, fun i => rfl, fun n =>
    ⟨isCanonicalDecimal_formatInt n, denotedInteger_formatInt n⟩⟩
  obtain ⟨h1, h2⟩ := parseInt_of_literal lit n hlit hlo hhi
  rw [convert_number, h1, h2]
  simp

/-- C19, at concrete values: the number `42` of the document `{"limits":{"max": 42}}` comes
out as `42`, the literal `-0` as `0`, and the least int64 value with its sign. -/
theorem convert_int64_canonical_decimal_witness :
    convertInterfaceValueToBytes ⟨fun _ => none, fun _ => ""⟩ (.number "42") = .ok [52, 50] ∧
    convertInterfaceValueToBytes ⟨fun _ => none, fun _ => ""⟩ (.number "-0") = .ok [48] ∧
    convertInterfaceValueToBytes ⟨fun _ => none, fun _ => ""⟩ (.int64 (-9223372036854775808)) =
      .ok (bytesOfString "-9223372036854775808") :=
  ⟨(convert_int64_canonical_decimal ⟨fun _ => none, fun _ => ""⟩).1 "42" 42 (by decide)
      (by decide) (by decide),
   (convert_int64_canonical_decimal ⟨fun _ => none, fun _ => ""⟩).1 "-0" 0 (by decide)
      (by decide) (by decide),
   (convert_int64_canonical_decimal ⟨fun _ => none, fun _ => ""⟩).2.1 (-9223372036854775808)⟩

end datasource

namespace manifest

open datasource

theorem nameChar_val_le (c : Char) (h : isNameChar c = true) : c.val.toNat ≤ 122 := by
  unfold isNameChar isLowerAlnum at h
  simp only [Bool.or_eq_true, Bool.and_eq_true, decide_eq_true_eq, beq_iff_eq] at h
  rcases h with ((h | h) | h) | h
  · have := h.2
    exact this
  · have : c.val.toNat ≤ '9'.val.toNat := h.2
    exact le_trans this (by decide)
  · subst h; decide
  · subst h; decide

theorem utf8Size_of_nameChar (c : Char) (h : isNameChar c = true) : c.utf8Size = 1 := by
  have hv := nameChar_val_le c h
  unfold Char.utf8Size
  have : c.val ≤ UInt32.ofNatCore 127 (by decide) := by
    show c.val.toNat ≤ 127
    omega
  rw [if_pos this]

theorem length_le_utf8Len (cs : List Char) : cs.length ≤ String.utf8Len cs := by
  induction cs with
  | nil => simp
  | cons c cs ih =>
    have := Char.utf8Size_pos c
    simp only [List.length_cons, String.utf8Len_cons]
    omega

theorem utf8Len_of_nameChars (cs : List Char) (h : ∀ c ∈ cs, isNameChar c = true) :
    String.utf8Len cs = cs.length := by
  induction cs with
  | nil => simp
  | cons c cs ih =>
    simp only [List.length_cons, String.utf8Len_cons]
    rw [ih (fun x hx => h x (List.mem_cons_of_mem c hx)),
      utf8Size_of_nameChar c (h c (List.mem_cons_self c cs))]

theorem nameChar_of_lowerAlnum (c : Char) (h : isLowerAlnum c = true) : isNameChar c = true := by
  unfold isNameChar
  rw [h]
  rfl

theorem name_rule_iff_malformed (s : String) :
    (s.utf8ByteSize > 253 ∨ ¬ (nameValidationRegexp s = true)) ↔ Spec.malformedIdentifier s := by
  obtain ⟨cs⟩ := s
  unfold Spec.malformedIdentifier nameValidationRegexp
  simp only [String.utf8ByteSize_mk]
  cases cs with
  | nil => simp
  | cons c rest =>
    simp only [Bool.and_eq_true, Bool.not_eq_true', List.isEmpty_eq_false, List.all_eq_true,
      List.length_cons, List.head?_cons, Option.some.injEq, exists_eq_left', List.mem_cons,
      exists_eq_or_imp]
    constructor
    · rintro (hlen | hre)
      · by_cases hall : ∀ x ∈ c :: rest, isNameChar x = true
        · left
          have := utf8Len_of_nameChars (c :: rest) hall
          simp only [List.length_cons] at this
          omega
        · right; right; right
          push_neg at hall
          obtain ⟨x, hx, hxn⟩ := hall
          simp only [Bool.not_eq_true] at hxn
          rw [List.mem_cons] at hx
          rcases hx with rfl | hx
          · exact Or.inl hxn
          · exact Or.inr ⟨x, hx, hxn⟩
      · by_cases hc : isLowerAlnum c = true
        · by_cases hr : rest = []
          · right; left
            subst hr
            simp
          · by_cases hall : ∀ x ∈ rest, isNameChar x = true
            · exact absurd ⟨⟨hc, hr⟩, hall⟩ hre
            · right; right; right; right
              push_neg at hall
              obtain ⟨x, hx, hxn⟩ := hall
              exact ⟨x, hx, by simpa using hxn⟩
        · right; right; left
          simpa using hc
    · rintro (hlen | hlen | hc | hc | ⟨x, hx, hxn⟩)
      · left
        have := length_le_utf8Len (c :: rest)
        simp only [List.length_cons] at this
        omega
      · right
        rintro ⟨⟨-, hr⟩, -⟩
        have : rest.length ≠ 0 := fun h => hr (List.length_eq_zero.mp h)
        omega
      · right
        rintro ⟨⟨hc', -⟩, -⟩
        rw [hc] at hc'
        exact absurd hc' (by decide)
      · right
        rintro ⟨⟨hc', -⟩, -⟩
        rw [nameChar_of_lowerAlnum c hc'] at hc
        exact absurd hc (by decide)
      · right
        rintro ⟨-, hall⟩
        rw [hall x hx] at hxn
        exact absurd hxn (by decide)

theorem firstViolation_mem (rules : List (Bool × types.Error)) (e : types.Error)
    (h : Spec.firstViolation rules = some e) : ∃ r ∈ rules, r.2 = e := by
  induction rules with
  | nil => simp [Spec.firstViolation] at h
  | cons r rest ih =>
    obtain ⟨b, e1⟩ := r
    unfold Spec.firstViolation at h
    split_ifs at h
    · simp only [Option.some.injEq] at h
      exact ⟨(b, e1), List.mem_cons_self _ _, h⟩
    · obtain ⟨r, hr, hre⟩ := ih h
      exact ⟨r, List.mem_cons_of_mem _ hr, hre⟩

theorem datasource_validate_not_name_error (d : DataSource) :
    d.Validate ≠ some ErrInvalidName ∧ d.Validate ≠ some ErrInvalidNamespace ∧
    d.Validate ≠ some ErrUnsupportedSourceType := by
  have key : ∀ e, d.Validate = some e →
      e ≠ ErrInvalidName ∧ e ≠ ErrInvalidNamespace ∧ e ≠ ErrUnsupportedSourceType := by
    intro e he
    rw [validate_eq_firstViolation] at he
    obtain ⟨r, hr, rfl⟩ := firstViolation_mem _ e he
    unfold Spec.validateRules at hr
    simp only [List.mem_cons, List.mem_singleton, List.not_mem_nil, or_false] at hr
    rcases hr with h | h | h | h | h | h | h | h <;> (subst h; simp)
  refine ⟨fun h => (key _ h).1 rfl, fun h => (key _ h).2.1 rfl, fun h => (key _ h).2.2 rfl⟩

theorem validateData_not_name_error (ds : List DataSource) :
    ConfigProjectionManifest.validateData ds ≠ some ErrInvalidName ∧
    ConfigProjectionManifest.validateData ds ≠ some ErrInvalidNamespace := by
  induction ds with
  | nil => simp [ConfigProjectionManifest.validateData]
  | cons d rest ih =>
    unfold ConfigProjectionManifest.validateData
    have hd := datasource_validate_not_name_error d
    cases hv : d.Validate with
    | none => exact ih
    | some e =>
      rw [hv] at hd
      exact ⟨hd.1, hd.2.1⟩

/-- C14, as stated, fails: the one-character name `a` and the name `-ab` are made only of
lower-case alphanumerics, `'-'` and `'.'` and are not longer than 253 characters, yet
`Validate` rejects both with the invalid-name error. -/
theorem validate_rejects_short_and_dash_first_names :
    ConfigProjectionManifest.Validate ⟨"a", "prod", [], ⟨"", "", "", ""⟩⟩ = some ErrInvalidName ∧
    ConfigProjectionManifest.Validate ⟨"-ab", "prod", [], ⟨"", "", "", ""⟩⟩ =
      some ErrInvalidName ∧
    (∀ c ∈ "a".data, isNameChar c = true) ∧ (∀ c ∈ "-ab".data, isNameChar c = true) := by
  decide

/-- C14, amended: `ConfigProjectionManifest.Validate` rejects a non-empty name (the
namespace being non-empty) with the invalid-name error exactly when the name is longer than
253 characters, or shorter than 2 characters, or does not start with a lower-case
alphanumeric, or contains a character other than a lower-case alphanumeric, `'-'` or `'.'`;
likewise, the name passing, it rejects the namespace with the invalid-namespace error
exactly in those cases; every name of 2 to 253 characters drawn only from lower-case
alphanumerics, `'-'` and `'.'` that starts with a lower-case alphanumeric is accepted. -/
theorem manifest_validate_invalid_name_iff (m : ConfigProjectionManifest)
    (hn : m.Name ≠ "") (hns : m.Namespace ≠ "") :
    (m.Validate = some ErrInvalidName ↔ Spec.malformedIdentifier m.Name) ∧
    (¬ Spec.malformedIdentifier m.Name →
      (m.Validate = some ErrInvalidNamespace ↔ Spec.malformedIdentifier m.Namespace)) ∧
    (2 ≤ m.Name.data.length → m.Name.data.length ≤ 253 →
      (∀ c, m.Name.data.head? = some c → isLowerAlnum c = true) →
      (∀ c ∈ m.Name.data, isNameChar c = true) → m.Validate ≠ some ErrInvalidName) := by
  have hname : m.Validate = some ErrInvalidName ↔ Spec.malformedIdentifier m.Name := by
    rw [← name_rule_iff_malformed]
    unfold ConfigProjectionManifest.Validate
    rw [if_neg hn, if_neg hns]
    by_cases h1 : m.Name.utf8ByteSize > 253 ∨ ¬ (nameValidationRegexp m.Name = true)
    · rw [if_pos h1]
      exact ⟨fun _ => h1, fun _ => rfl⟩
    · rw [if_neg h1]
      constructor
      · intro h
        exfalso
        by_cases h2 : m.Namespace.utf8ByteSize > 253 ∨ ¬ (nameValidationRegexp m.Namespace = true)
        · rw [if_pos h2] at h
          exact absurd h (by decide)
        · rw [if_neg h2] at h
          exact (validateData_not_name_error m.Data).1 h
      · exact fun h => absurd h h1
  refine ⟨hname, fun hgood => ?_, fun h2 h253 hfirst hall => ?_⟩
  · rw [← name_rule_iff_malformed] at hgood ⊢
    unfold ConfigProjectionManifest.Validate
    rw [if_neg hn, if_neg hns, if_neg hgood]
    by_cases h1 : m.Namespace.utf8ByteSize > 253 ∨ ¬ (nameValidationRegexp m.Namespace = true)
    · rw [if_pos h1]
      exact ⟨fun _ => h1, fun _ => rfl⟩
    · rw [if_neg h1]
      exact ⟨fun h => absurd h (validateData_not_name_error m.Data).2, fun h => absurd h h1⟩
  · rw [Ne, hname]
    unfold Spec.malformedIdentifier
    rintro (h | h | ⟨c, hc, hcn⟩ | ⟨c, hc, hcn⟩)
    · omega
    · omega
    · rw [hfirst c hc] at hcn
      exact absurd hcn (by decide)
    · rw [hall c hc] at hcn
      exact absurd hcn (by decide)

/-- C14, amended, at a concrete manifest: the name `has_underscore` is rejected with the
invalid-name error, for its character `'_'`. -/
theorem manifest_validate_invalid_name_iff_witness :
    ConfigProjectionManifest.Validate ⟨"has_underscore", "prod", [], ⟨"", "", "", ""⟩⟩ =
      some ErrInvalidName :=
  (manifest_validate_invalid_name_iff ⟨"has_underscore", "prod", [], ⟨"", "", "", ""⟩⟩
    (by decide) (by decide)).1.mpr (Or.inr (Or.inr (Or.inr ⟨'_', by decide, by decide⟩)))

end manifest

namespace datasource

theorem stringsOfSlice_error_other (xs : List GoValue) (e : types.Error)
    (h : stringsOfSlice xs = .error e) : ∃ msg, e = other msg := by
  induction xs with
  | nil => simp [stringsOfSlice] at h
  | cons y ys ih =>
    cases y with
    | string s =>
      unfold stringsOfSlice at h
      cases hs : stringsOfSlice ys with
      | ok ss => rw [hs] at h; simp at h
      | error e1 =>
        rw [hs] at h
        simp only [Except.error.injEq] at h
        subst h
        exact ih hs
    | int64 i => unfold stringsOfSlice at h; injection h with h; exact ⟨_, h.symm⟩
    | int i => unfold stringsOfSlice at h; injection h with h; exact ⟨_, h.symm⟩
    | float64 f => unfold stringsOfSlice at h; injection h with h; exact ⟨_, h.symm⟩
    | number s => unfold stringsOfSlice at h; injection h with h; exact ⟨_, h.symm⟩
    | bool b => unfold stringsOfSlice at h; injection h with h; exact ⟨_, h.symm⟩
    | slice zs => unfold stringsOfSlice at h; injection h with h; exact ⟨_, h.symm⟩
    | map m => unfold stringsOfSlice at h; injection h with h; exact ⟨_, h.symm⟩
    | null => unfold stringsOfSlice at h; injection h with h; exact ⟨_, h.symm⟩

theorem convert_error_other (lib : strconv.FloatLib) (v : GoValue) (e : types.Error)
    (h : convertInterfaceValueToBytes lib v = .error e) : ∃ msg, e = other msg := by
  cases v with
  | string s => simp [convertInterfaceValueToBytes] at h
  | int64 i => simp [convertInterfaceValueToBytes] at h
  | int i => simp [convertInterfaceValueToBytes] at h
  | float64 f => simp [convertInterfaceValueToBytes] at h
  | bool b => simp [convertInterfaceValueToBytes] at h
  | number s =>
    rw [convert_number] at h
    split_ifs at h
    cases hp : strconv.ParseInt s with
    | some i => rw [hp] at h; simp at h
    | none =>
      rw [hp] at h
      cases hf : lib.ParseFloat s with
      | some f => rw [hf] at h; simp at h
      | none =>
        rw [hf] at h
        simp only [Except.error.injEq] at h
        exact ⟨_, h.symm⟩
  | slice xs =>
    rw [convert_slice] at h
    cases hs : stringsOfSlice xs with
    | ok ss => rw [hs] at h; simp at h
    | error e1 =>
      rw [hs] at h
      simp only [Except.error.injEq] at h
      subst h
      exact stringsOfSlice_error_other xs _ hs
  | map m =>
    unfold convertInterfaceValueToBytes at h
    injection h with h
    exact ⟨_, h.symm⟩
  | null =>
    unfold convertInterfaceValueToBytes at h
    injection h with h
    exact ⟨_, h.symm⟩

theorem extractFields_error_other (lookup : String → Except String GoValue)
    (fields : GoMap String) (acc : GoMap GoValue) (e : types.Error)
    (h : extractFields lookup fields acc = .error e) : ∃ msg, e = other msg := by
  induction fields generalizing acc with
  | nil => simp [extractFields] at h
  | cons f rest ih =>
    obtain ⟨label, jpath⟩ := f
    unfold extractFields at h
    cases hl : lookup jpath with
    | error msg =>
      rw [hl] at h
      simp only [Except.error.injEq] at h
      exact ⟨msg, h.symm⟩
    | ok res =>
      rw [hl] at h
      exact ih _ h

theorem validateBefore_not_source_type (d : DataSource) :
    validateBeforeStructuredProjection d ≠ some ErrUnsupportedSourceType := by
  unfold validateBeforeStructuredProjection
  split_ifs <;> simp

theorem projectStructured_not_source_type (c : Codecs) (decode : Bytes → Except String GoValue)
    (d : DataSource) (fs : FileSystem) (basePath : String)
    (hread : ∀ p, fs.ReadFile p ≠ .error ErrUnsupportedSourceType) :
    projectStructured c decode d fs basePath ≠ .error ErrUnsupportedSourceType := by
  intro h
  unfold projectStructured at h
  cases hv : validateBeforeStructuredProjection d with
  | some err =>
    rw [hv] at h
    simp only [Except.error.injEq] at h
    subst h
    exact validateBefore_not_source_type d hv
  | none =>
    rw [hv] at h
    simp only at h
    cases hr : fs.ReadFile (path.Join [basePath, d.Source]) with
    | error err =>
      rw [hr] at h
      simp only [Except.error.injEq] at h
      subst h
      exact hread _ hr
    | ok content =>
      rw [hr] at h
      simp only at h
      cases hd : decode content with
      | error msg => rw [hd] at h; simp at h
      | ok data =>
        rw [hd] at h
        simp only at h
        by_cases he : d.Extract ≠ ""
        · rw [if_pos he] at h
          cases hl : c.JsonPathLookup data d.Extract with
          | error msg => rw [hl] at h; simp at h
          | ok res =>
            rw [hl] at h
            simp only at h
            cases hc : convertInterfaceValueToBytes c.float res with
            | ok v => rw [hc] at h; simp at h
            | error err =>
              obtain ⟨msg, rfl⟩ := convert_error_other _ _ _ hc
              rw [hc] at h
              simp at h
        · rw [if_neg he] at h
          cases hx : extractFields (c.JsonPathLookup data) d.FieldExtractions [] with
          | error err =>
            obtain ⟨msg, rfl⟩ := extractFields_error_other _ _ _ _ hx
            rw [hx] at h
            simp at h
          | ok resArray =>
            rw [hx] at h
            simp only at h
            split_ifs at h
            · cases hm : c.jsonMarshal resArray with
              | error msg => rw [hm] at h; simp at h
              | ok v => rw [hm] at h; simp at h
            · cases hm : c.yamlMarshal resArray with
              | error msg => rw [hm] at h; simp at h
              | ok v => rw [hm] at h; simp at h
            · simp at h

theorem projectGlobLoop_not_source_type (fs : FileSystem) (basePath : String)
    (hread : ∀ p, fs.ReadFile p ≠ .error ErrUnsupportedSourceType) (files : List String)
    (acc : GoMap Bytes) :
    DataSource.projectGlobLoop fs basePath files acc ≠
      .returns (.error ErrUnsupportedSourceType) := by
  induction files generalizing acc with
  | nil => simp [DataSource.projectGlobLoop]
  | cons v files ih =>
    intro h
    unfold DataSource.projectGlobLoop at h
    cases hge : DataSource.globEntry basePath v with
    | panic => rw [hge] at h; simp at h
    | returns ns =>
      obtain ⟨name, source⟩ := ns
      rw [hge] at h
      simp only at h
      by_cases hhas : GoMap.has acc name = true
      · rw [if_pos hhas] at h
        simp at h
      rw [if_neg hhas] at h
      cases hrf : fs.ReadFile source with
      | error e =>
        rw [hrf] at h
        simp only [Outcome.returns.injEq, Except.error.injEq] at h
        subst h
        exact hread _ hrf
      | ok buf =>
        rw [hrf] at h
        exact ih _ h

/-- C20: for every descriptor on which `Validate` returns no error, and for every base
path and file system (whose own errors are not the sentinel `ErrUnsupportedSourceType` of
package `types`), `DataSource.Project` never returns `ErrUnsupportedSourceType`: its
source_format is one of glob, file, json and yaml, so the dispatch takes one of the four
branches and never the default one. -/
theorem project_never_unsupported_source_type (c : Codecs) (fs : FileSystem) (d : DataSource)
    (basePath : String) (hv : d.Validate = none)
    (hread : ∀ p, fs.ReadFile p ≠ .error ErrUnsupportedSourceType)
    (hglob : ∀ p, fs.Glob p ≠ .error ErrUnsupportedSourceType) :
    d.Project c fs basePath ≠ .returns (.error ErrUnsupportedSourceType) ∧
    (d.SourceFormat = FormatGlob ∨ d.SourceFormat = FormatFile ∨ d.SourceFormat = FormatJSON ∨
      d.SourceFormat = FormatYAML) ∧
    d.Project c fs basePath =
      (if d.SourceFormat = FormatGlob then d.projectGlob fs basePath
       else if d.SourceFormat = FormatFile then d.projectFile fs basePath
       else if d.SourceFormat = FormatJSON then .returns (d.projectJSON c fs basePath)
       else .returns (d.projectYAML c fs basePath)) := by
  rw [validate_none_iff] at hv
  obtain ⟨h1, -⟩ := hv
  have hfmt : d.SourceFormat = FormatGlob ∨ d.SourceFormat = FormatFile ∨
      d.SourceFormat = FormatJSON ∨ d.SourceFormat = FormatYAML := by
    by_contra hc
    push_neg at hc
    exact h1 ⟨hc.2.1, hc.1, hc.2.2.1, hc.2.2.2⟩
  have hdisp : d.Project c fs basePath =
      (if d.SourceFormat = FormatGlob then d.projectGlob fs basePath
       else if d.SourceFormat = FormatFile then d.projectFile fs basePath
       else if d.SourceFormat = FormatJSON then .returns (d.projectJSON c fs basePath)
       else .returns (d.projectYAML c fs basePath)) := by
    unfold DataSource.Project
    by_cases hg : d.SourceFormat = FormatGlob
    · rw [if_pos hg, if_pos hg]
    rw [if_neg hg, if_neg hg]
    by_cases hf : d.SourceFormat = FormatFile
    · rw [if_pos hf, if_pos hf]
    rw [if_neg hf, if_neg hf]
    by_cases hj : d.SourceFormat = FormatJSON
    · rw [if_pos hj, if_pos hj]
    rw [if_neg hj, if_neg hj]
    have hy : d.SourceFormat = FormatYAML := by tauto
    rw [if_pos hy]
  refine ⟨?_, hfmt, hdisp⟩
  rw [hdisp]
  intro h
  split_ifs at h
  · unfold DataSource.projectGlob at h
    cases hgl : fs.Glob (path.Join [basePath, d.Source]) with
    | error err =>
      rw [hgl] at h
      simp only [Outcome.returns.injEq, Except.error.injEq] at h
      subst h
      exact hglob _ hgl
    | ok files =>
      rw [hgl] at h
      exact projectGlobLoop_not_source_type fs basePath hread files [] h
  · unfold DataSource.projectFile at h
    split_ifs at h
    · simp at h
    · cases hr : fs.ReadFile (path.Join [basePath, d.Source]) with
      | error err =>
        rw [hr] at h
        simp only [Outcome.returns.injEq, Except.error.injEq] at h
        subst h
        exact hread _ hr
      | ok buf => rw [hr] at h; simp at h
  · simp only [Outcome.returns.injEq] at h
    exact projectStructured_not_source_type c c.jsonDecode d fs basePath hread h
  · simp only [Outcome.returns.injEq] at h
    exact projectStructured_not_source_type c c.yamlUnmarshal d fs basePath hread h

/-- C20, at a concrete descriptor: the validated descriptor `{location: "app.txt",
output_file: "app.txt", source_format: file, output_format: raw}` on a file system without
the file fails with the error of the file system, not with `ErrUnsupportedSourceType`. -/
theorem project_never_unsupported_source_type_witness :
    DataSource.Project ⟨"app.txt", "app.txt", "file", "", [], "raw"⟩
      ⟨⟨fun _ => none, fun _ => ""⟩, fun _ => .error "eof", fun _ => .error "eof",
        fun _ _ => .error "not found", fun _ => .error "", fun _ => .error ""⟩
      ⟨fun _ => .ok [], fun p => .error (other ("open " ++ p ++ ": no such file or directory"))⟩
      "conf" ≠ .returns (.error ErrUnsupportedSourceType) :=
  (project_never_unsupported_source_type
    ⟨⟨fun _ => none, fun _ => ""⟩, fun _ => .error "eof", fun _ => .error "eof",
      fun _ _ => .error "not found", fun _ => .error "", fun _ => .error ""⟩
    ⟨fun _ => .ok [], fun p => .error (other ("open " ++ p ++ ": no such file or directory"))⟩
    ⟨"app.txt", "app.txt", "file", "", [], "raw"⟩ "conf" (by decide)
    (fun p => by simp) (fun p => by simp)).1

end datasource

namespace main

open datasource manifest

theorem loadManifestsWalk_nil_map (env : LoadEnv) (cfg : conf.Config) (entries : List WalkEntry) :
    loadManifestsWalk env cfg entries none = .panic ∨
    ∃ err, loadManifestsWalk env cfg entries none = .returns (none, err) := by
  induction entries with
  | nil => exact Or.inr ⟨none, rfl⟩
  | cons e rest ih =>
    unfold loadManifestsWalk
    cases he : e.err with
    | some err => exact Or.inr ⟨some err, rfl⟩
    | none =>
      simp only
      cases hi : e.info with
      | none => exact ih
      | some ni =>
        obtain ⟨name, isDir⟩ := ni
        simp only
        by_cases hdir : isDir = true
        · rw [if_pos hdir]
          exact ih
        rw [if_neg hdir]
        by_cases hsuf : ¬ strings.HasSuffix name ".yaml" = true
        · rw [if_pos hsuf]
          exact ih
        rw [if_neg hsuf]
        cases hr : env.fs.ReadFile e.path with
        | error err => exact Or.inr ⟨_, rfl⟩
        | ok raw =>
          simp only
          cases hl : LoadFromYAMLBytes env.unmarshalStrict raw cfg with
          | panic => exact Or.inl rfl
          | returns res =>
            obtain ⟨m, lerr⟩ := res
            cases lerr with
            | some err => exact Or.inr ⟨_, rfl⟩
            | none =>
              simp only
              by_cases hhas : GoMap.has ((none : Option (GoMap DecodedManifest)).getD [])
                  (m.Namespace ++ "/" ++ m.Name) = true
              · rw [if_pos hhas]
                exact Or.inr ⟨_, rfl⟩
              · rw [if_neg hhas]
                exact Or.inl rfl

/-- C15, the code at the failing input: a manifest directory that holds the single file
`manifests/app.yaml`, which loads and validates as the manifest `prod/app`. The named result
`manifests` of `loadManifests` is the nil map, so binding the first manifest panics; and for
every directory `loadManifests` panics or returns the nil map, never a map that binds a
manifest. -/
theorem loadManifests_panics_on_first_manifest :
    loadManifests
      ⟨⟨fun _ => .ok [], fun _ => .ok [110]⟩,
       fun _ => (⟨"app", "prod", [some ⟨"app.txt", "", "", "", [], ""⟩], ⟨"", "", "", ""⟩⟩,
         none),
       fun _ => [⟨"manifests", none, some ("manifests", true)⟩,
         ⟨"manifests/app.yaml", none, some ("app.yaml", false)⟩],
       fun _ => "error"⟩
      ⟨"conf", "g1", "version", "managed"⟩ "manifests" = .panic ∧
    LoadFromYAMLBytes
      (fun _ => (⟨"app", "prod", [some ⟨"app.txt", "", "", "", [], ""⟩], ⟨"", "", "", ""⟩⟩,
        none))
      [110] ⟨"conf", "g1", "version", "managed"⟩ =
      .returns (⟨"app", "prod", [some ⟨"app.txt", "app.txt", "file", "", [], "raw"⟩],
        ⟨"conf", "g1", "version", "managed"⟩⟩, none) ∧
    ∀ (env : LoadEnv) (cfg : conf.Config) (manifestDir : String),
      loadManifests env cfg manifestDir = .panic ∨
      ∃ err, loadManifests env cfg manifestDir = .returns (none, err) :=
  ⟨by rfl, by decide, fun env cfg manifestDir => loadManifestsWalk_nil_map env cfg _⟩

end main

namespace manifest

/-- C21: whenever `ConfigProjectionManifest.Project` returns an error, whether it comes
from a descriptor's own projection or from a duplicate output key, the ConfigMap returned
with it has its data field nil: it carries no data entry, so the keys merged from earlier
descriptors are not exposed. -/
theorem project_error_has_no_data (m : ConfigProjectionManifest)
    (project : datasource.DataSource → String → Except types.Error (GoMap Bytes))
    (h : (m.Project project).2 ≠ none) : (m.Project project).1.Data = none := by
  unfold ConfigProjectionManifest.Project at h ⊢
  simp only at h ⊢
  cases hl : projectLoop (m.Data.map (fun d => project d m.c.ConfigDir)) [] with
  | error err => rfl
  | ok dataList =>
    rw [hl] at h
    exact absurd rfl h

/-- C21, at a concrete manifest: the second descriptor produces the key `a.conf` again; the
ConfigMap returned with the duplicate-key error has no data, although `a.conf` had been
merged; and so has the one returned when the second descriptor fails by itself. -/
theorem project_error_has_no_data_witness :
    (ConfigProjectionManifest.Project
        ⟨"app", "prod", [⟨"a.conf", "a.conf", "file", "", [], "raw"⟩,
          ⟨"x/a.conf", "a.conf", "file", "", [], "raw"⟩], ⟨"cfg", "g1", "version", "managed"⟩⟩
        (fun _ _ => .ok [("a.conf", [97])])).1.Data = none ∧
    (ConfigProjectionManifest.Project
        ⟨"app", "prod", [⟨"a.conf", "a.conf", "file", "", [], "raw"⟩,
          ⟨"x/a.conf", "a.conf", "file", "", [], "raw"⟩], ⟨"cfg", "g1", "version", "managed"⟩⟩
        (fun d _ => if d.Source = "a.conf" then .ok [("a.conf", [97])]
          else .error (other "open cfg/x/a.conf: no such file or directory"))).1.Data = none :=
  ⟨project_error_has_no_data _ _ (by decide), project_error_has_no_data _ _ (by decide)⟩

end manifest

namespace datasource

theorem not_both_suffixes (s : String) (hj : strings.HasSuffix s ".json" = true)
    (hy : strings.HasSuffix s ".yaml" = true) : False := by
  unfold strings.HasSuffix at hj hy
  rw [List.isSuffixOf_iff_suffix] at hj hy
  obtain ⟨t1, h1⟩ := hj
  obtain ⟨t2, h2⟩ := hy
  have e1 : s.data.getLast? = some 'n' := by rw [← h1]; simp
  have e2 : s.data.getLast? = some 'l' := by rw [← h2]; simp
  rw [e1] at e2
  exact absurd e2 (by decide)

theorem inferredOutputFormat_structured (f : DataSource)
    (hs : f.SourceFormat = FormatJSON ∨ f.SourceFormat = FormatYAML)
    (hx : f.Extract ≠ "" ∨ (f.FieldExtractions.length > 0 ∧
      (strings.HasSuffix f.Source ".json" = true ∨ strings.HasSuffix f.Source ".yaml" = true))) :
    ∃ o, f.inferredOutputFormat = .ok o := by
  unfold DataSource.inferredOutputFormat
  by_cases c1 : strings.HasSuffix f.Source ".json" = true ∧ f.FieldExtractions.length > 0
  · rw [if_pos c1]; exact ⟨_, rfl⟩
  rw [if_neg c1]
  by_cases c2 : strings.HasSuffix f.Source ".yaml" = true ∧ f.FieldExtractions.length > 0
  · rw [if_pos c2]; exact ⟨_, rfl⟩
  rw [if_neg c2]
  by_cases c3 : f.SourceFormat = FormatGlob
  · rw [if_pos c3]; exact ⟨_, rfl⟩
  rw [if_neg c3]
  have he : f.Extract ≠ "" := by
    rcases hx with h | ⟨hl, hj | hy⟩
    · exact h
    · exact absurd ⟨hj, hl⟩ c1
    · exact absurd ⟨hy, hl⟩ c2
  have c4 : (f.SourceFormat = FormatFile ∧ f.Extract = "" ∧ f.FieldExtractions.length = 0) ∨
      (f.SourceFormat = FormatJSON ∧ f.Extract ≠ "") ∨
      (f.SourceFormat = FormatYAML ∧ f.Extract ≠ "") := by
    rcases hs with h | h
    · exact Or.inr (Or.inl ⟨h, he⟩)
    · exact Or.inr (Or.inr ⟨h, he⟩)
  rw [if_pos c4]
  exact ⟨_, rfl⟩

theorem setDefaults_of_inferred_structured (d : DataSource) (sf : SourceFormat)
    (hsf : d.SourceFormat = "") (hinf : d.inferredSourceFormat = .ok sf)
    (hs : sf = FormatJSON ∨ sf = FormatYAML)
    (hx : d.Extract ≠ "" ∨ (d.FieldExtractions.length > 0 ∧
      (strings.HasSuffix d.Source ".json" = true ∨ strings.HasSuffix d.Source ".yaml" = true))) :
    d.SetDefaults.2 = none ∧ d.SetDefaults.1.SourceFormat = sf := by
  have h1 : d.setDefaultSourceFormat = ({ d with SourceFormat := sf }, none) := by
    unfold DataSource.setDefaultSourceFormat
    rw [if_pos hsf, hinf]
  have h2 : ∃ f2, ({ d with SourceFormat := sf } : DataSource).setDefaultOutputFormat =
      (f2, none) ∧ f2.SourceFormat = sf := by
    unfold DataSource.setDefaultOutputFormat
    by_cases ho : d.OutputFormat = ""
    · rw [if_pos ho]
      obtain ⟨o, hio⟩ := inferredOutputFormat_structured { d with SourceFormat := sf } hs hx
      rw [hio]
      exact ⟨_, rfl, rfl⟩
    · rw [if_neg ho]
      exact ⟨_, rfl, rfl⟩
  obtain ⟨f2, hf2, hf2s⟩ := h2
  unfold DataSource.SetDefaults
  rw [h1]
  simp only
  rw [hf2]
  exact ⟨rfl, by rw [(setDefaultOutputFile_formats f2).1, hf2s]⟩

/-- C22: for every descriptor with source_format unset, a non-empty location that contains
no `'*'`, and extraction requested (extract non-empty or field_extractions non-empty),
`SetDefaults` sets source_format to json when the location ends in `.json`, to yaml when it
ends in `.yaml`, and in every other case fails with `ErrUnableToInferSourceFormat` and leaves
every field of the descriptor unchanged. -/
theorem setDefaults_extraction_source_format (d : DataSource) (hsf : d.SourceFormat = "")
    (hloc : d.Source ≠ "") (hstar : d.isGlobSource = false)
    (hex : d.Extract ≠ "" ∨ d.FieldExtractions.length > 0) :
    (strings.HasSuffix d.Source ".json" = true →
      d.SetDefaults.2 = none ∧ d.SetDefaults.1.SourceFormat = FormatJSON) ∧
    (strings.HasSuffix d.Source ".yaml" = true →
      d.SetDefaults.2 = none ∧ d.SetDefaults.1.SourceFormat = FormatYAML) ∧
    (strings.HasSuffix d.Source ".json" = false → strings.HasSuffix d.Source ".yaml" = false →
      d.SetDefaults = (d, some ErrUnableToInferSourceFormat)) := by
  have hnone : ¬ (d.Extract = "" ∧ d.FieldExtractions.length = 0) := by
    rintro ⟨h1, h2⟩
    rcases hex with h | h
    · exact h h1
    · omega
  refine ⟨fun hj => ?_, fun hy => ?_, fun hj hy => ?_⟩
  · have hinf : d.inferredSourceFormat = .ok FormatJSON := by
      unfold DataSource.inferredSourceFormat
      rw [hstar, if_neg (by simp), if_pos hloc, if_neg hnone, if_pos ⟨hex, hj⟩]
    refine setDefaults_of_inferred_structured d _ hsf hinf (Or.inl rfl) ?_
    rcases hex with h | h
    · exact Or.inl h
    · exact Or.inr ⟨h, Or.inl hj⟩
  · have hnj : ¬ ((d.Extract ≠ "" ∨ d.FieldExtractions.length > 0) ∧
        strings.HasSuffix d.Source ".json" = true) := fun h => not_both_suffixes d.Source h.2 hy
    have hinf : d.inferredSourceFormat = .ok FormatYAML := by
      unfold DataSource.inferredSourceFormat
      rw [hstar, if_neg (by simp), if_pos hloc, if_neg hnone, if_neg hnj, if_pos ⟨hex, hy⟩]
    refine setDefaults_of_inferred_structured d _ hsf hinf (Or.inr rfl) ?_
    rcases hex with h | h
    · exact Or.inl h
    · exact Or.inr ⟨h, Or.inr hy⟩
  · have hinf : d.inferredSourceFormat = .error ErrUnableToInferSourceFormat := by
      unfold DataSource.inferredSourceFormat
      rw [hstar, if_neg (by simp), if_pos hloc, if_neg hnone, if_neg (by simp [hj]),
        if_neg (by simp [hy])]
    have h1 : d.setDefaultSourceFormat = (d, some ErrUnableToInferSourceFormat) := by
      unfold DataSource.setDefaultSourceFormat
      rw [if_pos hsf, hinf]
    unfold DataSource.SetDefaults
    rw [h1]

/-- C22, at concrete descriptors: `app.json` with an extract gets json, `app.yaml` with
field extractions gets yaml, and `app.yml` with an extract fails and stays as it was. -/
theorem setDefaults_extraction_source_format_witness :
    (DataSource.SetDefaults ⟨"app.json", "out", "", "$.a", [], ""⟩).1.SourceFormat = FormatJSON ∧
    (DataSource.SetDefaults ⟨"app.yaml", "out", "", "", [("a", "$.a")], ""⟩).1.SourceFormat =
      FormatYAML ∧
    DataSource.SetDefaults ⟨"app.yml", "out", "", "$.a", [], ""⟩ =
      (⟨"app.yml", "out", "", "$.a", [], ""⟩, some ErrUnableToInferSourceFormat) :=
  ⟨((setDefaults_extraction_source_format ⟨"app.json", "out", "", "$.a", [], ""⟩ rfl
      (by decide) (by decide) (Or.inl (by decide))).1 (by decide)).2,
   ((setDefaults_extraction_source_format ⟨"app.yaml", "out", "", "", [("a", "$.a")], ""⟩ rfl
      (by decide) (by decide) (Or.inr (by decide))).2.1 (by decide)).2,
   (setDefaults_extraction_source_format ⟨"app.yml", "out", "", "$.a", [], ""⟩ rfl
      (by decide) (by decide) (Or.inl (by decide))).2.2 (by decide) (by decide)⟩

end datasource

namespace datasource

theorem not_only_slashes_of_not_abs (p : String) (hne : p ≠ "") (habs : path.IsAbs p = false) :
    ∃ c ∈ p.data, c ≠ '/' := by
  unfold path.IsAbs at habs
  cases hp : p.data with
  | nil => exact absurd (String.ext hp) hne
  | cons c cs =>
    rw [hp] at habs
    simp only at habs
    refine ⟨c, List.mem_cons_self c cs, fun hc => ?_⟩
    rw [hc] at habs
    exact absurd habs (by decide)

theorem base_of_slashes (p : String) (hne : p ≠ "") (hall : ∀ c ∈ p.data, c = '/') :
    path.Base p = "/" := by
  have h0 : p.data.reverse.dropWhile (fun c => c == '/') = [] := by
    rw [List.dropWhile_eq_nil_iff]
    intro c hc
    rw [hall c (List.mem_reverse.mp hc)]
    rfl
  unfold path.Base
  rw [if_neg hne]
  simp only [path.afterLastSlash, path.stripTrailingSlashes, h0]
  rfl

theorem base_shape (p : String) (hns : ∃ c ∈ p.data, c ≠ '/') :
    '/' ∉ (path.Base p).data ∧
    ∃ pre post, p.data = pre ++ (path.Base p).data ++ post ∧ (∀ c ∈ post, c = '/') ∧
      (pre = [] ∨ pre.getLast? = some '/') := by
  have hne : p ≠ "" := by
    obtain ⟨c, hc, -⟩ := hns
    intro h
    rw [h] at hc
    exact absurd hc (List.not_mem_nil c)
  have hT := List.takeWhile_append_dropWhile (fun c => c == '/') p.data.reverse
  have hL := List.takeWhile_append_dropWhile (fun c => c != '/')
    (p.data.reverse.dropWhile (fun c => c == '/'))
  -- the stripped path is not empty: the path is not made of slashes only
  have hr : p.data.reverse.dropWhile (fun c => c == '/') ≠ [] := by
    intro h0
    rw [List.dropWhile_eq_nil_iff] at h0
    obtain ⟨c, hc, hcs⟩ := hns
    have := h0 c (List.mem_reverse.mpr hc)
    exact hcs (by simpa using this)
  have hlast : (p.data.reverse.dropWhile (fun c => c == '/')).takeWhile (fun c => c != '/')
      ≠ [] := by
    cases hd : p.data.reverse.dropWhile (fun c => c == '/') with
    | nil => exact absurd hd hr
    | cons c cs =>
      have hc := List.head_dropWhile_not (fun c => c == '/') p.data.reverse (by rw [hd]; simp)
      simp only [hd, List.head_cons] at hc
      rw [List.takeWhile_cons]
      have : (c != '/') = true := by simpa using hc
      rw [this]
      simp
  have hbase : (path.Base p).data =
      ((p.data.reverse.dropWhile (fun c => c == '/')).takeWhile (fun c => c != '/')).reverse := by
    unfold path.Base
    rw [if_neg hne]
    simp only [path.afterLastSlash, path.stripTrailingSlashes, List.reverse_reverse]
    rw [if_neg (by simpa using hlast)]
  refine ⟨?_, ?_⟩
  · rw [hbase]
    intro hmem
    rw [List.mem_reverse] at hmem
    have := List.mem_takeWhile_imp hmem
    simp at this
  · refine ⟨((p.data.reverse.dropWhile (fun c => c == '/')).dropWhile
        (fun c => c != '/')).reverse,
      (p.data.reverse.takeWhile (fun c => c == '/')).reverse, ?_, ?_, ?_⟩
    · rw [hbase, ← List.reverse_append, ← List.reverse_append, ← List.append_assoc] at *
      rw [List.append_assoc, hL, hT, List.reverse_reverse]
    · intro c hc
      rw [List.mem_reverse] at hc
      have := List.mem_takeWhile_imp hc
      simpa using this
    · cases hd : (p.data.reverse.dropWhile (fun c => c == '/')).dropWhile (fun c => c != '/') with
      | nil => exact Or.inl rfl
      | cons c cs =>
        right
        have hc := List.head_dropWhile_not (fun c => c != '/')
          (p.data.reverse.dropWhile (fun c => c == '/')) (by rw [hd]; simp)
        simp only [hd, List.head_cons] at hc
        have hc2 : c = '/' := by simpa using hc
        rw [List.getLast?_reverse, hc2]
        rfl

theorem setDefaultSourceFormat_keeps (f : DataSource) :
    f.setDefaultSourceFormat.1.Source = f.Source ∧
    f.setDefaultSourceFormat.1.OutputFile = f.OutputFile := by
  unfold DataSource.setDefaultSourceFormat
  split_ifs
  · cases f.inferredSourceFormat <;> exact ⟨rfl, rfl⟩
  · exact ⟨rfl, rfl⟩

theorem setDefaultOutputFormat_keeps (f : DataSource) :
    f.setDefaultOutputFormat.1.Source = f.Source ∧
    f.setDefaultOutputFormat.1.OutputFile = f.OutputFile := by
  unfold DataSource.setDefaultOutputFormat
  split_ifs
  · cases f.inferredOutputFormat <;> exact ⟨rfl, rfl⟩
  · exact ⟨rfl, rfl⟩

theorem setDefaults_error_outputFile (d x : DataSource) (e : types.Error)
    (h : d.SetDefaults = (x, some e)) : x.OutputFile = d.OutputFile := by
  have k1 := setDefaultSourceFormat_keeps d
  unfold DataSource.SetDefaults at h
  rcases h1 : d.setDefaultSourceFormat with ⟨f1, e1⟩
  rw [h1] at k1 h
  simp only at k1
  cases e1 with
  | some e1 =>
    simp only [Prod.mk.injEq] at h
    rw [← h.1, k1.2]
  | none =>
    simp only at h
    have k2 := setDefaultOutputFormat_keeps f1
    rcases h2 : f1.setDefaultOutputFormat with ⟨f2, e2⟩
    rw [h2] at k2 h
    simp only at k2
    cases e2 with
    | some e2 =>
      simp only [Prod.mk.injEq] at h
      rw [← h.1, k2.2, k1.2]
    | none => simp at h

theorem setDefaults_ok_outputFile (d x : DataSource) (h : d.SetDefaults = (x, none)) :
    (d.OutputFile = "" ∧ x.SourceFormat = FormatFile ∧ x.OutputFormat = OutputRaw →
      x.OutputFile = path.Base d.Source) ∧
    (¬ (d.OutputFile = "" ∧ x.SourceFormat = FormatFile ∧ x.OutputFormat = OutputRaw) →
      x.OutputFile = d.OutputFile) := by
  obtain ⟨f1, f2, h1, h2, rfl⟩ := setDefaults_ok_shape d x h
  have k1 := setDefaultSourceFormat_keeps d
  have k2 := setDefaultOutputFormat_keeps f1
  rw [h1] at k1
  rw [h2] at k2
  simp only at k1 k2
  have k3 := setDefaultOutputFile_formats f2
  rw [k3.1, k3.2]
  unfold DataSource.setDefaultOutputFile
  by_cases c : f2.OutputFile = "" ∧ f2.OutputFormat = OutputRaw ∧ f2.SourceFormat = FormatFile
  · rw [if_pos c]
    simp only
    refine ⟨fun _ => by rw [k2.1, k1.1], fun hn => ?_⟩
    exact absurd ⟨by rw [← k1.2, ← k2.2]; exact c.1, c.2.2, c.2.1⟩ hn
  · rw [if_neg c]
    refine ⟨fun hp => ?_, fun _ => by rw [k2.2, k1.2]⟩
    exact absurd ⟨by rw [k2.2, k1.2]; exact hp.1, hp.2.2, hp.2.1⟩ c

/-- C23, as claimed, fails: "in every other case `SetDefaults` leaves output_file as it was"
covers an absolute location, but for the absolute location `/etc/x` with every other field
unset the formats resolve to file and raw and `SetDefaults` sets output_file to `x`; for the
location `/` it sets output_file to `/`. -/
theorem setDefaults_absolute_location_sets_output_file :
    path.IsAbs "/etc/x" = true ∧
    DataSource.SetDefaults ⟨"/etc/x", "", "", "", [], ""⟩ =
      (⟨"/etc/x", "x", "file", "", [], "raw"⟩, none) ∧
    (DataSource.SetDefaults ⟨"/", "", "", "", [], ""⟩).1.OutputFile = "/" :=
  ⟨by decide, by decide, by decide⟩

/-- C23, amended: `SetDefaults` sets output_file exactly when output_file is unset, the call
succeeds and the formats resolve to source_format file and output_format raw, whether the
location is absolute or not; output_file is then `path.Base` of the location, which is
non-empty, is `"."` for an empty location, is `"/"` for a non-empty location made of slashes
only, and for a location with a character other than `'/'` (in particular a non-empty
location that is not absolute) contains no `'/'` and is the last path element: the location
is a prefix that is empty or ends in `'/'`, followed by the result, followed by slashes
only. In every other case (output_file set, other formats, or a failed inference)
output_file is left as it was. -/
theorem setDefaults_output_file_base (d : DataSource) :
    (d.OutputFile = "" → d.SetDefaults.2 = none → d.SetDefaults.1.SourceFormat = FormatFile →
      d.SetDefaults.1.OutputFormat = OutputRaw →
      d.SetDefaults.1.OutputFile = path.Base d.Source ∧ d.SetDefaults.1.OutputFile ≠ "" ∧
      (d.Source = "" → d.SetDefaults.1.OutputFile = ".") ∧
      (d.Source ≠ "" → path.IsAbs d.Source = false →
        '/' ∉ d.SetDefaults.1.OutputFile.data ∧
        ∃ pre post, d.Source.data = pre ++ d.SetDefaults.1.OutputFile.data ++ post ∧
          (∀ c ∈ post, c = '/') ∧ (pre = [] ∨ pre.getLast? = some '/')) ∧
      ((∃ c ∈ d.Source.data, c ≠ '/') →
        '/' ∉ d.SetDefaults.1.OutputFile.data ∧
        ∃ pre post, d.Source.data = pre ++ d.SetDefaults.1.OutputFile.data ++ post ∧
          (∀ c ∈ post, c = '/') ∧ (pre = [] ∨ pre.getLast? = some '/')) ∧
      (d.Source ≠ "" → (∀ c ∈ d.Source.data, c = '/') → d.SetDefaults.1.OutputFile = "/")) ∧
    (¬ (d.OutputFile = "" ∧ d.SetDefaults.2 = none ∧ d.SetDefaults.1.SourceFormat = FormatFile ∧
        d.SetDefaults.1.OutputFormat = OutputRaw) →
      d.SetDefaults.1.OutputFile = d.OutputFile) := by
  rcases hS : d.SetDefaults with ⟨x, e⟩
  cases e with
  | some e =>
    simp only
    refine ⟨fun _ h2 => absurd h2 (by simp), fun _ => setDefaults_error_outputFile d x e hS⟩
  | none =>
    simp only
    have key := setDefaults_ok_outputFile d x hS
    refine ⟨fun h1 _ h3 h4 => ?_, fun hn => key.2 (fun h => hn ⟨h.1, trivial, h.2.1, h.2.2⟩)⟩
    rw [key.1 ⟨h1, h3, h4⟩]
    refine ⟨rfl, base_ne_empty _, fun h => ?_,
      fun hne habs => base_shape _ (not_only_slashes_of_not_abs _ hne habs),
      fun hns => base_shape _ hns, fun hne hall => base_of_slashes _ hne hall⟩
    rw [h]
    rfl

/-- C23 amended, at concrete descriptors: `conf/app/app.conf/` gets output_file `app.conf`,
the absolute `/etc/x` gets `x` without a slash, `//` gets `/`, and a descriptor whose
output_file is set keeps it. -/
theorem setDefaults_output_file_base_witness :
    (DataSource.SetDefaults ⟨"conf/app/app.conf/", "", "", "", [], ""⟩).1.OutputFile =
      path.Base "conf/app/app.conf/" ∧
    path.Base "conf/app/app.conf/" = "app.conf" ∧
    '/' ∉ (DataSource.SetDefaults ⟨"/etc/x", "", "", "", [], ""⟩).1.OutputFile.data ∧
    (DataSource.SetDefaults ⟨"//", "", "", "", [], ""⟩).1.OutputFile = "/" ∧
    (DataSource.SetDefaults ⟨"conf/app/app.conf", "out", "", "", [], ""⟩).1.OutputFile = "out" :=
  ⟨((setDefaults_output_file_base ⟨"conf/app/app.conf/", "", "", "", [], ""⟩).1 rfl
      (by decide) (by decide) (by decide)).1,
   by decide,
   (((setDefaults_output_file_base ⟨"/etc/x", "", "", "", [], ""⟩).1 rfl
      (by decide) (by decide) (by decide)).2.2.2.2.1 ⟨'e', by decide, by decide⟩).1,
   ((setDefaults_output_file_base ⟨"//", "", "", "", [], ""⟩).1 rfl
      (by decide) (by decide) (by decide)).2.2.2.2.2 (by decide) (by decide),
   (setDefaults_output_file_base ⟨"conf/app/app.conf", "out", "", "", [], ""⟩).2 (by decide)⟩

end datasource

namespace datasource

/-- C26, as claimed, fails: `Validate` accepts the json descriptor
`{location: "app.json", output_file: "out", extract: "$.a", output_format: json}` and the json
descriptor `{location: "app.json", output_file: "out", output_format: raw}` without any
extractor, and `validateBeforeStructuredProjection` rejects both, the first with
`ErrUnsupportedOutputFormat`, the second with `ErrOutputFormatRequiresExtractors`. -/
theorem validated_descriptor_fails_precheck :
    DataSource.Validate ⟨"app.json", "out", "json", "$.a", [], "json"⟩ = none ∧
    validateBeforeStructuredProjection ⟨"app.json", "out", "json", "$.a", [], "json"⟩ =
      some ErrUnsupportedOutputFormat ∧
    DataSource.Validate ⟨"app.json", "out", "json", "", [], "raw"⟩ = none ∧
    validateBeforeStructuredProjection ⟨"app.json", "out", "json", "", [], "raw"⟩ =
      some ErrOutputFormatRequiresExtractors :=
  ⟨by decide, by decide, by decide, by decide⟩

/-- C26, amended: for every descriptor on which `Validate` returns no error and whose
source_format is json or yaml, `validateBeforeStructuredProjection` returns no error exactly
when field_extractions is non-empty and extract is empty, or extract is non-empty,
field_extractions is empty and output_format is raw. Otherwise it fails: with
`ErrUnsupportedOutputFormat` exactly when extract is non-empty and output_format is not raw,
with `ErrOutputFormatRequiresExtractors` exactly when there is no extractor (output_format is
then raw), and never with `ErrMultipleExtractorsFound`. -/
theorem validated_precheck_ok_iff (d : DataSource) (hv : d.Validate = none)
    (_hs : d.SourceFormat = FormatJSON ∨ d.SourceFormat = FormatYAML) :
    (validateBeforeStructuredProjection d = none ↔
      (d.Extract = "" ∧ d.FieldExtractions.length > 0) ∨
      (d.Extract ≠ "" ∧ d.FieldExtractions.length = 0 ∧ d.OutputFormat = OutputRaw)) ∧
    (validateBeforeStructuredProjection d = some ErrUnsupportedOutputFormat ↔
      d.Extract ≠ "" ∧ d.OutputFormat ≠ OutputRaw) ∧
    (validateBeforeStructuredProjection d = some ErrOutputFormatRequiresExtractors ↔
      d.Extract = "" ∧ d.FieldExtractions.length = 0 ∧ d.OutputFormat = OutputRaw) ∧
    validateBeforeStructuredProjection d ≠ some ErrMultipleExtractorsFound := by
  rw [validate_none_iff] at hv
  obtain ⟨-, v2, -, -, v5, v6, -, -⟩ := hv
  have hrj : OutputRaw ≠ OutputJSON := by decide
  have hry : OutputRaw ≠ OutputYAML := by decide
  unfold validateBeforeStructuredProjection
  by_cases c1 : d.FieldExtractions.length > 0 ∧
      ¬ (d.OutputFormat = OutputJSON ∨ d.OutputFormat = OutputYAML)
  · exfalso
    have hraw : d.OutputFormat = OutputRaw := by
      by_contra hr
      exact v2 ⟨fun h => c1.2 (Or.inl h), fun h => c1.2 (Or.inr h), hr⟩
    exact v6 ⟨hraw, by omega⟩
  rw [if_neg c1]
  by_cases c2 : d.Extract ≠ "" ∧ d.OutputFormat ≠ OutputRaw
  · rw [if_pos c2]
    refine ⟨⟨fun h => absurd h (by simp), ?_⟩, ⟨fun _ => c2, fun _ => rfl⟩,
      ⟨fun h => absurd h (by decide), fun h => absurd h.1 c2.1⟩, by decide⟩
    rintro (h | h)
    · exact absurd h.1 c2.1
    · exact absurd h.2.2 c2.2
  rw [if_neg c2]
  by_cases c3 : d.Extract ≠ "" ∧ d.FieldExtractions.length > 0
  · exfalso
    have hraw : d.OutputFormat = OutputRaw := by
      by_contra hr
      exact c2 ⟨c3.1, hr⟩
    exact v6 ⟨hraw, by omega⟩
  rw [if_neg c3]
  by_cases c4 : d.Extract = "" ∧ d.FieldExtractions.length = 0
  · rw [if_pos c4]
    have hraw : d.OutputFormat = OutputRaw := by
      by_contra hr
      exact v5 ⟨c4.1, c4.2, hr⟩
    refine ⟨⟨fun h => absurd h (by simp), ?_⟩, ⟨fun h => absurd h (by decide), fun h => absurd c4.1 h.1⟩,
      ⟨fun _ => ⟨c4.1, c4.2, hraw⟩, fun _ => rfl⟩, by decide⟩
    rintro (h | h)
    · omega
    · exact absurd c4.1 h.1
  rw [if_neg c4]
  refine ⟨⟨fun _ => ?_, fun _ => rfl⟩, ⟨fun h => absurd h (by simp), fun h => absurd h c2⟩,
    ⟨fun h => absurd h (by simp), fun h => absurd ⟨h.1, h.2.1⟩ c4⟩, by simp⟩
  by_cases he : d.Extract = ""
  · left
    refine ⟨he, ?_⟩
    by_contra hl
    exact c4 ⟨he, by omega⟩
  · right
    refine ⟨he, ?_, ?_⟩
    · by_contra hl
      exact c3 ⟨he, by omega⟩
    · by_contra hr
      exact c2 ⟨he, hr⟩

/-- C26 amended, at a concrete descriptor: the validated json descriptor with only
field_extractions and output_format json passes the pre-check. -/
theorem validated_precheck_ok_iff_witness :
    DataSource.Validate ⟨"app.json", "out", "json", "", [("a", "$.a")], "json"⟩ = none ∧
    validateBeforeStructuredProjection ⟨"app.json", "out", "json", "", [("a", "$.a")], "json"⟩ =
      none :=
  ⟨by decide,
   (validated_precheck_ok_iff ⟨"app.json", "out", "json", "", [("a", "$.a")], "json"⟩
      (by decide) (Or.inl rfl)).1.2 (Or.inl ⟨rfl, by decide⟩)⟩

theorem setDefaults_error_not_valid (d d1 : DataSource) (e : types.Error)
    (h : d.SetDefaults = (d1, some e)) : d1.Validate ≠ none := by
  intro hv
  rw [validate_none_iff] at hv
  obtain ⟨v1, v2, -⟩ := hv
  unfold DataSource.SetDefaults at h
  rcases h1 : d.setDefaultSourceFormat with ⟨f1, e1⟩
  rw [h1] at h
  cases e1 with
  | some e1 =>
    simp only [Prod.mk.injEq] at h
    unfold DataSource.setDefaultSourceFormat at h1
    by_cases hs : d.SourceFormat = ""
    · rw [if_pos hs] at h1
      cases hi : d.inferredSourceFormat with
      | error err =>
        rw [hi] at h1
        simp only [Prod.mk.injEq] at h1
        apply v1
        rw [← h.1, ← h1.1, hs]
        decide
      | ok sf => rw [hi] at h1; simp at h1
    · rw [if_neg hs] at h1
      simp at h1
  | none =>
    simp only at h
    rcases h2 : f1.setDefaultOutputFormat with ⟨f2, e2⟩
    rw [h2] at h
    cases e2 with
    | some e2 =>
      simp only [Prod.mk.injEq] at h
      unfold DataSource.setDefaultOutputFormat at h2
      by_cases ho : f1.OutputFormat = ""
      · rw [if_pos ho] at h2
        cases hi : f1.inferredOutputFormat with
        | error err =>
          rw [hi] at h2
          simp only [Prod.mk.injEq] at h2
          apply v2
          rw [← h.1, ← h2.1, ho]
          decide
        | ok o => rw [hi] at h2; simp at h2
      · rw [if_neg ho] at h2
        simp at h2
    | none => simp at h

end datasource

namespace manifest

theorem validate_toDecoded (m : ConfigProjectionManifest) :
    m.toDecoded.Validate = .returns m.Validate := by
  have hdata : ∀ l : List datasource.DataSource,
      DecodedManifest.validateData (l.map some) =
        .returns (ConfigProjectionManifest.validateData l) := by
    intro l
    induction l with
    | nil => rfl
    | cons d rest ih =>
      simp only [List.map_cons]
      unfold DecodedManifest.validateData ConfigProjectionManifest.validateData
      cases d.Validate with
      | none => exact ih
      | some err => rfl
  unfold DecodedManifest.Validate ConfigProjectionManifest.Validate
    ConfigProjectionManifest.toDecoded
  simp only
  split_ifs
  · rfl
  · rfl
  · rfl
  · rfl
  · exact hdata m.Data

theorem setDefaultsData_panics_at_nil (pre post : List (Option datasource.DataSource))
    (hpre : ∀ e ∈ pre, ∃ x, e = some x ∧ x.SetDefaults.2 = none) :
    DecodedManifest.setDefaultsData (pre ++ none :: post) = .panic := by
  induction pre with
  | nil => rfl
  | cons e pre ih =>
    obtain ⟨x, rfl, hx⟩ := hpre e (List.mem_cons_self _ _)
    simp only [List.cons_append]
    unfold DecodedManifest.setDefaultsData
    rcases hd : x.SetDefaults with ⟨x1, err⟩
    rw [hd] at hx
    simp only at hx
    subst hx
    simp only
    rw [ih (fun e he => hpre e (List.mem_cons_of_mem _ he))]

theorem setDefaultsData_returns (pre post : List (Option datasource.DataSource))
    (d : datasource.DataSource) (hd : d.SetDefaults.2 ≠ none) (hpre : ∀ e ∈ pre, e ≠ none) :
    ∃ r, DecodedManifest.setDefaultsData (pre ++ some d :: post) = .returns r := by
  induction pre with
  | nil =>
    simp only [List.nil_append]
    unfold DecodedManifest.setDefaultsData
    rcases hs : d.SetDefaults with ⟨d1, err⟩
    rw [hs] at hd
    cases err with
    | none => exact absurd rfl hd
    | some err => exact ⟨_, rfl⟩
  | cons e pre ih =>
    cases e with
    | none => exact absurd rfl (hpre none (List.mem_cons_self _ _))
    | some x =>
      simp only [List.cons_append]
      unfold DecodedManifest.setDefaultsData
      rcases hs : x.SetDefaults with ⟨x1, err⟩
      cases err with
      | some err => exact ⟨_, rfl⟩
      | none =>
        simp only
        obtain ⟨r, hr⟩ := ih (fun e he => hpre e (List.mem_cons_of_mem _ he))
        rw [hr]
        exact ⟨_, rfl⟩

theorem setDefaultsData_failure_rejected (data data1 : List (Option datasource.DataSource))
    (err : Option types.Error) (h : ∃ d, some d ∈ data ∧ d.SetDefaults.2 ≠ none)
    (hr : DecodedManifest.setDefaultsData data = .returns (data1, err)) :
    ∃ e, DecodedManifest.validateData data1 = .returns (some e) := by
  induction data generalizing data1 err with
  | nil =>
    obtain ⟨d, hd, -⟩ := h
    exact absurd hd (List.not_mem_nil _)
  | cons x rest ih =>
    cases x with
    | none =>
      unfold DecodedManifest.setDefaultsData at hr
      exact absurd hr (by simp)
    | some y =>
      unfold DecodedManifest.setDefaultsData at hr
      rcases hs : y.SetDefaults with ⟨y1, e1⟩
      rw [hs] at hr
      cases e1 with
      | some e1 =>
        simp only [datasource.Outcome.returns.injEq, Prod.mk.injEq] at hr
        rw [← hr.1]
        unfold DecodedManifest.validateData
        cases hv : y1.Validate with
        | none => exact absurd hv (datasource.setDefaults_error_not_valid y y1 e1 hs)
        | some e => exact ⟨e, rfl⟩
      | none =>
        simp only at hr
        cases hrest : DecodedManifest.setDefaultsData rest with
        | panic =>
          rw [hrest] at hr
          exact absurd hr (by simp)
        | returns r =>
          obtain ⟨rest1, e2⟩ := r
          rw [hrest] at hr
          simp only [datasource.Outcome.returns.injEq, Prod.mk.injEq] at hr
          have hin : ∃ d, some d ∈ rest ∧ d.SetDefaults.2 ≠ none := by
            obtain ⟨d, hd, hdf⟩ := h
            rcases List.mem_cons.mp hd with hd | hd
            · injection hd with hd
              subst hd
              rw [hs] at hdf
              exact absurd rfl hdf
            · exact ⟨d, hd, hdf⟩
          obtain ⟨e, he⟩ := ih rest1 e2 hin hrest
          rw [← hr.1]
          unfold DecodedManifest.validateData
          cases hv : y1.Validate with
          | none => exact ⟨e, he⟩
          | some e3 => exact ⟨e3, rfl⟩

theorem validate_of_data_rejected (m : DecodedManifest) (e : types.Error)
    (h : DecodedManifest.validateData m.Data = .returns (some e)) :
    ∃ e1, m.Validate = .returns (some e1) := by
  unfold DecodedManifest.Validate
  split_ifs
  · exact ⟨_, rfl⟩
  · exact ⟨_, rfl⟩
  · exact ⟨_, rfl⟩
  · exact ⟨_, rfl⟩
  · exact ⟨e, h⟩

theorem load_of_setDefaults_returns
    (unmarshalStrict : Bytes → DecodedManifest × Option String) (raw : Bytes)
    (cfg : conf.Config) (data1 : List (Option datasource.DataSource))
    (err : Option types.Error)
    (h : ∃ d, some d ∈ (unmarshalStrict raw).1.Data ∧ d.SetDefaults.2 ≠ none)
    (hr : DecodedManifest.setDefaultsData (unmarshalStrict raw).1.Data = .returns (data1, err)) :
    ∃ m1 e, LoadFromYAMLBytes unmarshalStrict raw cfg = .returns (m1, some e) := by
  unfold LoadFromYAMLBytes
  rcases hu : unmarshalStrict raw with ⟨m, ue⟩
  rw [hu] at h hr
  simp only at h hr
  cases ue with
  | some msg => exact ⟨_, _, rfl⟩
  | none =>
    simp only
    unfold DecodedManifest.SetDefaults
    rw [hr]
    simp only
    obtain ⟨e, he⟩ := setDefaultsData_failure_rejected m.Data data1 err h hr
    obtain ⟨e1, he1⟩ := validate_of_data_rejected
      { Name := m.Name, Namespace := m.Namespace, Data := data1, c := cfg } e he
    rw [he1]
    exact ⟨_, _, rfl⟩

/-- C28, as claimed, fails: the decoded manifest whose data is a null entry followed by the
descriptor `app.yml` with an extract. `SetDefaults` fails for that descriptor, and
`LoadFromYAMLBytes` does not return an error: it panics, at the null entry. -/
theorem loadFromYAMLBytes_panics_on_null_entry :
    (datasource.DataSource.SetDefaults ⟨"app.yml", "out", "", "$.a", [], ""⟩).2 ≠ none ∧
    LoadFromYAMLBytes
      (fun _ => (⟨"app", "prod", [none, some ⟨"app.yml", "out", "", "$.a", [], ""⟩],
        ⟨"", "", "", ""⟩⟩, none))
      [] ⟨"cfg", "g1", "version", "managed"⟩ = .panic :=
  ⟨by decide, by decide⟩

/-- C28, amended: for every decoded manifest in which `SetDefaults` fails for at least one
descriptor, `LoadFromYAMLBytes` never returns the manifest without an error. It returns an
error whenever no null entry of data precedes such a descriptor (in particular when data has
no null entry): the error of `SetDefaults` is discarded and defaulting stops at the first
failing descriptor, but the `Validate` call that follows rejects the manifest, at the latest
at the descriptor left with an empty format. It panics when the decoding succeeded and a
null entry comes before every failing descriptor, at that entry. Whenever `SetDefaults`
returns for the decoded manifest, `Validate` of the manifest it leaves returns an error, and
the descriptor that a failed `SetDefaults` leaves is never accepted by `Validate`. -/
theorem loadFromYAMLBytes_rejects_failed_defaults
    (unmarshalStrict : Bytes → DecodedManifest × Option String) (raw : Bytes)
    (cfg : conf.Config)
    (h : ∃ d, some d ∈ (unmarshalStrict raw).1.Data ∧ d.SetDefaults.2 ≠ none) :
    (∀ m1, LoadFromYAMLBytes unmarshalStrict raw cfg ≠ .returns (m1, none)) ∧
    (LoadFromYAMLBytes unmarshalStrict raw cfg = .panic ∨
      ∃ m1 e, LoadFromYAMLBytes unmarshalStrict raw cfg = .returns (m1, some e)) ∧
    ((∀ e ∈ (unmarshalStrict raw).1.Data, e ≠ none) →
      ∃ m1 e, LoadFromYAMLBytes unmarshalStrict raw cfg = .returns (m1, some e)) ∧
    (∀ pre d post, (unmarshalStrict raw).1.Data = pre ++ some d :: post →
      d.SetDefaults.2 ≠ none → (∀ e ∈ pre, e ≠ none) →
      ∃ m1 e, LoadFromYAMLBytes unmarshalStrict raw cfg = .returns (m1, some e)) ∧
    ((unmarshalStrict raw).2 = none → ∀ pre post,
      (unmarshalStrict raw).1.Data = pre ++ none :: post →
      (∀ e ∈ pre, ∃ x, e = some x ∧ x.SetDefaults.2 = none) →
      LoadFromYAMLBytes unmarshalStrict raw cfg = .panic) ∧
    (∀ m0 err, (unmarshalStrict raw).1.SetDefaults = .returns (m0, err) →
      ∃ e, DecodedManifest.Validate { m0 with c := cfg } = .returns (some e)) ∧
    (∀ (d d1 : datasource.DataSource) (e : types.Error), d.SetDefaults = (d1, some e) →
      d1.Validate ≠ none) := by
  have hsplit : ∀ pre d post, (unmarshalStrict raw).1.Data = pre ++ some d :: post →
      d.SetDefaults.2 ≠ none → (∀ e ∈ pre, e ≠ none) →
      ∃ m1 e, LoadFromYAMLBytes unmarshalStrict raw cfg = .returns (m1, some e) := by
    intro pre d post hdata hd hpre
    obtain ⟨r, hr⟩ := setDefaultsData_returns pre post d hd hpre
    rw [← hdata] at hr
    exact load_of_setDefaults_returns unmarshalStrict raw cfg r.1 r.2 h hr
  have hor : LoadFromYAMLBytes unmarshalStrict raw cfg = .panic ∨
      ∃ m1 e, LoadFromYAMLBytes unmarshalStrict raw cfg = .returns (m1, some e) := by
    cases hs : DecodedManifest.setDefaultsData (unmarshalStrict raw).1.Data with
    | returns r => exact Or.inr (load_of_setDefaults_returns unmarshalStrict raw cfg r.1 r.2 h hs)
    | panic =>
      unfold LoadFromYAMLBytes
      rcases hu : unmarshalStrict raw with ⟨m, ue⟩
      rw [hu] at hs
      simp only at hs
      cases ue with
      | some msg => exact Or.inr ⟨_, _, rfl⟩
      | none =>
        left
        simp only
        unfold DecodedManifest.SetDefaults
        rw [hs]
  refine ⟨?_, hor, ?_, hsplit, ?_, ?_,
    fun d d1 e hd => datasource.setDefaults_error_not_valid d d1 e hd⟩
  · intro m1 hm
    rcases hor with hp | ⟨m2, e, he⟩
    · rw [hp] at hm
      exact absurd hm (by simp)
    · rw [he] at hm
      simp at hm
  · intro hall
    obtain ⟨d, hd, hdf⟩ := h
    obtain ⟨pre, post, hdata⟩ := List.append_of_mem hd
    exact hsplit pre d post hdata hdf (fun e he => hall e (by rw [hdata]; simp [he]))
  · intro hue pre post hdata hpre
    unfold LoadFromYAMLBytes
    rcases hu : unmarshalStrict raw with ⟨m, ue⟩
    rw [hu] at hue hdata
    simp only at hue hdata
    subst hue
    simp only
    unfold DecodedManifest.SetDefaults
    rw [hdata, setDefaultsData_panics_at_nil pre post hpre]
  · intro m0 err hm
    unfold DecodedManifest.SetDefaults at hm
    cases hs : DecodedManifest.setDefaultsData (unmarshalStrict raw).1.Data with
    | panic =>
      rw [hs] at hm
      exact absurd hm (by simp)
    | returns r =>
      obtain ⟨data1, err1⟩ := r
      rw [hs] at hm
      simp only [datasource.Outcome.returns.injEq, Prod.mk.injEq] at hm
      obtain ⟨e, he⟩ := setDefaultsData_failure_rejected _ data1 err1 h hs
      rw [← hm.1]
      exact validate_of_data_rejected
        { Name := (unmarshalStrict raw).1.Name, Namespace := (unmarshalStrict raw).1.Namespace,
          Data := data1, c := cfg } e he

/-- C28 amended, at a concrete manifest: the second descriptor, `app.yml` with an extract,
cannot have its source format inferred; loading the manifest fails with
`ErrUnsupportedSourceFormat`, and the null entry after it is never reached. -/
theorem loadFromYAMLBytes_rejects_failed_defaults_witness :
    (∃ m1 e, LoadFromYAMLBytes
      (fun _ => (⟨"app", "prod", [some ⟨"app.txt", "", "", "", [], ""⟩,
        some ⟨"app.yml", "out", "", "$.a", [], ""⟩, none], ⟨"", "", "", ""⟩⟩, none))
      [] ⟨"cfg", "g1", "version", "managed"⟩ = .returns (m1, some e)) ∧
    LoadFromYAMLBytes
      (fun _ => (⟨"app", "prod", [some ⟨"app.txt", "", "", "", [], ""⟩,
        some ⟨"app.yml", "out", "", "$.a", [], ""⟩, none], ⟨"", "", "", ""⟩⟩, none))
      [] ⟨"cfg", "g1", "version", "managed"⟩ =
      .returns (⟨"app", "prod", [some ⟨"app.txt", "app.txt", "file", "", [], "raw"⟩,
        some ⟨"app.yml", "out", "", "$.a", [], ""⟩, none],
        ⟨"cfg", "g1", "version", "managed"⟩⟩, some ErrUnsupportedSourceFormat) :=
  ⟨(loadFromYAMLBytes_rejects_failed_defaults _ [] _
      ⟨⟨"app.yml", "out", "", "$.a", [], ""⟩, by simp, by decide⟩).2.2.2.1
      [some ⟨"app.txt", "", "", "", [], ""⟩] ⟨"app.yml", "out", "", "$.a", [], ""⟩ [none] rfl
      (by decide) (by simp),
   by decide⟩

end manifest

namespace output

theorem formatNameClass_eq_not_kept (c : Char) : formatNameClass c = !Spec.keptInName c := by
  unfold formatNameClass Spec.keptInName Char.isAlpha Char.isUpper Char.isLower Char.isDigit
  have e1 : decide ('a' ≤ c) = decide (c.val ≥ 97) := by
    apply decide_eq_decide.mpr
    exact Iff.rfl
  have e2 : decide (c ≤ 'z') = decide (c.val ≤ 122) := by
    apply decide_eq_decide.mpr
    exact Iff.rfl
  have e3 : decide ('A' ≤ c) = decide (c.val ≥ 65) := by
    apply decide_eq_decide.mpr
    exact Iff.rfl
  have e4 : decide (c ≤ 'Z') = decide (c.val ≤ 90) := by
    apply decide_eq_decide.mpr
    exact Iff.rfl
  have e5 : decide ('0' ≤ c) = decide (c.val ≥ 48) := by
    apply decide_eq_decide.mpr
    exact Iff.rfl
  have e6 : decide (c ≤ '9') = decide (c.val ≤ 57) := by
    apply decide_eq_decide.mpr
    exact Iff.rfl
  rw [e1, e2, e3, e4, e5, e6]
  cases decide (c.val ≥ 97) <;> cases decide (c.val ≤ 122) <;> cases decide (c.val ≥ 65) <;>
    cases decide (c.val ≤ 90) <;> cases decide (c.val ≥ 48) <;> cases decide (c.val ≤ 57) <;>
    by_cases h1 : c = '-' <;> by_cases h2 : c = '.' <;> simp [h1, h2]

theorem formatName_data (name : String) :
    (FormatName name).data = name.data.map (fun c => if Spec.keptInName c then c else '-') := by
  unfold FormatName
  simp only
  induction name.data with
  | nil => rfl
  | cons c cs ih =>
    rw [List.flatMap_cons, ih, List.map_cons, formatNameClass_eq_not_kept]
    cases Spec.keptInName c <;> rfl

/-- C25: for every name, `FormatName` returns the name with each character outside the set
of ASCII letters, digits, `'-'` and `'.'` replaced by a single `'-'` and every other character
left unchanged and in place: the result has the same number of characters, contains only
letters, digits, `'-'` and `'.'`, and a name already made only of those characters is returned
unchanged. The three cases of `TestFormatName` come out as the test expects. -/
theorem formatName_replaces_other_characters (name : String) :
    (FormatName name).data = name.data.map (fun c => if Spec.keptInName c then c else '-') ∧
    (FormatName name).length = name.length ∧
    (∀ c ∈ (FormatName name).data, Spec.keptInName c = true) ∧
    ((∀ c ∈ name.data, Spec.keptInName c = true) → FormatName name = name) ∧
    FormatName "production-dc_twem.yaml" = "production-dc-twem.yaml" ∧
    FormatName "production-dc*twem.yaml" = "production-dc-twem.yaml" ∧
    FormatName "production-dc-twem.yaml" = "production-dc-twem.yaml" := by
  have hd := formatName_data name
  refine ⟨hd, ?_, ?_, ?_, by decide, by decide, by decide⟩
  · have e1 : (FormatName name).length = (FormatName name).data.length := rfl
    have e2 : name.length = name.data.length := rfl
    rw [e1, e2, hd, List.length_map]
  · intro c hc
    rw [hd, List.mem_map] at hc
    obtain ⟨a, -, rfl⟩ := hc
    by_cases ha : Spec.keptInName a = true
    · rw [if_pos ha]; exact ha
    · rw [if_neg ha]; decide
  · intro hall
    apply String.ext
    rw [hd]
    conv_rhs => rw [← List.map_id name.data]
    apply List.map_congr_left
    intro a ha
    rw [if_pos (hall a ha)]
    rfl

/-- C25, at a concrete name: `a_b c` has two characters outside the set and becomes `a-b-c`,
of the same length; `Ab-1.x` is made of kept characters only and is returned unchanged. -/
theorem formatName_replaces_other_characters_witness :
    FormatName "a_b c" = "a-b-c" ∧ (FormatName "a_b c").length = "a_b c".length ∧
    FormatName "Ab-1.x" = "Ab-1.x" :=
  ⟨by decide, (formatName_replaces_other_characters "a_b c").2.1,
   (formatName_replaces_other_characters "Ab-1.x").2.2.2.1 (by decide)⟩

end output

namespace output

theorem separator_split (a b x y : List Char)
    (h : a ++ ('-' :: '-' :: x) = b ++ ('-' :: '-' :: y))
    (hx : x.head? ≠ some '-') (hb : ¬ ['-', '-'] <:+: b) (hlen : a.length ≤ b.length) :
    a = b ∧ x = y := by
  rw [List.append_eq_append_iff] at h
  rcases h with ⟨t, hbt, hxt⟩ | ⟨t, hat, hyt⟩
  · -- b = a ++ t
    cases t with
    | nil =>
      simp only [List.nil_append, List.cons.injEq, true_and] at hxt
      simp only [List.append_nil] at hbt
      exact ⟨hbt.symm, hxt⟩
    | cons c1 t =>
      cases t with
      | nil =>
        simp only [List.cons_append, List.nil_append, List.cons.injEq, true_and] at hxt
        exfalso
        apply hx
        rw [hxt.2]
        rfl
      | cons c2 t =>
        simp only [List.cons_append, List.cons.injEq] at hxt
        exfalso
        apply hb
        rw [hbt, ← hxt.1, ← hxt.2.1]
        exact ⟨a, t, by simp⟩
  · -- a = b ++ t, and a is not longer than b
    have ht : t = [] := by
      have := congrArg List.length hat
      rw [List.length_append] at this
      exact List.length_eq_zero.mp (by omega)
    subst ht
    simp only [List.nil_append, List.cons.injEq, true_and] at hyt
    simp only [List.append_nil] at hat
    exact ⟨hat, hyt.symm⟩

theorem name_head_not_hyphen (s : String) (h : manifest.nameValidationRegexp s = true) :
    s.data.head? ≠ some '-' := by
  unfold manifest.nameValidationRegexp at h
  cases hs : s.data with
  | nil => simp
  | cons c rest =>
    rw [hs] at h
    simp only [Bool.and_eq_true] at h
    intro hc
    simp only [List.head?_cons, Option.some.injEq] at hc
    rw [hc] at h
    exact absurd h.1.1 (by decide)

theorem buildFileOutputName_data (ns name : String) (ts : Int) :
    (BuildFileOutputName ns name ts).data =
      ns.data ++ ('-' :: '-' :: name.data) ++
        ('-' :: '-' :: ((strconv.FormatInt ts).data ++ ".yaml".data)) := by
  unfold BuildFileOutputName
  simp only [String.data_append]
  simp [List.append_assoc]

/-- C27, as claimed, fails: the manifests with namespace `aa` and name `b--cc`, and with
namespace `aa--b` and name `cc`, are both accepted by `ConfigProjectionManifest.Validate`,
their (namespace, name) pairs differ, and `BuildFileOutputName` gives both the file name
`aa--b--cc--1600000000.yaml`. -/
theorem buildFileOutputName_collision :
    manifest.ConfigProjectionManifest.Validate
      ⟨"b--cc", "aa", [⟨"app.txt", "app.txt", "file", "", [], "raw"⟩], ⟨"cfg", "g1", "v", "m"⟩⟩ =
      none ∧
    manifest.ConfigProjectionManifest.Validate
      ⟨"cc", "aa--b", [⟨"app.txt", "app.txt", "file", "", [], "raw"⟩], ⟨"cfg", "g1", "v", "m"⟩⟩ =
      none ∧
    (("aa", "b--cc") : String × String) ≠ ("aa--b", "cc") ∧
    BuildFileOutputName "aa" "b--cc" 1600000000 = "aa--b--cc--1600000000.yaml" ∧
    BuildFileOutputName "aa--b" "cc" 1600000000 = "aa--b--cc--1600000000.yaml" :=
  ⟨by decide, by decide, by decide, by decide, by decide⟩

/-- C27, amended: for every timestamp and every two manifests accepted by
`ConfigProjectionManifest.Validate` whose (namespace, name) pairs differ and neither of whose
namespaces contains two hyphens in a row, `BuildFileOutputName` returns different file
names. -/
theorem buildFileOutputName_injective (m1 m2 : manifest.ConfigProjectionManifest) (ts : Int)
    (h1 : m1.Validate = none) (h2 : m2.Validate = none)
    (hn1 : ¬ Spec.hasDoubleHyphen m1.Namespace) (hn2 : ¬ Spec.hasDoubleHyphen m2.Namespace)
    (hne : (m1.Namespace, m1.Name) ≠ (m2.Namespace, m2.Name)) :
    BuildFileOutputName m1.Namespace m1.Name ts ≠ BuildFileOutputName m2.Namespace m2.Name ts := by
  intro heq
  have hd := congrArg String.data heq
  rw [buildFileOutputName_data, buildFileOutputName_data] at hd
  have hd2 := List.append_cancel_right hd
  have v1 := (manifest.manifest_validate_ids_of_ok m1 h1).1.2.2
  have v2 := (manifest.manifest_validate_ids_of_ok m2 h2).1.2.2
  have x1 := name_head_not_hyphen m1.Name v1
  have x2 := name_head_not_hyphen m2.Name v2
  apply hne
  rcases Nat.le_total m1.Namespace.data.length m2.Namespace.data.length with hl | hl
  · obtain ⟨ha, hb⟩ := separator_split _ _ _ _ hd2 x1 hn2 hl
    rw [String.ext ha, String.ext hb]
  · obtain ⟨ha, hb⟩ := separator_split _ _ _ _ hd2.symm x2 hn1 hl
    rw [String.ext ha, String.ext hb]

/-- C27 amended, at concrete manifests: namespace `prod`, names `app` and `app-b`. -/
theorem buildFileOutputName_injective_witness :
    BuildFileOutputName "prod" "app" 1600000000 ≠ BuildFileOutputName "prod" "app-b" 1600000000 :=
  buildFileOutputName_injective
    ⟨"app", "prod", [], ⟨"cfg", "g1", "v", "m"⟩⟩ ⟨"app-b", "prod", [], ⟨"cfg", "g1", "v", "m"⟩⟩
    1600000000 (by decide) (by decide) (by decide) (by decide) (by decide)

end output

namespace datasource

theorem extractFields_resolved (lookup : String → Except String GoValue) (fe : GoMap String)
    (acc : GoMap GoValue) (hres : ∀ p ∈ fe, ∃ v, lookup p.2 = .ok v)
    (hnd : (GoMap.keys fe).Nodup) (hdis : ∀ k ∈ GoMap.keys fe, k ∉ GoMap.keys acc) :
    ∃ vals, extractFields lookup fe acc = .ok (acc ++ vals) ∧
      GoMap.keys vals = GoMap.keys fe ∧
      ∀ label p, (label, p) ∈ fe → ∃ v, lookup p = .ok v ∧ (label, v) ∈ vals := by
  induction fe generalizing acc with
  | nil => exact ⟨[], by simp [extractFields], rfl, by simp⟩
  | cons f rest ih =>
    obtain ⟨label, jpath⟩ := f
    obtain ⟨res, hl⟩ := hres (label, jpath) (List.mem_cons_self _ _)
    have hnd2 : label ∉ GoMap.keys rest ∧ (GoMap.keys rest).Nodup := by
      unfold GoMap.keys at hnd ⊢
      simpa using hnd
    have hlacc : label ∉ GoMap.keys acc := hdis label (by simp [GoMap.keys])
    have hdis2 : ∀ k ∈ GoMap.keys rest, k ∉ GoMap.keys (acc ++ [(label, res)]) := by
      intro k hk hmem
      have hk1 : k ∉ GoMap.keys acc := hdis k (by
        unfold GoMap.keys at hk ⊢
        simp only [List.map_cons, List.mem_cons]
        exact Or.inr hk)
      unfold GoMap.keys at hmem hk1
      simp only [List.map_append, List.map_cons, List.map_nil, List.mem_append,
        List.mem_singleton] at hmem
      rcases hmem with h | h
      · exact hk1 h
      · exact hnd2.1 (h ▸ hk)
    obtain ⟨vals, hv, hkeys, hmem⟩ := ih (acc ++ [(label, res)])
      (fun p hp => hres p (List.mem_cons_of_mem _ hp)) hnd2.2 hdis2
    refine ⟨(label, res) :: vals, ?_, ?_, ?_⟩
    · unfold extractFields
      rw [hl]
      simp only
      rw [manifest.set_of_not_mem acc label res hlacc, hv]
      simp
    · unfold GoMap.keys at hkeys ⊢
      simp only [List.map_cons, hkeys]
    · intro l p hlp
      rcases List.mem_cons.mp hlp with h | h
      · simp only [Prod.mk.injEq] at h
        obtain ⟨rfl, rfl⟩ := h
        exact ⟨res, hl, List.mem_cons_self _ _⟩
      · obtain ⟨v, hv1, hv2⟩ := hmem l p h
        exact ⟨v, hv1, List.mem_cons_of_mem _ hv2⟩

end datasource

namespace utf8

theorem shr_toNat (v : UInt32) (k : Nat) (hk : k < 32) :
    (v >>> (UInt32.ofNat k)).toNat = v.toNat / 2 ^ k := by
  show (v.toBitVec >>> (UInt32.mod (UInt32.ofNat k) 32).toBitVec).toNat = _
  have : (UInt32.mod (UInt32.ofNat k) 32).toBitVec.toNat = k := by
    show ((BitVec.ofNat 32 k) % (BitVec.ofNat 32 32)).toNat = k
    rw [BitVec.toNat_umod, BitVec.toNat_ofNat, BitVec.toNat_ofNat]
    have hk2 : k < 2 ^ 32 := Nat.lt_of_lt_of_le hk (by norm_num)
    have h32 : 32 % 2 ^ 32 = 32 := by norm_num
    rw [Nat.mod_eq_of_lt hk2, h32, Nat.mod_eq_of_lt hk]
  rw [BitVec.ushiftRight_eq', BitVec.toNat_ushiftRight, this, Nat.shiftRight_eq_div_pow]
  rfl

theorem toUInt8_toNat (v : UInt32) : v.toUInt8.toNat = v.toNat % 256 := by
  show (BitVec.ofNat 8 v.toNat).toNat = _
  rw [BitVec.toNat_ofNat]

theorem and_toNat (a b : UInt8) : (a &&& b).toNat = a.toNat &&& b.toNat := by
  show (a.toBitVec &&& b.toBitVec).toNat = _
  rw [BitVec.toNat_and]
  rfl

theorem or_toNat (a b : UInt8) : (a ||| b).toNat = a.toNat ||| b.toNat := by
  show (a.toBitVec ||| b.toBitVec).toNat = _
  rw [BitVec.toNat_or]
  rfl

set_option maxRecDepth 100000 in
theorem mask_c0 : ∀ y < 256, (y &&& 31) ||| 192 = 192 + y % 32 := by decide

set_option maxRecDepth 100000 in
theorem mask_80 : ∀ y < 256, (y &&& 63) ||| 128 = 128 + y % 64 := by decide

set_option maxRecDepth 100000 in
theorem mask_e0 : ∀ y < 256, (y &&& 15) ||| 224 = 224 + y % 16 := by decide

set_option maxRecDepth 100000 in
theorem mask_f0 : ∀ y < 256, (y &&& 7) ||| 240 = 240 + y % 8 := by decide

theorem lead_c0 (v : UInt32) (k : Nat) (hk : k < 32) :
    ((v >>> (UInt32.ofNat k)).toUInt8 &&& 0x1f ||| 0xc0).toNat = 192 + v.toNat / 2 ^ k % 256 % 32 := by
  have e0 : (0x1f : UInt8).toNat = 31 := rfl
  have e1 : (0xc0 : UInt8).toNat = 192 := rfl
  rw [or_toNat, and_toNat, toUInt8_toNat, shr_toNat v k hk, e0, e1,
    mask_c0 _ (Nat.mod_lt _ (by decide))]

theorem lead_e0 (v : UInt32) (k : Nat) (hk : k < 32) :
    ((v >>> (UInt32.ofNat k)).toUInt8 &&& 0x0f ||| 0xe0).toNat = 224 + v.toNat / 2 ^ k % 256 % 16 := by
  have e0 : (0x0f : UInt8).toNat = 15 := rfl
  have e1 : (0xe0 : UInt8).toNat = 224 := rfl
  rw [or_toNat, and_toNat, toUInt8_toNat, shr_toNat v k hk, e0, e1,
    mask_e0 _ (Nat.mod_lt _ (by decide))]

theorem lead_f0 (v : UInt32) (k : Nat) (hk : k < 32) :
    ((v >>> (UInt32.ofNat k)).toUInt8 &&& 0x07 ||| 0xf0).toNat = 240 + v.toNat / 2 ^ k % 256 % 8 := by
  have e0 : (0x07 : UInt8).toNat = 7 := rfl
  have e1 : (0xf0 : UInt8).toNat = 240 := rfl
  rw [or_toNat, and_toNat, toUInt8_toNat, shr_toNat v k hk, e0, e1,
    mask_f0 _ (Nat.mod_lt _ (by decide))]

theorem cont_shift (v : UInt32) (k : Nat) (hk : k < 32) :
    ((v >>> (UInt32.ofNat k)).toUInt8 &&& 0x3f ||| 0x80).toNat = 128 + v.toNat / 2 ^ k % 256 % 64 := by
  have e0 : (0x3f : UInt8).toNat = 63 := rfl
  have e1 : (0x80 : UInt8).toNat = 128 := rfl
  rw [or_toNat, and_toNat, toUInt8_toNat, shr_toNat v k hk, e0, e1,
    mask_80 _ (Nat.mod_lt _ (by decide))]

theorem cont_low (v : UInt32) :
    (v.toUInt8 &&& 0x3f ||| 0x80).toNat = 128 + v.toNat % 256 % 64 := by
  have e0 : (0x3f : UInt8).toNat = 63 := rfl
  have e1 : (0x80 : UInt8).toNat = 128 := rfl
  rw [or_toNat, and_toNat, toUInt8_toNat, e0, e1, mask_80 _ (Nat.mod_lt _ (by decide))]

theorem le_iff_toNat (v : UInt32) (k : Nat) (hk : k < 2 ^ 32) :
    v ≤ UInt32.ofNat k ↔ v.toNat ≤ k := by
  show v.toBitVec ≤ (BitVec.ofNat 32 k) ↔ _
  rw [BitVec.le_def, BitVec.toNat_ofNat, Nat.mod_eq_of_lt hk]
  rfl

/-- Decoding the UTF-8 encoding of a character gives the character back and stops right
after it. -/
theorem decodeRune_encode (c : Char) (rest : Bytes) :
    DecodeRune (String.utf8EncodeChar c ++ rest) = (c, rest) := by
  have hn : c.toNat = c.val.toNat := rfl
  have hvalid := c.valid
  have hofnat : Char.ofNat c.val.toNat = c := Char.ofNat_toNat c
  unfold String.utf8EncodeChar
  simp only
  by_cases h1 : c.val ≤ 0x7f
  · rw [if_pos h1]
    have h1n := (le_iff_toNat c.val 0x7f (by norm_num)).mp h1
    simp only [List.cons_append, List.nil_append]
    unfold DecodeRune
    simp only
    rw [toUInt8_toNat]
    have e : c.val.toNat % 256 = c.val.toNat := by omega
    rw [e, if_pos (by omega), hofnat]
  rw [if_neg h1]
  have h1n : ¬ c.val.toNat ≤ 0x7f := fun h => h1 ((le_iff_toNat c.val 0x7f (by norm_num)).mpr h)
  by_cases h2 : c.val ≤ 0x7ff
  · rw [if_pos h2]
    have h2n := (le_iff_toNat c.val 0x7ff (by norm_num)).mp h2
    simp only [List.cons_append, List.nil_append]
    unfold DecodeRune
    simp only
    have k6 : (6 : UInt32) = UInt32.ofNat 6 := rfl
    rw [k6, lead_c0 _ 6 (by decide), if_neg (by omega), if_pos (by omega)]
    simp only [inRange, cont_low]
    rw [if_pos (by simp only [Bool.and_eq_true, decide_eq_true_eq]; omega)]
    have e : (192 + c.val.toNat / 2 ^ 6 % 256 % 32 - 192) * 64 +
        (128 + c.val.toNat % 256 % 64 - 128) = c.val.toNat := by omega
    rw [e, hofnat]
  rw [if_neg h2]
  have h2n : ¬ c.val.toNat ≤ 0x7ff := fun h => h2 ((le_iff_toNat c.val 0x7ff (by norm_num)).mpr h)
  by_cases h3 : c.val ≤ 0xffff
  · rw [if_pos h3]
    have h3n := (le_iff_toNat c.val 0xffff (by norm_num)).mp h3
    simp only [List.cons_append, List.nil_append]
    unfold DecodeRune
    simp only
    have k6 : (6 : UInt32) = UInt32.ofNat 6 := rfl
    have k12 : (12 : UInt32) = UInt32.ofNat 12 := rfl
    rw [k12, k6, lead_e0 _ 12 (by decide), if_neg (by omega), if_neg (by omega),
      if_pos (by omega)]
    simp only [inRange, cont_low, cont_shift _ 6 (by decide)]
    have hv : c.val.toNat < 55296 ∨ 57343 < c.val.toNat ∧ c.val.toNat < 1114112 := hvalid
    rw [if_pos (by
      simp only [Bool.and_eq_true, decide_eq_true_eq]
      refine ⟨⟨?_, ?_⟩, ?_, ?_⟩
      · split_ifs <;> omega
      · split_ifs <;> omega
      · omega
      · omega)]
    have e : (224 + c.val.toNat / 2 ^ 12 % 256 % 16 - 224) * 4096 +
        (128 + c.val.toNat / 2 ^ 6 % 256 % 64 - 128) * 64 +
        (128 + c.val.toNat % 256 % 64 - 128) = c.val.toNat := by omega
    rw [e, hofnat]
  rw [if_neg h3]
  have h3n : ¬ c.val.toNat ≤ 0xffff :=
    fun h => h3 ((le_iff_toNat c.val 0xffff (by norm_num)).mpr h)
  simp only [List.cons_append, List.nil_append]
  unfold DecodeRune
  simp only
  have k6 : (6 : UInt32) = UInt32.ofNat 6 := rfl
  have k12 : (12 : UInt32) = UInt32.ofNat 12 := rfl
  have k18 : (18 : UInt32) = UInt32.ofNat 18 := rfl
  have hv : c.val.toNat < 55296 ∨ 57343 < c.val.toNat ∧ c.val.toNat < 1114112 := hvalid
  rw [k18, k12, k6, lead_f0 _ 18 (by decide), if_neg (by omega), if_neg (by omega),
    if_neg (by omega), if_pos (by omega)]
  simp only [inRange, cont_low, cont_shift _ 6 (by decide), cont_shift _ 12 (by decide)]
  rw [if_pos (by
    simp only [Bool.and_eq_true, decide_eq_true_eq]
    refine ⟨⟨?_, ?_⟩, ⟨?_, ?_⟩, ?_, ?_⟩
    · split_ifs <;> omega
    · split_ifs <;> omega
    · omega
    · omega
    · omega
    · omega)]
  have e : (240 + c.val.toNat / 2 ^ 18 % 256 % 8 - 240) * 262144 +
      (128 + c.val.toNat / 2 ^ 12 % 256 % 64 - 128) * 4096 +
      (128 + c.val.toNat / 2 ^ 6 % 256 % 64 - 128) * 64 +
      (128 + c.val.toNat % 256 % 64 - 128) = c.val.toNat := by omega
  rw [e, hofnat]

theorem encode_ne_nil (c : Char) : String.utf8EncodeChar c ≠ [] := by
  intro h
  have := congrArg List.length h
  rw [String.length_utf8EncodeChar] at this
  have := Char.utf8Size_pos c
  simp at *
  omega

theorem runesAux_encode (cs : List Char) (fuel : Nat)
    (h : (cs.flatMap String.utf8EncodeChar).length ≤ fuel) :
    runesAux fuel (cs.flatMap String.utf8EncodeChar) = cs := by
  induction cs generalizing fuel with
  | nil =>
    cases fuel <;> rfl
  | cons c cs ih =>
    rw [List.flatMap_cons] at h ⊢
    have hne := encode_ne_nil c
    have hlen : 1 ≤ (String.utf8EncodeChar c).length := by
      cases hc : String.utf8EncodeChar c with
      | nil => exact absurd hc hne
      | cons b bs => simp
    rw [List.length_append] at h
    cases fuel with
    | zero => omega
    | succ fuel =>
      cases hc : String.utf8EncodeChar c with
      | nil => exact absurd hc hne
      | cons b bs =>
        have hd := decodeRune_encode c (cs.flatMap String.utf8EncodeChar)
        rw [hc] at hd hlen h
        simp only [List.cons_append] at hd ⊢
        unfold runesAux
        rw [hd]
        simp only
        rw [ih fuel (by rw [List.length_cons] at h; omega)]

/-- Reading back the runes of the UTF-8 bytes of a text gives the text. -/
theorem runes_bytesOfString (s : String) : runes (bytesOfString s) = s.data := by
  unfold runes bytesOfString
  exact runesAux_encode s.data _ (Nat.le_refl _)

end utf8

namespace json

open datasource

theorem hexValue_hexDigit : ∀ n < 16, hexValue (hexDigit n) = some n := by decide

theorem hexValue_zero : hexValue '0' = some 0 := by decide

theorem unescape_cons (c : Char) (rest : List Char) :
    unescape (c :: rest) =
      if c = '"' ∨ c = '\\' ∨ c = '/' then some (c, rest)
      else if c = 'b' then some (Char.ofNat 8, rest)
      else if c = 'f' then some (Char.ofNat 12, rest)
      else if c = 'n' then some ('\n', rest)
      else if c = 'r' then some ('\r', rest)
      else if c = 't' then some ('\t', rest)
      else if c = 'u' then
        match hex4 rest with
        | none => none
        | some (rr, rest1) =>
          if 0xD800 ≤ rr ∧ rr < 0xE000 then
            match getu4 rest1 with
            | some (rr1, rest2) =>
              if rr < 0xDC00 ∧ 0xDC00 ≤ rr1 ∧ rr1 < 0xE000 then
                some (Char.ofNat ((rr - 0xD800) * 1024 + (rr1 - 0xDC00) + 0x10000), rest2)
              else some (utf8.RuneError, rest1)
            | none => some (utf8.RuneError, rest1)
          else some (Char.ofNat rr, rest1)
      else none := rfl

theorem unescape_control (c : Char) (t : List Char) (h : c.toNat < 256) :
    unescape ('u' :: '0' :: '0' :: hexDigit (c.toNat / 16) :: hexDigit (c.toNat % 16) :: t) =
      some (c, t) := by
  have h1 := hexValue_hexDigit (c.toNat / 16) (by omega)
  have h2 := hexValue_hexDigit (c.toNat % 16) (by omega)
  have hu1 : ¬ ('u' = '"' ∨ 'u' = '\\' ∨ 'u' = '/') := by decide
  rw [unescape_cons, if_neg hu1, if_neg (by decide), if_neg (by decide), if_neg (by decide), if_neg (by decide),
    if_neg (by decide), if_pos rfl]
  unfold hex4
  simp only [hexValue_zero, h1, h2]
  have e : ((0 * 16 + 0) * 16 + c.toNat / 16) * 16 + c.toNat % 16 = c.toNat := by omega
  rw [e, if_neg (by omega), Char.ofNat_toNat]

theorem unescape_2028 (t : List Char) :
    unescape ('u' :: '2' :: '0' :: '2' :: '8' :: t) = some (Char.ofNat 0x2028, t) := by
  rfl

theorem unescape_2029 (t : List Char) :
    unescape ('u' :: '2' :: '0' :: '2' :: '9' :: t) = some (Char.ofNat 0x2029, t) := by
  rfl

theorem parseStringBody_cons (fuel : Nat) (c : Char) (rest : List Char) :
    parseStringBody (fuel + 1) (c :: rest) =
      if c = '"' then some ([], rest)
      else if c = '\\' then
        match unescape rest with
        | none => none
        | some (r, rest1) => (parseStringBody fuel rest1).map (fun p => (r :: p.1, p.2))
      else if c.toNat < 0x20 then none
      else (parseStringBody fuel rest).map (fun p => (c :: p.1, p.2)) := rfl

theorem unescape_short (t : List Char) :
    unescape ('n' :: t) = some ('\n', t) ∧ unescape ('r' :: t) = some ('\r', t) ∧
    unescape ('t' :: t) = some ('\t', t) := ⟨rfl, rfl, rfl⟩

/-- Reading one written character back: the reader, one unit of fuel ahead, returns the
character in front of what it reads after it. -/
theorem parseStringBody_escapeChar (c : Char) (t : List Char) (fuel : Nat) :
    parseStringBody (fuel + 1) (escapeChar c ++ t) =
      (parseStringBody fuel t).map (fun p => (c :: p.1, p.2)) := by
  have hbs : ¬ ('\\' = '"') := by decide
  unfold escapeChar
  by_cases h1 : c = '"' ∨ c = '\\'
  · rw [if_pos h1]
    simp only [List.cons_append, List.nil_append]
    rw [parseStringBody_cons, if_neg hbs, if_pos rfl]
    have h1' : c = '"' ∨ c = '\\' ∨ c = '/' := by
      rcases h1 with h | h
      · exact Or.inl h
      · exact Or.inr (Or.inl h)
    rw [unescape_cons, if_pos h1']
  rw [if_neg h1]
  by_cases h2 : c = '\n'
  · rw [if_pos h2]
    subst h2
    simp only [List.cons_append, List.nil_append]
    rw [parseStringBody_cons, if_neg hbs, if_pos rfl]
    rw [(unescape_short t).1]
  rw [if_neg h2]
  by_cases h3 : c = '\r'
  · rw [if_pos h3]
    subst h3
    simp only [List.cons_append, List.nil_append]
    rw [parseStringBody_cons, if_neg hbs, if_pos rfl]
    rw [(unescape_short t).2.1]
  rw [if_neg h3]
  by_cases h4 : c = '\t'
  · rw [if_pos h4]
    subst h4
    simp only [List.cons_append, List.nil_append]
    rw [parseStringBody_cons, if_neg hbs, if_pos rfl]
    rw [(unescape_short t).2.2]
  rw [if_neg h4]
  by_cases h5 : c.toNat < 0x20 ∨ c = '<' ∨ c = '>' ∨ c = '&'
  · rw [if_pos h5]
    have hlt : c.toNat < 256 := by
      rcases h5 with h | h | h | h
      · omega
      · subst h; decide
      · subst h; decide
      · subst h; decide
    simp only [List.cons_append, List.nil_append]
    rw [parseStringBody_cons, if_neg hbs, if_pos rfl, unescape_control c t hlt]
  rw [if_neg h5]
  by_cases h6 : c = Char.ofNat 0x2028
  · rw [if_pos h6]
    subst h6
    simp only [List.cons_append, List.nil_append]
    rw [parseStringBody_cons, if_neg hbs, if_pos rfl, unescape_2028]
  rw [if_neg h6]
  by_cases h7 : c = Char.ofNat 0x2029
  · rw [if_pos h7]
    subst h7
    simp only [List.cons_append, List.nil_append]
    rw [parseStringBody_cons, if_neg hbs, if_pos rfl, unescape_2029]
  rw [if_neg h7]
  simp only [List.cons_append, List.nil_append]
  rw [parseStringBody_cons, if_neg (fun h => h1 (Or.inl h)), if_neg (fun h => h1 (Or.inr h)),
    if_neg (fun h => h5 (Or.inl h))]

theorem escapeChar_length_pos (c : Char) : 1 ≤ (escapeChar c).length := by
  unfold escapeChar
  split_ifs <;> simp

/-- Reading back the body of a string literal: the text, and what follows the closing
quote. -/
theorem parseStringBody_escape (cs : List Char) (rest : List Char) (fuel : Nat)
    (h : cs.length + 1 ≤ fuel) :
    parseStringBody fuel (cs.flatMap escapeChar ++ '"' :: rest) = some (cs, rest) := by
  induction cs generalizing fuel with
  | nil =>
    cases fuel with
    | zero => omega
    | succ fuel =>
      simp only [List.flatMap_nil, List.nil_append]
      rw [parseStringBody_cons, if_pos rfl]
  | cons c cs ih =>
    cases fuel with
    | zero => omega
    | succ fuel =>
      rw [List.flatMap_cons, List.append_assoc, parseStringBody_escapeChar,
        ih fuel (by simp only [List.length_cons] at h; omega)]
      rfl

theorem flatMap_escape_length (cs : List Char) : cs.length ≤ (cs.flatMap escapeChar).length := by
  induction cs with
  | nil => simp
  | cons c cs ih =>
    rw [List.flatMap_cons, List.length_append, List.length_cons]
    have := escapeChar_length_pos c
    omega

/-- Reading back a string literal after its opening quote, with the fuel that `parseValue`
gives the reader. -/
theorem parseStringBody_encodeString (s : String) (rest : List Char) :
    parseStringBody (s.data.flatMap escapeChar ++ '"' :: rest).length
      (s.data.flatMap escapeChar ++ '"' :: rest) = some (s.data, rest) := by
  apply parseStringBody_escape
  rw [List.length_append, List.length_cons]
  have := flatMap_escape_length s.data
  omega

end json

namespace json

open datasource

/-- What may follow a value inside an encoding: nothing, or one of `,`, `]`, `}`. -/
def Delim (rest : List Char) : Prop := ∀ c, rest.head? = some c → c = ',' ∨ c = ']' ∨ c = '}'

theorem numStep_delim (st : NumState) (c : Char) (h : c = ',' ∨ c = ']' ∨ c = '}') :
    numStep st c = none := by
  rcases h with rfl | rfl | rfl <;> cases st <;> rfl

theorem scanNumberFrom_nil (st : NumState) :
    scanNumberFrom st [] = if st.final then some ([], []) else none := by
  cases st <;> rfl

theorem scanNumberFrom_cons (st : NumState) (c : Char) (cs : List Char) :
    scanNumberFrom st (c :: cs) =
      match numStep st c with
      | some st1 => (scanNumberFrom st1 cs).map (fun p => (c :: p.1, p.2))
      | none => if st.final then some ([], c :: cs) else none := by
  cases st <;> rfl

theorem numStep_start (c : Char) :
    numStep .start c = if c = '-' then some .neg else if c = '0' then some .zero
      else if isDigit c then some .int else none := rfl

theorem scanNumberFrom_append (s : List Char) (st : NumState) (rest : List Char)
    (h : scanNumberFrom st s = some (s, [])) (hd : Delim rest) :
    scanNumberFrom st (s ++ rest) = some (s, rest) := by
  induction s generalizing st with
  | nil =>
    rw [scanNumberFrom_nil] at h
    have hf : st.final = true := by
      by_contra hn
      rw [if_neg hn] at h
      exact absurd h (by simp)
    cases rest with
    | nil =>
      rw [List.append_nil, scanNumberFrom_nil, if_pos hf]
    | cons c r =>
      rw [List.nil_append, scanNumberFrom_cons, numStep_delim st c (hd c rfl)]
      simp only
      rw [if_pos hf]
  | cons c cs ih =>
    rw [scanNumberFrom_cons] at h
    rw [List.cons_append, scanNumberFrom_cons]
    cases hs : numStep st c with
    | none =>
      rw [hs] at h
      simp only at h
      split_ifs at h
      simp at h
    | some st1 =>
      rw [hs] at h
      simp only at h ⊢
      cases hr : scanNumberFrom st1 cs with
      | none =>
        rw [hr] at h
        simp at h
      | some p =>
        rw [hr] at h
        simp only [Option.map_some', Option.some.injEq, Prod.mk.injEq, List.cons.injEq,
          true_and] at h
        have hp : p = (cs, []) := Prod.ext h.1 h.2
        rw [hp] at hr
        rw [ih st1 hr]
        rfl

theorem scanNumberFrom_split (cs : List Char) (st : NumState) (a b : List Char)
    (h : scanNumberFrom st cs = some (a, b)) : a ++ b = cs := by
  induction cs generalizing st a with
  | nil =>
    rw [scanNumberFrom_nil] at h
    split_ifs at h
    simp only [Option.some.injEq, Prod.mk.injEq] at h
    rw [← h.1, ← h.2]
    rfl
  | cons c cs ih =>
    rw [scanNumberFrom_cons] at h
    cases hs : numStep st c with
    | none =>
      rw [hs] at h
      simp only at h
      split_ifs at h
      simp only [Option.some.injEq, Prod.mk.injEq] at h
      rw [← h.1, ← h.2]
      rfl
    | some st1 =>
      rw [hs] at h
      simp only at h
      cases hr : scanNumberFrom st1 cs with
      | none =>
        rw [hr] at h
        simp at h
      | some p =>
        obtain ⟨p1, p2⟩ := p
        rw [hr] at h
        simp only [Option.map_some', Option.some.injEq, Prod.mk.injEq] at h
        have := ih st1 p1 (by rw [hr, h.2])
        rw [← h.1, List.cons_append, this]

theorem scanNumber_of_valid (s : List Char) (h : isValidNumber s = true) :
    scanNumber s = some (s, []) := by
  unfold isValidNumber at h
  cases hs : scanNumber s with
  | none =>
    rw [hs] at h
    exact absurd h (by simp)
  | some p =>
    obtain ⟨a, b⟩ := p
    rw [hs] at h
    simp only [List.isEmpty_eq_true] at h
    subst h
    have := scanNumberFrom_split s .start a [] hs
    rw [List.append_nil] at this
    rw [this]

/-- A number literal is read back whole when a delimiter or nothing follows it. -/
theorem scanNumber_append (s rest : List Char) (h : isValidNumber s = true) (hd : Delim rest) :
    scanNumber (s ++ rest) = some (s, rest) :=
  scanNumberFrom_append s .start rest (scanNumber_of_valid s h) hd

theorem number_head (s : List Char) (h : isValidNumber s = true) :
    ∃ c cs, s = c :: cs ∧ (c = '-' ∨ isDigit c = true) := by
  have hs := scanNumber_of_valid s h
  cases s with
  | nil =>
    exact absurd hs (by simp [scanNumber, scanNumberFrom, NumState.final])
  | cons c cs =>
    refine ⟨c, cs, rfl, ?_⟩
    unfold scanNumber at hs
    rw [scanNumberFrom_cons] at hs
    cases hn : numStep .start c with
    | none =>
      rw [hn] at hs
      simp [NumState.final] at hs
    | some st1 =>
      rw [numStep_start] at hn
      by_cases h1 : c = '-'
      · exact Or.inl h1
      · rw [if_neg h1] at hn
        by_cases h2 : c = '0'
        · right
          rw [h2]
          rfl
        · rw [if_neg h2] at hn
          by_cases h3 : isDigit c = true
          · exact Or.inr h3
          · rw [if_neg h3] at hn
            exact absurd hn (by simp)

theorem number_head_props (c : Char) (h : c = '-' ∨ isDigit c = true) :
    isSpace c = false ∧ c ≠ '{' ∧ c ≠ '[' ∧ c ≠ '"' ∧ c ≠ 't' ∧ c ≠ 'f' ∧ c ≠ 'n' ∧
    c ≠ ']' ∧ c ≠ '}' := by
  rcases h with rfl | h
  · decide
  · refine ⟨?_, ?_, ?_, ?_, ?_, ?_, ?_, ?_, ?_⟩
    · by_contra hs
      have hs2 : isSpace c = true := by simpa using hs
      unfold isSpace at hs2
      simp only [Bool.or_eq_true, decide_eq_true_eq] at hs2
      rcases hs2 with ((rfl | rfl) | rfl) | rfl <;> exact absurd h (by decide)
    all_goals (rintro rfl; exact absurd h (by decide))

end json

namespace json

open datasource

theorem skipSpace_cons (c : Char) (t : List Char) (h : isSpace c = false) :
    skipSpace (c :: t) = c :: t := by
  unfold skipSpace
  rw [List.dropWhile_cons, h]
  rfl

theorem parseValue_succ (fuel : Nat) (cs : List Char) :
    parseValue (fuel + 1) cs =
      match skipSpace cs with
      | [] => none
      | c :: rest =>
        if c = '{' then
          match skipSpace rest with
          | [] => none
          | c1 :: rest1 =>
            if c1 = '}' then some (.map [], rest1)
            else (parseMembers fuel (c1 :: rest1)).map
              (fun p => (.map (p.1.foldl (fun m e => GoMap.set m e.1 e.2) []), p.2))
        else if c = '[' then
          match skipSpace rest with
          | [] => none
          | c1 :: rest1 =>
            if c1 = ']' then some (.slice [], rest1)
            else (parseElements fuel (c1 :: rest1)).map (fun p => (.slice p.1, p.2))
        else if c = '"' then
          (parseStringBody rest.length rest).map (fun p => (.string (String.mk p.1), p.2))
        else if c = 't' then
          if ['r', 'u', 'e'].isPrefixOf rest then some (.bool true, rest.drop 3) else none
        else if c = 'f' then
          if ['a', 'l', 's', 'e'].isPrefixOf rest then some (.bool false, rest.drop 4) else none
        else if c = 'n' then
          if ['u', 'l', 'l'].isPrefixOf rest then some (.null, rest.drop 3) else none
        else (scanNumber (c :: rest)).map (fun p => (.number (String.mk p.1), p.2)) := rfl

theorem parseElements_succ (fuel : Nat) (cs : List Char) :
    parseElements (fuel + 1) cs =
      match parseValue fuel cs with
      | none => none
      | some (v, rest) =>
        match skipSpace rest with
        | [] => none
        | c :: rest1 =>
          if c = ',' then (parseElements fuel rest1).map (fun p => (v :: p.1, p.2))
          else if c = ']' then some ([v], rest1)
          else none := rfl

theorem parseMembers_succ (fuel : Nat) (cs : List Char) :
    parseMembers (fuel + 1) cs =
      match skipSpace cs with
      | [] => none
      | c :: rest =>
        if c = '"' then
          match parseStringBody rest.length rest with
          | none => none
          | some (k, rest1) =>
            match skipSpace rest1 with
            | [] => none
            | c1 :: rest2 =>
              if c1 = ':' then
                match parseValue fuel rest2 with
                | none => none
                | some (v, rest3) =>
                  match skipSpace rest3 with
                  | [] => none
                  | c2 :: rest4 =>
                    if c2 = ',' then
                      (parseMembers fuel rest4).map (fun p => ((String.mk k, v) :: p.1, p.2))
                    else if c2 = '}' then some ([(String.mk k, v)], rest4)
                    else none
              else none
        else none := rfl

theorem parseValue_string (fuel : Nat) (s : String) (rest : List Char) :
    parseValue (fuel + 1) (encodeString s ++ rest) = some (.string s, rest) := by
  have e : encodeString s ++ rest = '"' :: (s.data.flatMap escapeChar ++ '"' :: rest) := by
    unfold encodeString
    simp only [List.cons_append, List.append_assoc, List.nil_append]
  rw [e, parseValue_succ, skipSpace_cons _ _ (by decide)]
  simp only
  rw [if_pos trivial, parseStringBody_encodeString]
  rfl

theorem parseValue_number (fuel : Nat) (s : String) (rest : List Char)
    (h : isValidNumber s.data = true) (hd : Delim rest) :
    parseValue (fuel + 1) (s.data ++ rest) = some (.number s, rest) := by
  obtain ⟨c, cs, hs, hc⟩ := number_head s.data h
  obtain ⟨p1, p2, p3, p4, p5, p6, p7, -, -⟩ := number_head_props c hc
  have hscan := scanNumber_append s.data rest h hd
  rw [hs] at hscan ⊢
  rw [List.cons_append] at hscan ⊢
  rw [parseValue_succ, skipSpace_cons _ _ p1]
  simp only
  rw [if_neg p2, if_neg p3, if_neg p4, if_neg p5, if_neg p6, if_neg p7, hscan]
  simp only [Option.map_some']
  rw [← hs]

theorem parseValue_slice_cons (fuel : Nat) (c0 : Char) (t : List Char)
    (h1 : isSpace c0 = false) (h2 : c0 ≠ ']') :
    parseValue (fuel + 1) ('[' :: c0 :: t) =
      (parseElements fuel (c0 :: t)).map (fun p => (.slice p.1, p.2)) := by
  have hb : ¬ ('[' = '{') := by decide
  rw [parseValue_succ, skipSpace_cons _ _ (by decide)]
  simp only
  rw [if_neg hb, if_pos trivial, skipSpace_cons _ _ h1]
  simp only
  rw [if_neg h2]

theorem parseValue_map_cons (fuel : Nat) (c0 : Char) (t : List Char)
    (h1 : isSpace c0 = false) (h2 : c0 ≠ '}') :
    parseValue (fuel + 1) ('{' :: c0 :: t) =
      (parseMembers fuel (c0 :: t)).map
        (fun p => (.map (p.1.foldl (fun m e => GoMap.set m e.1 e.2) []), p.2)) := by
  rw [parseValue_succ, skipSpace_cons _ _ (by decide)]
  simp only
  rw [if_pos trivial, skipSpace_cons _ _ h1]
  simp only
  rw [if_neg h2]

theorem encodeValue_slice (ef : strconv.Float64 → Option String) (xs : List GoValue) :
    encodeValue ef (.slice xs) =
      (encodeElements ef xs).map (fun body => '[' :: (body ++ [']'])) := by
  rw [encodeValue]

theorem encodeValue_map (ef : strconv.Float64 → Option String) (m : List (String × GoValue)) :
    encodeValue ef (.map m) =
      (encodeMembers ef m).map (fun body => '{' :: (body ++ ['}'])) := by
  rw [encodeValue]

theorem encodeElements_cons (ef : strconv.Float64 → Option String) (x : GoValue)
    (xs : List GoValue) :
    encodeElements ef (x :: xs) =
      match encodeValue ef x, encodeElements ef xs with
      | some a, some b => some (if xs.isEmpty then a else a ++ ',' :: b)
      | _, _ => none := by
  rw [encodeElements]

theorem encodeMembers_cons (ef : strconv.Float64 → Option String) (k : String) (v : GoValue)
    (m : List (String × GoValue)) :
    encodeMembers ef ((k, v) :: m) =
      match encodeValue ef v, encodeMembers ef m with
      | some a, some b =>
        some (if m.isEmpty then encodeString k ++ ':' :: a
          else encodeString k ++ ':' :: a ++ ',' :: b)
      | _, _ => none := by
  rw [encodeMembers]

/-- The first character of an encoded value is not white space and closes nothing. -/
theorem encodeValue_head (ef : strconv.Float64 → Option String) (v : GoValue)
    (enc : List Char) (hj : Spec.isJSONValue v = true) (he : encodeValue ef v = some enc) :
    ∃ c t, enc = c :: t ∧ isSpace c = false ∧ c ≠ ']' ∧ c ≠ '}' := by
  cases v with
  | string s =>
    rw [encodeValue] at he
    injection he with he
    exact ⟨'"', _, he.symm, by decide, by decide, by decide⟩
  | number s =>
    rw [Spec.isJSONValue] at hj
    obtain ⟨c, cs, hs, hc⟩ := number_head s.data hj
    obtain ⟨p1, -, -, -, -, -, -, p8, p9⟩ := number_head_props c hc
    rw [encodeValue] at he
    have hne : s ≠ "" := by
      intro h
      rw [h] at hs
      exact absurd hs (by simp)
    rw [if_neg hne, if_pos hj] at he
    injection he with he
    exact ⟨c, cs, by rw [← he, hs], p1, p8, p9⟩
  | bool b =>
    rw [encodeValue] at he
    injection he with he
    cases b
    · exact ⟨'f', _, he.symm, by decide, by decide, by decide⟩
    · exact ⟨'t', _, he.symm, by decide, by decide, by decide⟩
  | null =>
    rw [encodeValue] at he
    injection he with he
    exact ⟨'n', _, he.symm, by decide, by decide, by decide⟩
  | slice xs =>
    rw [encodeValue_slice] at he
    cases hb : encodeElements ef xs with
    | none => rw [hb] at he; exact absurd he (by simp)
    | some body =>
      rw [hb] at he
      injection he with he
      exact ⟨'[', _, he.symm, by decide, by decide, by decide⟩
  | map m =>
    rw [encodeValue_map] at he
    cases hb : encodeMembers ef m with
    | none => rw [hb] at he; exact absurd he (by simp)
    | some body =>
      rw [hb] at he
      injection he with he
      exact ⟨'{', _, he.symm, by decide, by decide, by decide⟩
  | int64 i => rw [Spec.isJSONValue] at hj; exact absurd hj (by simp)
  | int i => rw [Spec.isJSONValue] at hj; exact absurd hj (by simp)
  | float64 f => rw [Spec.isJSONValue] at hj; exact absurd hj (by simp)

theorem foldl_set_append (m : List (String × GoValue)) (acc : GoMap GoValue)
    (hnd : (GoMap.keys m).Nodup) (hdis : ∀ k ∈ GoMap.keys m, k ∉ GoMap.keys acc) :
    m.foldl (fun a e => GoMap.set a e.1 e.2) acc = acc ++ m := by
  induction m generalizing acc with
  | nil => simp
  | cons e m ih =>
    obtain ⟨k, v⟩ := e
    unfold GoMap.keys at hnd hdis
    simp only [List.map_cons, List.nodup_cons, List.mem_cons, forall_eq_or_imp] at hnd hdis
    rw [List.foldl_cons]
    simp only
    rw [manifest.set_of_not_mem acc k v hdis.1, ih (acc ++ [(k, v)]) hnd.2]
    · simp
    · intro x hx hmem
      unfold GoMap.keys at hmem
      simp only [List.map_append, List.map_cons, List.map_nil, List.mem_append,
        List.mem_singleton] at hmem
      rcases hmem with h | h
      · exact hdis.2 x hx h
      · exact hnd.1 (h ▸ hx)

end json

namespace json

open datasource

theorem delim_close_bracket (rest : List Char) : Delim (']' :: rest) := by
  intro c hc
  simp only [List.head?_cons, Option.some.injEq] at hc
  exact Or.inr (Or.inl hc.symm)

theorem delim_close_brace (rest : List Char) : Delim ('}' :: rest) := by
  intro c hc
  simp only [List.head?_cons, Option.some.injEq] at hc
  exact Or.inr (Or.inr hc.symm)

theorem delim_comma (rest : List Char) : Delim (',' :: rest) := by
  intro c hc
  simp only [List.head?_cons, Option.some.injEq] at hc
  exact Or.inl hc.symm

theorem encodeValue_length_pos (ef : strconv.Float64 → Option String) (v : GoValue)
    (enc : List Char) (hj : Spec.isJSONValue v = true) (he : encodeValue ef v = some enc) :
    1 ≤ enc.length := by
  obtain ⟨c, t, rfl, -⟩ := encodeValue_head ef v enc hj he
  simp

theorem parseValue_true (fuel : Nat) (rest : List Char) :
    parseValue (fuel + 1) ('t' :: 'r' :: 'u' :: 'e' :: rest) = some (.bool true, rest) := by
  rw [parseValue_succ, skipSpace_cons _ _ (by decide)]
  simp [List.isPrefixOf]

theorem parseValue_false (fuel : Nat) (rest : List Char) :
    parseValue (fuel + 1) ('f' :: 'a' :: 'l' :: 's' :: 'e' :: rest) =
      some (.bool false, rest) := by
  rw [parseValue_succ, skipSpace_cons _ _ (by decide)]
  simp [List.isPrefixOf]

theorem parseValue_null (fuel : Nat) (rest : List Char) :
    parseValue (fuel + 1) ('n' :: 'u' :: 'l' :: 'l' :: rest) = some (.null, rest) := by
  rw [parseValue_succ, skipSpace_cons _ _ (by decide)]
  simp [List.isPrefixOf]

theorem parseValue_empty_slice (fuel : Nat) (rest : List Char) :
    parseValue (fuel + 1) ('[' :: ']' :: rest) = some (.slice [], rest) := by
  have hb : ¬ ('[' = '{') := by decide
  rw [parseValue_succ, skipSpace_cons _ _ (by decide)]
  simp only
  rw [if_neg hb, if_pos trivial, skipSpace_cons _ _ (by decide)]
  simp only
  rw [if_pos trivial]

theorem parseValue_empty_map (fuel : Nat) (rest : List Char) :
    parseValue (fuel + 1) ('{' :: '}' :: rest) = some (.map [], rest) := by
  rw [parseValue_succ, skipSpace_cons _ _ (by decide)]
  simp only
  rw [if_pos trivial, skipSpace_cons _ _ (by decide)]
  simp only
  rw [if_pos trivial]

mutual

/-- Reading back an encoded value gives the value and stops right after it. -/
theorem parseValue_encodeValue (ef : strconv.Float64 → Option String) :
    ∀ (v : GoValue) (enc : List Char), Spec.isJSONValue v = true →
      encodeValue ef v = some enc → ∀ (fuel : Nat) (rest : List Char), enc.length ≤ fuel →
      Delim rest → parseValue fuel (enc ++ rest) = some (v, rest)
  | .string s, enc, _, he, fuel, rest, hf, _ => by
    rw [encodeValue] at he
    injection he with he
    subst he
    cases fuel with
    | zero => simp [encodeString] at hf
    | succ fuel => exact parseValue_string fuel s rest
  | .number s, enc, hj, he, fuel, rest, hf, hd => by
    rw [Spec.isJSONValue] at hj
    obtain ⟨c, cs, hs, -⟩ := number_head s.data hj
    have hne : s ≠ "" := by
      intro h
      rw [h] at hs
      exact absurd hs (by simp)
    rw [encodeValue, if_neg hne, if_pos hj] at he
    injection he with he
    subst he
    cases fuel with
    | zero =>
      rw [hs] at hf
      simp at hf
    | succ fuel => exact parseValue_number fuel s rest hj hd
  | .bool b, enc, _, he, fuel, rest, hf, _ => by
    rw [encodeValue] at he
    injection he with he
    subst he
    cases fuel with
    | zero => cases b <;> simp at hf
    | succ fuel =>
      cases b
      · exact parseValue_false fuel rest
      · exact parseValue_true fuel rest
  | .null, enc, _, he, fuel, rest, hf, _ => by
    rw [encodeValue] at he
    injection he with he
    subst he
    cases fuel with
    | zero => simp at hf
    | succ fuel => exact parseValue_null fuel rest
  | .int64 _, _, hj, _, _, _, _, _ => by
    rw [Spec.isJSONValue] at hj
    exact absurd hj (by simp)
  | .int _, _, hj, _, _, _, _, _ => by
    rw [Spec.isJSONValue] at hj
    exact absurd hj (by simp)
  | .float64 _, _, hj, _, _, _, _, _ => by
    rw [Spec.isJSONValue] at hj
    exact absurd hj (by simp)
  | .slice xs, enc, hj, he, fuel, rest, hf, _ => by
    rw [Spec.isJSONValue] at hj
    rw [encodeValue_slice] at he
    cases hb : encodeElements ef xs with
    | none =>
      rw [hb] at he
      exact absurd he (by simp)
    | some body =>
      rw [hb] at he
      injection he with he
      subst he
      have ih := parseElements_encodeElements ef xs body hj hb
      cases fuel with
      | zero => simp at hf
      | succ fuel =>
        cases xs with
        | nil =>
          rw [encodeElements] at hb
          injection hb with hb
          subst hb
          exact parseValue_empty_slice fuel rest
        | cons x xs =>
          have hjx : Spec.isJSONValue x = true := by
            rw [Spec.isJSONList, Bool.and_eq_true] at hj
            exact hj.1
          have hbody : ∃ c t, body = c :: t ∧ isSpace c = false ∧ c ≠ ']' := by
            rw [encodeElements_cons] at hb
            cases ha : encodeValue ef x with
            | none =>
              rw [ha] at hb
              exact absurd hb (by simp)
            | some a =>
              obtain ⟨c, t, rfl, h1, h2, -⟩ := encodeValue_head ef x a hjx ha
              cases hbs : encodeElements ef xs with
              | none =>
                rw [ha, hbs] at hb
                exact absurd hb (by simp)
              | some b =>
                rw [ha, hbs] at hb
                simp only [Option.some.injEq] at hb
                rw [← hb]
                split_ifs
                · exact ⟨c, t, rfl, h1, h2⟩
                · exact ⟨c, t ++ ',' :: b, rfl, h1, h2⟩
          obtain ⟨c, t, hct, h1, h2⟩ := hbody
          have e : ('[' :: (body ++ [']'])) ++ rest = '[' :: c :: (t ++ ']' :: rest) := by
            rw [hct]
            simp
          rw [e, parseValue_slice_cons fuel c _ h1 h2]
          have e2 : c :: (t ++ ']' :: rest) = body ++ ']' :: rest := by
            rw [hct]
            rfl
          rw [e2, ih (List.cons_ne_nil x xs) fuel rest (by
            simp only [List.length_cons, List.length_append, List.length_nil] at hf
            omega)]
          rfl
  | .map m, enc, hj, he, fuel, rest, hf, _ => by
    rw [Spec.isJSONValue, Bool.and_eq_true, decide_eq_true_eq] at hj
    rw [encodeValue_map] at he
    cases hb : encodeMembers ef m with
    | none =>
      rw [hb] at he
      exact absurd he (by simp)
    | some body =>
      rw [hb] at he
      injection he with he
      subst he
      have ih := parseMembers_encodeMembers ef m body hj.1 hb
      cases fuel with
      | zero => simp at hf
      | succ fuel =>
        cases m with
        | nil =>
          rw [encodeMembers] at hb
          injection hb with hb
          subst hb
          exact parseValue_empty_map fuel rest
        | cons e m =>
          obtain ⟨k, v⟩ := e
          have hbody : ∃ t, body = '"' :: t := by
            rw [encodeMembers_cons] at hb
            cases ha : encodeValue ef v with
            | none =>
              rw [ha] at hb
              exact absurd hb (by simp)
            | some a =>
              cases hbs : encodeMembers ef m with
              | none =>
                rw [ha, hbs] at hb
                exact absurd hb (by simp)
              | some b =>
                rw [ha, hbs] at hb
                simp only [Option.some.injEq] at hb
                rw [← hb]
                unfold encodeString
                split_ifs
                · exact ⟨_, rfl⟩
                · exact ⟨_, rfl⟩
          obtain ⟨t, hct⟩ := hbody
          have e : ('{' :: (body ++ ['}'])) ++ rest = '{' :: '"' :: (t ++ '}' :: rest) := by
            rw [hct]
            simp
          rw [e, parseValue_map_cons fuel '"' _ (by decide) (by decide)]
          have e2 : '"' :: (t ++ '}' :: rest) = body ++ '}' :: rest := by
            rw [hct]
            rfl
          rw [e2, ih (List.cons_ne_nil _ m) fuel rest (by
            simp only [List.length_cons, List.length_append, List.length_nil] at hf
            omega)]
          simp only [Option.map_some']
          rw [foldl_set_append _ [] hj.2 (by simp [GoMap.keys])]
          rfl

/-- Reading back the encoded elements of a non-empty slice, up to its closing bracket. -/
theorem parseElements_encodeElements (ef : strconv.Float64 → Option String) :
    ∀ (xs : List GoValue) (body : List Char), Spec.isJSONList xs = true →
      encodeElements ef xs = some body → xs ≠ [] → ∀ (fuel : Nat) (rest : List Char),
      body.length + 1 ≤ fuel → parseElements fuel (body ++ ']' :: rest) = some (xs, rest)
  | [], _, _, _, hne, _, _, _ => absurd rfl hne
  | x :: xs, body, hj, he, _, fuel, rest, hf => by
    rw [Spec.isJSONList, Bool.and_eq_true] at hj
    rw [encodeElements_cons] at he
    cases ha : encodeValue ef x with
    | none =>
      rw [ha] at he
      exact absurd he (by simp)
    | some a =>
      cases hb : encodeElements ef xs with
      | none =>
        rw [ha, hb] at he
        exact absurd he (by simp)
      | some b =>
        rw [ha, hb] at he
        simp only [Option.some.injEq] at he
        have ihx := parseValue_encodeValue ef x a hj.1 ha
        have ihxs := parseElements_encodeElements ef xs b hj.2 hb
        have hapos := encodeValue_length_pos ef x a hj.1 ha
        cases fuel with
        | zero => omega
        | succ fuel =>
          rw [parseElements_succ]
          cases xs with
          | nil =>
            simp only [List.isEmpty_nil, if_true] at he
            subst he
            have hc : ¬ (']' = ',') := by decide
            rw [ihx fuel (']' :: rest) (by omega) (delim_close_bracket rest)]
            simp only
            rw [skipSpace_cons _ _ (by decide)]
            simp only
            rw [if_neg hc, if_pos trivial]
          | cons y ys =>
            simp only [List.isEmpty_cons, Bool.false_eq_true, if_false] at he
            subst he
            have e : (a ++ ',' :: b) ++ ']' :: rest = a ++ ',' :: (b ++ ']' :: rest) := by
              simp
            rw [e, ihx fuel (',' :: (b ++ ']' :: rest)) (by
              rw [List.length_append, List.length_cons] at hf
              omega) (delim_comma _)]
            simp only
            rw [skipSpace_cons _ _ (by decide)]
            simp only
            rw [if_pos trivial, ihxs (List.cons_ne_nil y ys) fuel rest (by
              rw [List.length_append, List.length_cons] at hf
              omega)]
            rfl

/-- Reading back the encoded members of a non-empty map, up to its closing brace. -/
theorem parseMembers_encodeMembers (ef : strconv.Float64 → Option String) :
    ∀ (m : List (String × GoValue)) (body : List Char), Spec.isJSONEntries m = true →
      encodeMembers ef m = some body → m ≠ [] → ∀ (fuel : Nat) (rest : List Char),
      body.length + 1 ≤ fuel → parseMembers fuel (body ++ '}' :: rest) = some (m, rest)
  | [], _, _, _, hne, _, _, _ => absurd rfl hne
  | (k, v) :: m, body, hj, he, _, fuel, rest, hf => by
    rw [Spec.isJSONEntries, Bool.and_eq_true] at hj
    rw [encodeMembers_cons] at he
    cases ha : encodeValue ef v with
    | none =>
      rw [ha] at he
      exact absurd he (by simp)
    | some a =>
      cases hb : encodeMembers ef m with
      | none =>
        rw [ha, hb] at he
        exact absurd he (by simp)
      | some b =>
        rw [ha, hb] at he
        simp only [Option.some.injEq] at he
        have ihv := parseValue_encodeValue ef v a hj.1 ha
        have ihm := parseMembers_encodeMembers ef m b hj.2 hb
        have hapos := encodeValue_length_pos ef v a hj.1 ha
        cases fuel with
        | zero => omega
        | succ fuel =>
          rw [parseMembers_succ]
          cases m with
          | nil =>
            simp only [List.isEmpty_nil, if_true] at he
            subst he
            have hc : ¬ ('}' = ',') := by decide
            have e : (encodeString k ++ ':' :: a) ++ '}' :: rest =
                '"' :: (k.data.flatMap escapeChar ++ '"' :: (':' :: (a ++ '}' :: rest))) := by
              unfold encodeString
              simp
            rw [e, skipSpace_cons _ _ (by decide)]
            simp only
            rw [if_pos trivial, parseStringBody_encodeString]
            simp only
            rw [skipSpace_cons _ _ (by decide)]
            simp only
            rw [if_pos trivial, ihv fuel ('}' :: rest) (by
              rw [List.length_append, List.length_cons] at hf
              omega) (delim_close_brace rest)]
            simp only
            rw [skipSpace_cons _ _ (by decide)]
            simp only
            rw [if_neg hc, if_pos trivial]
          | cons e2 m2 =>
            simp only [List.isEmpty_cons, Bool.false_eq_true, if_false] at he
            subst he
            have e : (encodeString k ++ ':' :: a ++ ',' :: b) ++ '}' :: rest =
                '"' :: (k.data.flatMap escapeChar ++
                  '"' :: (':' :: (a ++ ',' :: (b ++ '}' :: rest)))) := by
              unfold encodeString
              simp
            rw [e, skipSpace_cons _ _ (by decide)]
            simp only
            rw [if_pos trivial, parseStringBody_encodeString]
            simp only
            rw [skipSpace_cons _ _ (by decide)]
            simp only
            rw [if_pos trivial, ihv fuel (',' :: (b ++ '}' :: rest)) (by
              simp only [List.length_append, List.length_cons] at hf
              omega) (delim_comma _)]
            simp only
            rw [skipSpace_cons _ _ (by decide)]
            simp only
            rw [if_pos trivial, ihm (List.cons_ne_nil e2 m2) fuel rest (by
              simp only [List.length_append, List.length_cons] at hf
              omega)]
            rfl

end

end json

namespace json

open datasource

theorem isJSONEntries_iff (m : List (String × GoValue)) :
    Spec.isJSONEntries m = true ↔ ∀ e ∈ m, Spec.isJSONValue e.2 = true := by
  induction m with
  | nil => simp [Spec.isJSONEntries]
  | cons e m ih =>
    obtain ⟨k, v⟩ := e
    rw [Spec.isJSONEntries, Bool.and_eq_true, ih]
    simp

theorem sortEntries_perm (m : List (String × GoValue)) : List.Perm (sortEntries m) m :=
  List.perm_insertionSort _ m

theorem keys_sortKeysEntries (m : List (String × GoValue)) :
    GoMap.keys (sortKeysEntries m) = GoMap.keys m := by
  induction m with
  | nil => rfl
  | cons e m ih =>
    obtain ⟨k, v⟩ := e
    rw [sortKeysEntries]
    unfold GoMap.keys at ih ⊢
    simp only [List.map_cons, ih]

theorem keys_sortEntries_perm (m : List (String × GoValue)) :
    List.Perm (GoMap.keys (sortEntries m)) (GoMap.keys m) :=
  (sortEntries_perm m).map Prod.fst

mutual

/-- Putting the entries of every map in key order keeps a value within the JSON data
model. -/
theorem isJSONValue_sortKeys : ∀ v : GoValue, Spec.isJSONValue v = true →
    Spec.isJSONValue (sortKeys v) = true
  | .string _, h => by rw [sortKeys]; exact h
  | .number _, h => by rw [sortKeys]; exact h
  | .bool _, h => by rw [sortKeys]; exact h
  | .null, h => by rw [sortKeys]; exact h
  | .int64 _, h => by rw [sortKeys]; exact h
  | .int _, h => by rw [sortKeys]; exact h
  | .float64 _, h => by rw [sortKeys]; exact h
  | .slice xs, h => by
    rw [Spec.isJSONValue] at h
    rw [sortKeys, Spec.isJSONValue]
    exact isJSONList_sortKeysList xs h
  | .map m, h => by
    rw [Spec.isJSONValue, Bool.and_eq_true, decide_eq_true_eq] at h
    rw [sortKeys, Spec.isJSONValue, Bool.and_eq_true, decide_eq_true_eq]
    have h1 := isJSONEntries_sortKeysEntries m h.1
    constructor
    · rw [isJSONEntries_iff] at h1 ⊢
      intro e he
      exact h1 e ((sortEntries_perm _).mem_iff.mp he)
    · rw [(keys_sortEntries_perm _).nodup_iff, keys_sortKeysEntries]
      exact h.2

/-- `isJSONValue_sortKeys` on the elements of a slice. -/
theorem isJSONList_sortKeysList : ∀ xs : List GoValue, Spec.isJSONList xs = true →
    Spec.isJSONList (sortKeysList xs) = true
  | [], _ => by rw [sortKeysList]; rfl
  | x :: xs, h => by
    rw [Spec.isJSONList, Bool.and_eq_true] at h
    rw [sortKeysList, Spec.isJSONList, Bool.and_eq_true]
    exact ⟨isJSONValue_sortKeys x h.1, isJSONList_sortKeysList xs h.2⟩

/-- `isJSONValue_sortKeys` on the entries of a map. -/
theorem isJSONEntries_sortKeysEntries : ∀ m : List (String × GoValue),
    Spec.isJSONEntries m = true → Spec.isJSONEntries (sortKeysEntries m) = true
  | [], _ => by rw [sortKeysEntries]; rfl
  | (k, v) :: m, h => by
    rw [Spec.isJSONEntries, Bool.and_eq_true] at h
    rw [sortKeysEntries, Spec.isJSONEntries, Bool.and_eq_true]
    exact ⟨isJSONValue_sortKeys v h.1, isJSONEntries_sortKeysEntries m h.2⟩

end

mutual

/-- Every value of the JSON data model has an encoding. -/
theorem encodeValue_isSome (ef : strconv.Float64 → Option String) :
    ∀ v : GoValue, Spec.isJSONValue v = true → ∃ enc, encodeValue ef v = some enc
  | .string s, _ => ⟨_, by rw [encodeValue]⟩
  | .number s, h => by
    rw [Spec.isJSONValue] at h
    rw [encodeValue]
    by_cases hs : s = ""
    · rw [if_pos hs]
      exact ⟨_, rfl⟩
    · rw [if_neg hs, if_pos h]
      exact ⟨_, rfl⟩
  | .bool b, _ => ⟨_, by rw [encodeValue]⟩
  | .null, _ => ⟨_, by rw [encodeValue]⟩
  | .int64 _, h => by rw [Spec.isJSONValue] at h; exact absurd h (by simp)
  | .int _, h => by rw [Spec.isJSONValue] at h; exact absurd h (by simp)
  | .float64 _, h => by rw [Spec.isJSONValue] at h; exact absurd h (by simp)
  | .slice xs, h => by
    rw [Spec.isJSONValue] at h
    obtain ⟨body, hb⟩ := encodeElements_isSome ef xs h
    exact ⟨_, by rw [encodeValue_slice, hb]; rfl⟩
  | .map m, h => by
    rw [Spec.isJSONValue, Bool.and_eq_true] at h
    obtain ⟨body, hb⟩ := encodeMembers_isSome ef m h.1
    exact ⟨_, by rw [encodeValue_map, hb]; rfl⟩

/-- `encodeValue_isSome` on the elements of a slice. -/
theorem encodeElements_isSome (ef : strconv.Float64 → Option String) :
    ∀ xs : List GoValue, Spec.isJSONList xs = true → ∃ body, encodeElements ef xs = some body
  | [], _ => ⟨_, by rw [encodeElements]⟩
  | x :: xs, h => by
    rw [Spec.isJSONList, Bool.and_eq_true] at h
    obtain ⟨a, ha⟩ := encodeValue_isSome ef x h.1
    obtain ⟨b, hb⟩ := encodeElements_isSome ef xs h.2
    exact ⟨_, by rw [encodeElements_cons, ha, hb]⟩

/-- `encodeValue_isSome` on the entries of a map. -/
theorem encodeMembers_isSome (ef : strconv.Float64 → Option String) :
    ∀ m : List (String × GoValue), Spec.isJSONEntries m = true →
      ∃ body, encodeMembers ef m = some body
  | [], _ => ⟨_, by rw [encodeMembers]⟩
  | (k, v) :: m, h => by
    rw [Spec.isJSONEntries, Bool.and_eq_true] at h
    obtain ⟨a, ha⟩ := encodeValue_isSome ef v h.1
    obtain ⟨b, hb⟩ := encodeMembers_isSome ef m h.2
    exact ⟨_, by rw [encodeMembers_cons, ha, hb]⟩

end

mutual

/-- A value and the value with the entries of its maps in key order are semantically
equal. -/
theorem sameValue_sortKeys : ∀ v : GoValue, Spec.sameValue v (sortKeys v)
  | .string s => by rw [sortKeys]; exact Spec.sameValue.same _
  | .number s => by rw [sortKeys]; exact Spec.sameValue.same _
  | .bool b => by rw [sortKeys]; exact Spec.sameValue.same _
  | .null => by rw [sortKeys]; exact Spec.sameValue.same _
  | .int64 i => by rw [sortKeys]; exact Spec.sameValue.same _
  | .int i => by rw [sortKeys]; exact Spec.sameValue.same _
  | .float64 f => by rw [sortKeys]; exact Spec.sameValue.same _
  | .slice xs => by
    rw [sortKeys]
    exact Spec.sameValue.slice _ _ (sameList_sortKeysList xs)
  | .map m => by
    rw [sortKeys]
    exact Spec.sameValue.map _ _ _ (sameEntries_sortKeysEntries m)
      (sortEntries_perm _).symm

/-- `sameValue_sortKeys` on the elements of a slice. -/
theorem sameList_sortKeysList : ∀ xs : List GoValue, Spec.sameList xs (sortKeysList xs)
  | [] => by rw [sortKeysList]; exact Spec.sameList.nil
  | x :: xs => by
    rw [sortKeysList]
    exact Spec.sameList.cons _ _ _ _ (sameValue_sortKeys x) (sameList_sortKeysList xs)

/-- `sameValue_sortKeys` on the entries of a map. -/
theorem sameEntries_sortKeysEntries : ∀ m : List (String × GoValue),
    Spec.sameEntries m (sortKeysEntries m)
  | [] => by rw [sortKeysEntries]; exact Spec.sameEntries.nil
  | (k, v) :: m => by
    rw [sortKeysEntries]
    exact Spec.sameEntries.cons _ _ _ _ _ (sameValue_sortKeys v) (sameEntries_sortKeysEntries m)

end

theorem mem_sortKeysEntries (m : List (String × GoValue)) (k : String) (v : GoValue)
    (h : (k, v) ∈ m) : (k, sortKeys v) ∈ sortKeysEntries m := by
  induction m with
  | nil => exact absurd h (List.not_mem_nil _)
  | cons e m ih =>
    obtain ⟨k1, v1⟩ := e
    rw [sortKeysEntries]
    rcases List.mem_cons.mp h with h | h
    · injection h with h1 h2
      subst h1
      subst h2
      exact List.mem_cons_self _ _
    · exact List.mem_cons_of_mem _ (ih h)

/-- The round trip of the encoder and the decoder: a mapping of values of the JSON data
model with distinct keys is encoded, and the encoding decodes to the mapping with the
entries of every map in key order. -/
theorem decode_marshal (ef : strconv.Float64 → Option String) (m : GoMap GoValue)
    (hj : Spec.isJSONEntries m = true) (hnd : (GoMap.keys m).Nodup) :
    ∃ b, Marshal ef m = .ok b ∧ Decode b = .ok (sortKeys (.map m)) := by
  have hv : Spec.isJSONValue (.map m) = true := by
    rw [Spec.isJSONValue, Bool.and_eq_true, decide_eq_true_eq]
    exact ⟨hj, hnd⟩
  have hs := isJSONValue_sortKeys (.map m) hv
  obtain ⟨enc, he⟩ := encodeValue_isSome ef (sortKeys (.map m)) hs
  refine ⟨bytesOfString (String.mk enc), ?_, ?_⟩
  · unfold Marshal
    rw [he]
  · unfold Decode
    rw [utf8.runes_bytesOfString]
    have hp := parseValue_encodeValue ef (sortKeys (.map m)) enc hs he (enc.length + 1) []
      (Nat.le_succ _) (fun c hc => absurd hc (by simp))
    rw [List.append_nil] at hp
    simp only
    rw [hp]

theorem isJSONList_iff (xs : List GoValue) :
    Spec.isJSONList xs = true ↔ ∀ x ∈ xs, Spec.isJSONValue x = true := by
  induction xs with
  | nil => simp [Spec.isJSONList]
  | cons x xs ih =>
    rw [Spec.isJSONList, Bool.and_eq_true, ih]
    simp

/-- Every value that a path can resolve to in a document of the JSON data model is a value
of the JSON data model. -/
theorem isJSONValue_fromDocument (doc v : GoValue) (hdoc : Spec.isJSONValue doc = true)
    (h : Spec.fromDocument doc v) : Spec.isJSONValue v = true := by
  induction h with
  | here => exact hdoc
  | element xs x _ hx ih =>
    rw [Spec.isJSONValue, isJSONList_iff] at ih
    exact ih x hx
  | member m k x _ hx ih =>
    rw [Spec.isJSONValue, Bool.and_eq_true, isJSONEntries_iff] at ih
    exact ih.1 (k, x) hx
  | collect xs _ ih =>
    rw [Spec.isJSONValue, isJSONList_iff]
    exact ih

theorem scanNumberFrom_valid (cs : List Char) (st : NumState) (a b : List Char)
    (h : scanNumberFrom st cs = some (a, b)) : scanNumberFrom st a = some (a, []) := by
  induction cs generalizing st a with
  | nil =>
    rw [scanNumberFrom_nil] at h
    split_ifs at h with hf
    simp only [Option.some.injEq, Prod.mk.injEq] at h
    rw [← h.1, scanNumberFrom_nil, if_pos hf]
  | cons c cs ih =>
    rw [scanNumberFrom_cons] at h
    cases hs : numStep st c with
    | none =>
      rw [hs] at h
      simp only at h
      split_ifs at h with hf
      simp only [Option.some.injEq, Prod.mk.injEq] at h
      rw [← h.1, scanNumberFrom_nil, if_pos hf]
    | some st1 =>
      rw [hs] at h
      simp only at h
      cases hr : scanNumberFrom st1 cs with
      | none =>
        rw [hr] at h
        simp at h
      | some p =>
        obtain ⟨p1, p2⟩ := p
        rw [hr] at h
        simp only [Option.map_some', Option.some.injEq, Prod.mk.injEq] at h
        rw [h.2] at hr
        have := ih st1 p1 hr
        rw [← h.1, scanNumberFrom_cons, hs]
        simp only
        rw [this]
        rfl

theorem isValidNumber_of_scan (cs a b : List Char) (h : scanNumber cs = some (a, b)) :
    isValidNumber a = true := by
  unfold isValidNumber scanNumber
  rw [scanNumberFrom_valid cs .start a b h]
  rfl

theorem keys_set_nodup (m : GoMap GoValue) (k : String) (v : GoValue)
    (h : (GoMap.keys m).Nodup) : (GoMap.keys (GoMap.set m k v)).Nodup := by
  by_cases hk : k ∈ GoMap.keys m
  · have hkeys : GoMap.keys (GoMap.set m k v) = GoMap.keys m := by
      clear h
      induction m with
      | nil => simp [GoMap.keys] at hk
      | cons e m ih =>
        unfold GoMap.set
        by_cases he : e.1 = k
        · rw [if_pos he]
          simp [GoMap.keys, he]
        · rw [if_neg he]
          have hk2 : k ∈ GoMap.keys m := by
            unfold GoMap.keys at hk ⊢
            simp only [List.map_cons, List.mem_cons] at hk
            rcases hk with hk | hk
            · exact absurd hk.symm he
            · exact hk
          have := ih hk2
          unfold GoMap.keys at this ⊢
          simp only [List.map_cons, this]
    rw [hkeys]
    exact h
  · rw [manifest.set_of_not_mem m k v hk]
    unfold GoMap.keys at h hk ⊢
    rw [List.map_append, List.nodup_append]
    refine ⟨h, by simp, ?_⟩
    intro x hx hx2
    simp only [List.map_cons, List.map_nil, List.mem_singleton] at hx2
    exact hk (hx2 ▸ hx)

theorem isJSONEntries_set (m : GoMap GoValue) (k : String) (v : GoValue)
    (hm : Spec.isJSONEntries m = true) (hv : Spec.isJSONValue v = true) :
    Spec.isJSONEntries (GoMap.set m k v) = true := by
  induction m with
  | nil =>
    unfold GoMap.set
    rw [Spec.isJSONEntries, hv]
    rfl
  | cons e m ih =>
    obtain ⟨k1, v1⟩ := e
    rw [Spec.isJSONEntries, Bool.and_eq_true] at hm
    unfold GoMap.set
    by_cases he : k1 = k
    · rw [if_pos he, Spec.isJSONEntries, Bool.and_eq_true]
      exact ⟨hv, hm.2⟩
    · rw [if_neg he, Spec.isJSONEntries, Bool.and_eq_true]
      exact ⟨hm.1, ih hm.2⟩

theorem isJSONValue_foldl_set (members : List (String × GoValue)) (acc : GoMap GoValue)
    (hm : Spec.isJSONEntries members = true) (ha : Spec.isJSONEntries acc = true)
    (hn : (GoMap.keys acc).Nodup) :
    Spec.isJSONValue (.map (members.foldl (fun m e => GoMap.set m e.1 e.2) acc)) = true := by
  induction members generalizing acc with
  | nil =>
    rw [List.foldl_nil, Spec.isJSONValue, Bool.and_eq_true, decide_eq_true_eq]
    exact ⟨ha, hn⟩
  | cons e members ih =>
    obtain ⟨k, v⟩ := e
    rw [Spec.isJSONEntries, Bool.and_eq_true] at hm
    rw [List.foldl_cons]
    exact ih _ hm.2 (isJSONEntries_set acc k v ha hm.1) (keys_set_nodup acc k v hn)

/-- Whatever the reader returns is a value of the JSON data model. -/
theorem isJSONValue_parse (fuel : Nat) :
    (∀ cs v rest, parseValue fuel cs = some (v, rest) → Spec.isJSONValue v = true) ∧
    (∀ cs xs rest, parseElements fuel cs = some (xs, rest) → Spec.isJSONList xs = true) ∧
    (∀ cs m rest, parseMembers fuel cs = some (m, rest) → Spec.isJSONEntries m = true) := by
  induction fuel with
  | zero =>
    refine ⟨fun cs v rest h => ?_, fun cs xs rest h => ?_, fun cs m rest h => ?_⟩
    · rw [parseValue] at h
      exact absurd h (by simp)
    · rw [parseElements] at h
      exact absurd h (by simp)
    · rw [parseMembers] at h
      exact absurd h (by simp)
  | succ fuel ih =>
    obtain ⟨ihv, ihe, ihm⟩ := ih
    refine ⟨fun cs v rest h => ?_, fun cs xs rest h => ?_, fun cs m rest h => ?_⟩
    · rw [parseValue_succ] at h
      cases hsk : skipSpace cs with
      | nil =>
        rw [hsk] at h
        exact absurd h (by simp)
      | cons c rest0 =>
        rw [hsk] at h
        simp only at h
        by_cases h1 : c = '{'
        · rw [if_pos h1] at h
          cases hsk2 : skipSpace rest0 with
          | nil =>
            rw [hsk2] at h
            exact absurd h (by simp)
          | cons c1 rest1 =>
            rw [hsk2] at h
            simp only at h
            by_cases h2 : c1 = '}'
            · rw [if_pos h2] at h
              simp only [Option.some.injEq, Prod.mk.injEq] at h
              rw [← h.1]
              rfl
            · rw [if_neg h2] at h
              obtain ⟨p, hp, hpv⟩ := Option.map_eq_some'.mp h
              simp only [Prod.mk.injEq] at hpv
              rw [← hpv.1]
              exact isJSONValue_foldl_set p.1 [] (ihm _ p.1 p.2 hp) rfl (by simp [GoMap.keys])
        rw [if_neg h1] at h
        by_cases h2 : c = '['
        · rw [if_pos h2] at h
          cases hsk2 : skipSpace rest0 with
          | nil =>
            rw [hsk2] at h
            exact absurd h (by simp)
          | cons c1 rest1 =>
            rw [hsk2] at h
            simp only at h
            by_cases h3 : c1 = ']'
            · rw [if_pos h3] at h
              simp only [Option.some.injEq, Prod.mk.injEq] at h
              rw [← h.1]
              rfl
            · rw [if_neg h3] at h
              obtain ⟨p, hp, hpv⟩ := Option.map_eq_some'.mp h
              simp only [Prod.mk.injEq] at hpv
              rw [← hpv.1, Spec.isJSONValue]
              exact ihe _ p.1 p.2 hp
        rw [if_neg h2] at h
        by_cases h3 : c = '"'
        · rw [if_pos h3] at h
          obtain ⟨p, -, hpv⟩ := Option.map_eq_some'.mp h
          simp only [Prod.mk.injEq] at hpv
          rw [← hpv.1]
          rfl
        rw [if_neg h3] at h
        by_cases h4 : c = 't'
        · rw [if_pos h4] at h
          split_ifs at h
          simp only [Option.some.injEq, Prod.mk.injEq] at h
          rw [← h.1]
          rfl
        rw [if_neg h4] at h
        by_cases h5 : c = 'f'
        · rw [if_pos h5] at h
          split_ifs at h
          simp only [Option.some.injEq, Prod.mk.injEq] at h
          rw [← h.1]
          rfl
        rw [if_neg h5] at h
        by_cases h6 : c = 'n'
        · rw [if_pos h6] at h
          split_ifs at h
          simp only [Option.some.injEq, Prod.mk.injEq] at h
          rw [← h.1]
          rfl
        rw [if_neg h6] at h
        obtain ⟨p, hp, hpv⟩ := Option.map_eq_some'.mp h
        simp only [Prod.mk.injEq] at hpv
        rw [← hpv.1, Spec.isJSONValue]
        exact isValidNumber_of_scan _ p.1 p.2 hp
    · rw [parseElements_succ] at h
      cases hpv : parseValue fuel cs with
      | none =>
        rw [hpv] at h
        exact absurd h (by simp)
      | some r =>
        obtain ⟨v, rest0⟩ := r
        rw [hpv] at h
        simp only at h
        have hv := ihv cs v rest0 hpv
        cases hsk : skipSpace rest0 with
        | nil =>
          rw [hsk] at h
          exact absurd h (by simp)
        | cons c rest1 =>
          rw [hsk] at h
          simp only at h
          by_cases h1 : c = ','
          · rw [if_pos h1] at h
            obtain ⟨p, hp, hpe⟩ := Option.map_eq_some'.mp h
            simp only [Prod.mk.injEq] at hpe
            rw [← hpe.1, Spec.isJSONList, Bool.and_eq_true]
            exact ⟨hv, ihe _ p.1 p.2 hp⟩
          rw [if_neg h1] at h
          by_cases h2 : c = ']'
          · rw [if_pos h2] at h
            simp only [Option.some.injEq, Prod.mk.injEq] at h
            rw [← h.1, Spec.isJSONList, Bool.and_eq_true]
            exact ⟨hv, rfl⟩
          rw [if_neg h2] at h
          exact absurd h (by simp)
    · rw [parseMembers_succ] at h
      cases hsk : skipSpace cs with
      | nil =>
        rw [hsk] at h
        exact absurd h (by simp)
      | cons c rest0 =>
        rw [hsk] at h
        simp only at h
        by_cases h1 : c = '"'
        · rw [if_pos h1] at h
          cases hps : parseStringBody rest0.length rest0 with
          | none =>
            rw [hps] at h
            exact absurd h (by simp)
          | some kr =>
            obtain ⟨k, rest1⟩ := kr
            rw [hps] at h
            simp only at h
            cases hsk2 : skipSpace rest1 with
            | nil =>
              rw [hsk2] at h
              exact absurd h (by simp)
            | cons c1 rest2 =>
              rw [hsk2] at h
              simp only at h
              by_cases h2 : c1 = ':'
              · rw [if_pos h2] at h
                cases hpv : parseValue fuel rest2 with
                | none =>
                  rw [hpv] at h
                  exact absurd h (by simp)
                | some r =>
                  obtain ⟨v, rest3⟩ := r
                  rw [hpv] at h
                  simp only at h
                  have hv := ihv rest2 v rest3 hpv
                  cases hsk3 : skipSpace rest3 with
                  | nil =>
                    rw [hsk3] at h
                    exact absurd h (by simp)
                  | cons c2 rest4 =>
                    rw [hsk3] at h
                    simp only at h
                    by_cases h3 : c2 = ','
                    · rw [if_pos h3] at h
                      obtain ⟨p, hp, hpe⟩ := Option.map_eq_some'.mp h
                      simp only [Prod.mk.injEq] at hpe
                      rw [← hpe.1, Spec.isJSONEntries, Bool.and_eq_true]
                      exact ⟨hv, ihm _ p.1 p.2 hp⟩
                    rw [if_neg h3] at h
                    by_cases h4 : c2 = '}'
                    · rw [if_pos h4] at h
                      simp only [Option.some.injEq, Prod.mk.injEq] at h
                      rw [← h.1, Spec.isJSONEntries, Bool.and_eq_true]
                      exact ⟨hv, rfl⟩
                    rw [if_neg h4] at h
                    exact absurd h (by simp)
              · rw [if_neg h2] at h
                exact absurd h (by simp)
        · rw [if_neg h1] at h
          exact absurd h (by simp)

/-- A decoded document is a value of the JSON data model. -/
theorem isJSONValue_decode (b : Bytes) (doc : GoValue) (h : Decode b = .ok doc) :
    Spec.isJSONValue doc = true := by
  unfold Decode at h
  cases hp : parseValue ((utf8.runes b).length + 1) (utf8.runes b) with
  | none =>
    rw [hp] at h
    exact absurd h (by simp)
  | some r =>
    obtain ⟨v, rest⟩ := r
    rw [hp] at h
    simp only [Except.ok.injEq] at h
    rw [← h]
    exact (isJSONValue_parse _).1 _ v rest hp

end json

namespace datasource

/-- C24, as claimed, fails: the document `{"a": 1, "b": ["x<", "é"]}` and the non-empty
field_extractions `{x: "$.a"}`, whose one path resolves, in a descriptor that also has the
extract `$.a`: `projectJSON` with output_format json returns no key at all, the check made
before the projection rejects the descriptor with `ErrUnsupportedOutputFormat`. -/
theorem projectJSON_field_extractions_with_extract_fails :
    DataSource.projectJSON ⟨"app.json", "out.json", "json", "$.a", [("x", "$.a")], "json"⟩
      exampleCodecs exampleFileSystem "conf" = .error ErrUnsupportedOutputFormat ∧
    exampleFileSystem.ReadFile (path.Join ["conf", "app.json"]) =
      .ok [123, 34, 97, 34, 58, 32, 49, 44, 32, 34, 98, 34, 58, 32, 91, 34,
        120, 60, 34, 44, 32, 34, 195, 169, 34, 93, 125] ∧
    exampleCodecs.jsonDecode [123, 34, 97, 34, 58, 32, 49, 44, 32, 34, 98, 34, 58, 32, 91, 34,
        120, 60, 34, 44, 32, 34, 195, 169, 34, 93, 125] =
      .ok (.map [("a", .number "1"), ("b", .slice [.string "x<", .string "é"])]) ∧
    exampleCodecs.JsonPathLookup
      (.map [("a", .number "1"), ("b", .slice [.string "x<", .string "é"])]) "$.a" =
      .ok (.number "1") :=
  ⟨rfl, rfl, rfl, rfl⟩

/-- C24, amended: for every JSON source document and every descriptor with an empty extract,
output_format json and a non-empty field_extractions map (its labels distinct, as in a Go
map) all of whose paths resolve to values of the JSON data model, `projectJSON`, with
`encoding/json` as its encoder and decoder, returns exactly one key, equal to output_file,
whose content decodes as JSON to a mapping that has exactly the labels of field_extractions,
each once, each label bound to a value semantically equal to the value its path resolves to
in the source document. The source document is itself a value of the JSON data model, and so
is every value a path can resolve to in it: the document, an element or a member of such a
value, and a list collected from such values. With a non-empty extract and output_format
json, `projectJSON` returns no key and fails with `ErrUnsupportedOutputFormat`. -/
theorem projectJSON_field_extractions_round_trip (d : DataSource) (c : Codecs)
    (fs : FileSystem) (basePath : String) (content : Bytes) (doc : GoValue)
    (encodeFloat : strconv.Float64 → Option String)
    (hmarshal : c.jsonMarshal = json.Marshal encodeFloat) (hdecoder : c.jsonDecode = json.Decode)
    (hof : d.OutputFormat = OutputJSON) (hex : d.Extract = "")
    (hfe : d.FieldExtractions.length > 0) (hnd : (GoMap.keys d.FieldExtractions).Nodup)
    (hread : fs.ReadFile (path.Join [basePath, d.Source]) = .ok content)
    (hdec : json.Decode content = .ok doc)
    (hres : ∀ p ∈ d.FieldExtractions,
      ∃ v, c.JsonPathLookup doc p.2 = .ok v ∧ Spec.isJSONValue v = true) :
    (∃ b m', d.projectJSON c fs basePath = .ok [(d.OutputFile, b)] ∧
      json.Decode b = .ok (.map m') ∧
      (∀ label, label ∈ GoMap.keys m' ↔ label ∈ GoMap.keys d.FieldExtractions) ∧
      (GoMap.keys m').Nodup ∧
      ∀ label p, (label, p) ∈ d.FieldExtractions →
        ∃ v v', c.JsonPathLookup doc p = .ok v ∧ GoMap.get? m' label = some v' ∧
          Spec.sameValue v v') ∧
    Spec.isJSONValue doc = true ∧
    (∀ v, Spec.fromDocument doc v → Spec.isJSONValue v = true) ∧
    ∀ d2 : DataSource, d2.OutputFormat = OutputJSON → d2.Extract ≠ "" →
      d2.projectJSON c fs basePath = .error ErrUnsupportedOutputFormat := by
  refine ⟨?_, json.isJSONValue_decode content doc hdec,
    fun v hv => json.isJSONValue_fromDocument doc v (json.isJSONValue_decode content doc hdec) hv,
    fun d2 h1 h2 => ?_⟩
  swap
  · have hpre : validateBeforeStructuredProjection d2 = some ErrUnsupportedOutputFormat := by
      unfold validateBeforeStructuredProjection
      have hraw : d2.OutputFormat ≠ OutputRaw := by rw [h1]; decide
      by_cases hc : d2.FieldExtractions.length > 0 ∧
          ¬ (d2.OutputFormat = OutputJSON ∨ d2.OutputFormat = OutputYAML)
      · rw [if_pos hc]
      · rw [if_neg hc, if_pos ⟨h2, hraw⟩]
    unfold DataSource.projectJSON projectStructured
    rw [hpre]
  obtain ⟨vals, hv, hkeys, hmem⟩ := extractFields_resolved (c.JsonPathLookup doc)
    d.FieldExtractions [] (fun p hp => (hres p hp).imp (fun _ h => h.1)) hnd
    (by simp [GoMap.keys])
  rw [List.nil_append] at hv
  have hndv : (GoMap.keys vals).Nodup := by rw [hkeys]; exact hnd
  -- every value handed to the encoder is the value a path resolves to
  have hjson : Spec.isJSONEntries vals = true := by
    rw [json.isJSONEntries_iff]
    intro e he
    obtain ⟨k, v⟩ := e
    have hk : k ∈ GoMap.keys d.FieldExtractions := by
      rw [← hkeys]
      unfold GoMap.keys
      exact List.mem_map.mpr ⟨(k, v), he, rfl⟩
    unfold GoMap.keys at hk
    obtain ⟨⟨k2, p⟩, hp, hk2⟩ := List.mem_map.mp hk
    simp only at hk2
    subst hk2
    obtain ⟨v2, hl, hv2⟩ := hmem k2 p hp
    have e1 := (manifest.get?_eq_some_iff_mem vals hndv k2 v).mpr he
    have e2 := (manifest.get?_eq_some_iff_mem vals hndv k2 v2).mpr hv2
    rw [e1] at e2
    injection e2 with e2
    subst e2
    obtain ⟨v3, hl3, hj3⟩ := hres (k2, p) hp
    simp only at hl3
    rw [hl] at hl3
    injection hl3 with hl3
    subst hl3
    exact hj3
  obtain ⟨b, hm, hd⟩ := json.decode_marshal encodeFloat vals hjson hndv
  rw [json.sortKeys] at hd
  have hperm := json.sortEntries_perm (json.sortKeysEntries vals)
  have hkperm : List.Perm (GoMap.keys (json.sortEntries (json.sortKeysEntries vals)))
      (GoMap.keys vals) := by
    rw [← json.keys_sortKeysEntries vals]
    exact json.keys_sortEntries_perm _
  have hndm : (GoMap.keys (json.sortEntries (json.sortKeysEntries vals))).Nodup :=
    hkperm.nodup_iff.mpr hndv
  refine ⟨b, json.sortEntries (json.sortKeysEntries vals), ?_, hd, ?_, hndm, ?_⟩
  · have hpre : validateBeforeStructuredProjection d = none := by
      unfold validateBeforeStructuredProjection
      rw [if_neg (fun h => h.2 (Or.inl hof)), if_neg (fun h => h.1 hex),
        if_neg (fun h => h.1 hex), if_neg (fun h => by omega)]
    unfold DataSource.projectJSON projectStructured
    rw [hpre]
    simp only
    rw [hread]
    simp only
    rw [hdecoder, hdec]
    simp only
    rw [if_neg (fun h => h hex), hv]
    simp only
    rw [if_pos hof, hmarshal, hm]
  · intro label
    rw [hkperm.mem_iff, hkeys]
  · intro label p hp
    obtain ⟨v, hl, hv2⟩ := hmem label p hp
    refine ⟨v, json.sortKeys v, hl, ?_, json.sameValue_sortKeys v⟩
    rw [manifest.get?_eq_some_iff_mem _ hndm]
    exact hperm.mem_iff.mpr (json.mem_sortKeysEntries vals label v hv2)

/-- C24 amended, at a concrete descriptor: from the document `{"a": 1, "b": ["x<", "é"]}`
the field_extractions `{y: "$.b", x: "$.a"}` project to the single key `out.json` with the
content `{"x":1,"y":["x<","é"]}`, which decodes to a mapping with exactly the labels
`x` and `y`, bound to the values the two paths resolve to. -/
theorem projectJSON_field_extractions_round_trip_witness :
    ((∃ b m', DataSource.projectJSON
        ⟨"app.json", "out.json", "json", "", [("y", "$.b"), ("x", "$.a")], "json"⟩
        exampleCodecs exampleFileSystem "conf" = .ok [("out.json", b)] ∧
      json.Decode b = .ok (.map m') ∧
      (∀ label, label ∈ GoMap.keys m' ↔ label ∈ GoMap.keys [("y", "$.b"), ("x", "$.a")]) ∧
      (GoMap.keys m').Nodup ∧
      ∀ label p, (label, p) ∈ [(("y", "$.b") : String × String), ("x", "$.a")] →
        ∃ v v', exampleCodecs.JsonPathLookup
            (.map [("a", .number "1"), ("b", .slice [.string "x<", .string "é"])]) p = .ok v ∧
          GoMap.get? m' label = some v' ∧ Spec.sameValue v v') ∧
      Spec.isJSONValue
        (.map [("a", .number "1"), ("b", .slice [.string "x<", .string "é"])]) = true ∧
      (∀ v, Spec.fromDocument
        (.map [("a", .number "1"), ("b", .slice [.string "x<", .string "é"])]) v →
        Spec.isJSONValue v = true) ∧
      ∀ d2 : DataSource, d2.OutputFormat = OutputJSON → d2.Extract ≠ "" →
        d2.projectJSON exampleCodecs exampleFileSystem "conf" =
          .error ErrUnsupportedOutputFormat) ∧
    DataSource.projectJSON
        ⟨"app.json", "out.json", "json", "", [("y", "$.b"), ("x", "$.a")], "json"⟩
        exampleCodecs exampleFileSystem "conf" =
      .ok [("out.json", [123, 34, 120, 34, 58, 49, 44, 34, 121, 34, 58, 91, 34, 120, 92, 117,
        48, 48, 51, 99, 34, 44, 34, 195, 169, 34, 93, 125])] ∧
    json.Decode [123, 34, 120, 34, 58, 49, 44, 34, 121, 34, 58, 91, 34, 120, 92, 117,
        48, 48, 51, 99, 34, 44, 34, 195, 169, 34, 93, 125] =
      .ok (.map [("x", .number "1"), ("y", .slice [.string "x<", .string "é"])]) :=
  ⟨projectJSON_field_extractions_round_trip
      ⟨"app.json", "out.json", "json", "", [("y", "$.b"), ("x", "$.a")], "json"⟩
      exampleCodecs exampleFileSystem "conf"
      [123, 34, 97, 34, 58, 32, 49, 44, 32, 34, 98, 34, 58, 32, 91, 34,
        120, 60, 34, 44, 32, 34, 195, 169, 34, 93, 125]
      (.map [("a", .number "1"), ("b", .slice [.string "x<", .string "é"])])
      (fun _ => none) rfl rfl rfl rfl (by decide) (by decide) rfl rfl
      (fun p hp => by
        simp only [List.mem_cons, List.mem_singleton, List.not_mem_nil, or_false] at hp
        rcases hp with rfl | rfl
        · exact ⟨.slice [.string "x<", .string "é"], rfl, rfl⟩
        · exact ⟨.number "1", rfl, rfl⟩),
   rfl, rfl⟩

end datasource
